import Mathlib

/-!
# Verification of the SWIFT task scheduler and cell engine

A shallow embedding, in Lean 4, of the parts of the SWIFT source tree
(`src/scheduler.c`, `src/task.c`, `src/runner.c`, `src/engine.c`) that the
design document's claims are about, together with proofs or refutations of
those claims.

Conventions used throughout:
* C arrays indexed by task/cell id become either Lean `List`s or functions
  `Nat → α` updated with `Function.update`;
* machine integers become `Nat`/`Int` (none of the embedded quantities can
  overflow in the modelled domain);
* the parallel `threadpool_map` phases are modelled as sequential folds:
  every mapped operation is an atomic increment/decrement, and those commute,
  so the final state does not depend on the interleaving;
* `atomic_inc`/`atomic_dec` (from the absent `atomic.h`) return the *old*
  value, as the spec's reading of `scheduler_enqueue_mapper` ("if the result
  is 1 (in-degree was 0), enqueue it") requires;
* fallible code (calls to `error(...)`, which aborts the process) returns
  `Option`/`none`.
-/

/- ===================================================================
   § Task type and subtype codes (src/task.h)

   Only the *positions* of the bits in the type/subtype masks matter for the
   claims; the numeric codes below follow the enum order of the `task.h`
   vintage that matches the `.c` files (`none, sort, self, pair, sub_self,
   sub_pair, init, ghost, extra_ghost, kick, kick_fixdt, send, recv, ...`).
   The subtype codes follow `enum task_subtypes` of the repository's
   `task.h` (`none = 0, density, gradient, force, grav, ...`).
   =================================================================== -/

def task_type_none : Nat := 0
def task_type_self : Nat := 2
def task_type_extra_ghost : Nat := 8
def task_type_grav_mm : Nat := 15

def task_subtype_none : Nat := 0
def task_subtype_density : Nat := 1
def task_subtype_grav : Nat := 4

/- ===================================================================
   § Cell lock protocol (claims C4, C10)

   `cell_locktree` / `cell_glocktree` and their unlock counterparts live in
   `cell.c`, which is not among the sources; they are modelled from the
   spec, §4.1 "Lock protocol":
     "Two logically independent locks per cell (parts-lock and gparts-lock).
      Acquire: if hold>0 on this cell or any ancestor is locked, fail;
      otherwise atomically take the lock and increment hold on every
      ancestor.  Release: decrement ancestors."
   The cell forest is given by the list of strict ancestors of every cell
   (nearest parent first); a lock state carries, for each cell id, the two
   lock bits and the two hold counters.
   =================================================================== -/

structure CellForest where
  chain : Nat → List Nat

structure LockState where
  lock : Nat → Bool
  glock : Nat → Bool
  hold : Nat → Nat
  ghold : Nat → Nat

/-- Modelled from the spec: `cell_locktree` (in the absent `cell.c`),
§4.1 "Acquire: if hold>0 on this cell or any ancestor is locked, fail;
otherwise atomically take the lock and increment hold on every ancestor."
"Atomically take the lock" is a trylock, so it also fails when the cell
itself is already locked.  Returns `(success, new state)`; a failed acquire
leaves the state unchanged. -/
def cell_locktree (F : CellForest) (σ : LockState) (c : Nat) : Bool × LockState :=
  if σ.hold c ≠ 0 ∨ σ.lock c = true ∨ (F.chain c).any (fun a => σ.lock a) then
    (false, σ)
  else
    (true, { σ with
      lock := Function.update σ.lock c true,
      hold := (F.chain c).foldl (fun h a => Function.update h a (h a + 1)) σ.hold })

/-- Modelled from the spec: `cell_unlocktree` (in the absent `cell.c`),
§4.1 "Release: decrement ancestors" (and drop the cell's own lock). -/
def cell_unlocktree (F : CellForest) (σ : LockState) (c : Nat) : LockState :=
  { σ with
    lock := Function.update σ.lock c false,
    hold := (F.chain c).foldl (fun h a => Function.update h a (h a - 1)) σ.hold }

/-- Modelled from the spec: `cell_glocktree`, the gparts-lock variant of
`cell_locktree` (the second of the "two logically independent locks"). -/
def cell_glocktree (F : CellForest) (σ : LockState) (c : Nat) : Bool × LockState :=
  if σ.ghold c ≠ 0 ∨ σ.glock c = true ∨ (F.chain c).any (fun a => σ.glock a) then
    (false, σ)
  else
    (true, { σ with
      glock := Function.update σ.glock c true,
      ghold := (F.chain c).foldl (fun h a => Function.update h a (h a + 1)) σ.ghold })

/-- Modelled from the spec: `cell_gunlocktree`, the gparts-lock variant of
`cell_unlocktree`. -/
def cell_gunlocktree (F : CellForest) (σ : LockState) (c : Nat) : LockState :=
  { σ with
    glock := Function.update σ.glock c false,
    ghold := (F.chain c).foldl (fun h a => Function.update h a (h a - 1)) σ.ghold }

/-- The task fields `task_lock`/`task_unlock` (src/task.c) read: type,
subtype and the two cells.  The type is one of the cases the switch in
`task_lock` distinguishes. -/
inductive LTy where
  | sort | self | sub_self | pair | sub_pair | grav_mm | send | recv | other
deriving DecidableEq

structure LTask where
  type : LTy
  subtype : Nat
  ci : Nat
  cj : Nat

/-- `task_lock` (src/task.c:296-366).  Returns `some (r, σ)` where `r` is the
C return value and `σ` the resulting lock state; `none` models the
`error("SWIFT was not compiled with MPI support.")` abort on the
send/recv cases of a non-MPI build.  `cell_locktree` returns 0 on success
in C (`if (cell_locktree(ci) != 0) return 0;`); the Bool-valued model
inverts that polarity. -/
def task_lock (F : CellForest) (t : LTask) (σ : LockState) :
    Option (Nat × LockState) :=
  match t.type with
  | .send | .recv => none
  | .sort =>
      let r := cell_locktree F σ t.ci
      if r.1 then some (1, r.2) else some (0, σ)
  | .self | .sub_self =>
      if t.subtype = task_subtype_grav then
        let r := cell_glocktree F σ t.ci
        if r.1 then some (1, r.2) else some (0, σ)
      else
        let r := cell_locktree F σ t.ci
        if r.1 then some (1, r.2) else some (0, σ)
  | .pair | .sub_pair =>
      if t.subtype = task_subtype_grav then
        if σ.ghold t.ci ≠ 0 ∨ σ.ghold t.cj ≠ 0 then some (0, σ)
        else
          let r1 := cell_glocktree F σ t.ci
          if r1.1 = false then some (0, σ)
          else
            let r2 := cell_glocktree F r1.2 t.cj
            if r2.1 = false then some (0, cell_gunlocktree F r1.2 t.ci)
            else some (1, r2.2)
      else
        if σ.hold t.ci ≠ 0 ∨ σ.hold t.cj ≠ 0 then some (0, σ)
        else
          let r1 := cell_locktree F σ t.ci
          if r1.1 = false then some (0, σ)
          else
            let r2 := cell_locktree F r1.2 t.cj
            if r2.1 = false then some (0, cell_unlocktree F r1.2 t.ci)
            else some (1, r2.2)
  | .grav_mm => some (1, (cell_glocktree F σ t.ci).2)
  | .other => some (1, σ)

/- Helper lemmas: incrementing and then decrementing the hold counters of
the same ancestor chain is the identity, so releasing a freshly acquired
tree lock restores the original state. -/

theorem foldl_update_add_apply (l : List Nat) (h : Nat → Nat) (a : Nat) :
    (l.foldl (fun h x => Function.update h x (h x + 1)) h) a = h a + l.count a := by
  induction l generalizing h with
  | nil => simp
  | cons x l ih =>
      simp only [List.foldl_cons, ih, List.count_cons]
      rcases eq_or_ne a x with rfl | hne
      · simp only [Function.update_same]
        simp
        omega
      · simp only [Function.update_noteq hne]
        have : ¬(x = a) := fun hx => hne hx.symm
        simp [this]

theorem foldl_update_sub_apply (l : List Nat) (h : Nat → Nat) (a : Nat) :
    (l.foldl (fun h x => Function.update h x (h x - 1)) h) a = h a - l.count a := by
  induction l generalizing h with
  | nil => simp
  | cons x l ih =>
      simp only [List.foldl_cons, ih, List.count_cons]
      rcases eq_or_ne a x with rfl | hne
      · simp only [Function.update_same]
        simp
        omega
      · simp only [Function.update_noteq hne]
        have : ¬(x = a) := fun hx => hne hx.symm
        simp [this]

theorem gunlock_glock (F : CellForest) (σ : LockState) (c : Nat)
    (hs : (cell_glocktree F σ c).1 = true) :
    cell_gunlocktree F (cell_glocktree F σ c).2 c = σ := by
  by_cases hcond : σ.ghold c ≠ 0 ∨ σ.glock c = true ∨ (F.chain c).any (fun a => σ.glock a)
  · rw [cell_glocktree, if_pos hcond] at hs
    exact absurd hs (by simp)
  · rw [cell_glocktree, if_neg hcond]
    push_neg at hcond
    obtain ⟨-, hlock, -⟩ := hcond
    unfold cell_gunlocktree
    cases σ with
    | mk lk glk hd ghd =>
        simp only [LockState.mk.injEq, eq_self_iff_true, true_and, and_true]
        refine ⟨?_, ?_⟩
        · funext a
          rcases eq_or_ne a c with rfl | hne
          · simp only [Function.update_same]
            cases hga : glk a with
            | false => rfl
            | true => exact absurd hga hlock
          · rw [Function.update_noteq hne, Function.update_noteq hne]
        · funext a
          rw [foldl_update_sub_apply]
          rw [foldl_update_add_apply]
          omega

theorem unlock_lock (F : CellForest) (σ : LockState) (c : Nat)
    (hs : (cell_locktree F σ c).1 = true) :
    cell_unlocktree F (cell_locktree F σ c).2 c = σ := by
  by_cases hcond : σ.hold c ≠ 0 ∨ σ.lock c = true ∨ (F.chain c).any (fun a => σ.lock a)
  · rw [cell_locktree, if_pos hcond] at hs
    exact absurd hs (by simp)
  · rw [cell_locktree, if_neg hcond]
    push_neg at hcond
    obtain ⟨-, hlock, -⟩ := hcond
    unfold cell_unlocktree
    cases σ with
    | mk lk glk hd ghd =>
        simp only [LockState.mk.injEq, eq_self_iff_true, true_and, and_true]
        refine ⟨?_, ?_⟩
        · funext a
          rcases eq_or_ne a c with rfl | hne
          · simp only [Function.update_same]
            cases hga : lk a with
            | false => rfl
            | true => exact absurd hga hlock
          · rw [Function.update_noteq hne, Function.update_noteq hne]
        · funext a
          rw [foldl_update_sub_apply]
          rw [foldl_update_add_apply]
          omega

theorem glock_sets (F : CellForest) (σ : LockState) (c : Nat)
    (hs : (cell_glocktree F σ c).1 = true) :
    (cell_glocktree F σ c).2.glock c = true := by
  by_cases hcond : σ.ghold c ≠ 0 ∨ σ.glock c = true ∨ (F.chain c).any (fun a => σ.glock a)
  · rw [cell_glocktree, if_pos hcond] at hs
    exact absurd hs (by simp)
  · rw [cell_glocktree, if_neg hcond]
    simp [Function.update_same]

theorem lock_sets (F : CellForest) (σ : LockState) (c : Nat)
    (hs : (cell_locktree F σ c).1 = true) :
    (cell_locktree F σ c).2.lock c = true := by
  by_cases hcond : σ.hold c ≠ 0 ∨ σ.lock c = true ∨ (F.chain c).any (fun a => σ.lock a)
  · rw [cell_locktree, if_pos hcond] at hs
    exact absurd hs (by simp)
  · rw [cell_locktree, if_neg hcond]
    simp [Function.update_same]

theorem glock_keeps (F : CellForest) (σ : LockState) (c a : Nat)
    (ha : σ.glock a = true) : (cell_glocktree F σ c).2.glock a = true := by
  by_cases hcond : σ.ghold c ≠ 0 ∨ σ.glock c = true ∨ (F.chain c).any (fun x => σ.glock x)
  · rw [cell_glocktree, if_pos hcond]
    exact ha
  · rw [cell_glocktree, if_neg hcond]
    rcases eq_or_ne a c with rfl | hne
    · simp [Function.update_same]
    · simp [Function.update_noteq hne, ha]

theorem lock_keeps (F : CellForest) (σ : LockState) (c a : Nat)
    (ha : σ.lock a = true) : (cell_locktree F σ c).2.lock a = true := by
  by_cases hcond : σ.hold c ≠ 0 ∨ σ.lock c = true ∨ (F.chain c).any (fun x => σ.lock x)
  · rw [cell_locktree, if_pos hcond]
    exact ha
  · rw [cell_locktree, if_neg hcond]
    rcases eq_or_ne a c with rfl | hne
    · simp [Function.update_same]
    · simp [Function.update_noteq hne, ha]

/-- C4.  For every `pair` or `sub_pair` task, `task_lock` is all-or-nothing:
it either returns 1 having acquired the tree locks of both `ci` and `cj`
(in that order, the gravity locks for the `grav` subtype and the parts
locks otherwise), or it returns 0 with the lock state exactly as it found
it — in particular, when the second acquisition fails the first lock is
released again (src/task.c:339-355). -/
theorem task_lock_pair_all_or_nothing (F : CellForest) (t : LTask) (σ : LockState)
    (ht : t.type = LTy.pair ∨ t.type = LTy.sub_pair) :
    task_lock F t σ = some (0, σ) ∨
    ∃ σ', task_lock F t σ = some (1, σ') ∧
      (if t.subtype = task_subtype_grav
        then σ'.glock t.ci = true ∧ σ'.glock t.cj = true
        else σ'.lock t.ci = true ∧ σ'.lock t.cj = true) := by
  obtain ⟨ty, stype, ci, cj⟩ := t
  simp only at ht ⊢
  rcases ht with rfl | rfl <;>
  · by_cases hg : stype = task_subtype_grav
    · by_cases hh : σ.ghold ci ≠ 0 ∨ σ.ghold cj ≠ 0
      · left
        simp [task_lock, hg, hh]
      · cases h1 : (cell_glocktree F σ ci).1 with
        | false =>
            left
            simp [task_lock, hg, hh, h1]
        | true =>
            cases h2 : (cell_glocktree F (cell_glocktree F σ ci).2 cj).1 with
            | false =>
                left
                have hroll : cell_gunlocktree F (cell_glocktree F σ ci).2 ci = σ :=
                  gunlock_glock F σ ci h1
                simp [task_lock, hg, hh, h1, h2, hroll]
            | true =>
                right
                refine ⟨(cell_glocktree F (cell_glocktree F σ ci).2 cj).2, ?_, ?_⟩
                · simp [task_lock, hg, hh, h1, h2]
                · rw [if_pos hg]
                  exact ⟨glock_keeps F _ cj ci (glock_sets F σ ci h1),
                    glock_sets F _ cj h2⟩
    · by_cases hh : σ.hold ci ≠ 0 ∨ σ.hold cj ≠ 0
      · left
        simp [task_lock, hg, hh]
      · cases h1 : (cell_locktree F σ ci).1 with
        | false =>
            left
            simp [task_lock, hg, hh, h1]
        | true =>
            cases h2 : (cell_locktree F (cell_locktree F σ ci).2 cj).1 with
            | false =>
                left
                have hroll : cell_unlocktree F (cell_locktree F σ ci).2 ci = σ :=
                  unlock_lock F σ ci h1
                simp [task_lock, hg, hh, h1, h2, hroll]
            | true =>
                right
                refine ⟨(cell_locktree F (cell_locktree F σ ci).2 cj).2, ?_, ?_⟩
                · simp [task_lock, hg, hh, h1, h2]
                · rw [if_neg hg]
                  exact ⟨lock_keeps F _ cj ci (lock_sets F σ ci h1),
                    lock_sets F _ cj h2⟩

/-- C4 witness: a two-cell forest, a non-grav pair task, free lock state. -/
theorem task_lock_pair_all_or_nothing_witness :
    let F : CellForest := ⟨fun _ => []⟩
    let t : LTask := ⟨LTy.pair, task_subtype_density, 0, 1⟩
    let σ : LockState := ⟨fun _ => false, fun _ => false, fun _ => 0, fun _ => 0⟩
    (t.type = LTy.pair ∨ t.type = LTy.sub_pair) ∧
    (task_lock F t σ = some (0, σ) ∨
      ∃ σ', task_lock F t σ = some (1, σ') ∧
        (if t.subtype = task_subtype_grav
          then σ'.glock t.ci = true ∧ σ'.glock t.cj = true
          else σ'.lock t.ci = true ∧ σ'.lock t.cj = true)) :=
  ⟨Or.inl rfl,
    task_lock_pair_all_or_nothing ⟨fun _ => []⟩ ⟨LTy.pair, task_subtype_density, 0, 1⟩
      ⟨fun _ => false, fun _ => false, fun _ => 0, fun _ => 0⟩ (Or.inl rfl)⟩

/-- C10.  `task_lock` on a `grav_mm` task always reports success: the
return value of `cell_glocktree(ci)` is discarded (src/task.c:359-361,
`case task_type_grav_mm: cell_glocktree(ci); break;`), and the fall-through
`return 1` tells the caller the lock was obtained even when the acquisition
failed. -/
theorem task_lock_grav_mm_always_one (F : CellForest) (t : LTask) (σ : LockState)
    (ht : t.type = LTy.grav_mm) :
    (task_lock F t σ).map Prod.fst = some 1 := by
  obtain ⟨ty, stype, ci, cj⟩ := t
  simp only at ht
  subst ht
  rfl

/-- C10 witness: a state in which the gravity-lock acquisition actually
fails (`ghold ci = 1`) and `task_lock` nonetheless returns 1 with the glock
not taken. -/
theorem task_lock_grav_mm_always_one_witness :
    let F : CellForest := ⟨fun _ => []⟩
    let t : LTask := ⟨LTy.grav_mm, task_subtype_grav, 0, 0⟩
    let σ : LockState := ⟨fun _ => false, fun _ => false, fun _ => 0, fun _ => 1⟩
    t.type = LTy.grav_mm ∧
    (task_lock F t σ).map Prod.fst = some 1 ∧
    (cell_glocktree F σ t.ci).1 = false ∧
    (task_lock F t σ).map (fun p => p.2.glock 0) = some false :=
  ⟨rfl,
    task_lock_grav_mm_always_one ⟨fun _ => []⟩ ⟨LTy.grav_mm, task_subtype_grav, 0, 0⟩
      ⟨fun _ => false, fun _ => false, fun _ => 0, fun _ => 1⟩ rfl,
    by decide, by decide⟩

/- ===================================================================
   § scheduler_ranktasks (claim C2)

   src/scheduler.c:792-842.  The function first raises every task's wait by
   one per incoming unlock edge (all waits are 0 on entry: every task is
   created by scheduler_addtask with wait = 0), seeds `tid` with the tasks
   whose wait stayed 0, and then runs Kahn's algorithm.  Waits are `Int`
   (they are C ints).  Ranks are `Nat`, initialised to 0 exactly as
   scheduler_addtask does (`t->rank = 0`, scheduler.c:704).  `none` models
   the `error("Unsatisfiable task dependencies detected.")` abort; the
   outer loop gets fuel (it advances `j` every iteration, so `n + 1`
   iterations always suffice to reach a verdict).
   =================================================================== -/

/-- One processed frontier task `idx` (the body of the inner `for` loop at
scheduler.c:823-838): assign the current rank, decrement the wait of every
task it unlocks, and append those that reach 0 to `tid`. -/
def rank_process (unl : List (List Nat)) (rk : Nat)
    (st : List Nat × (Nat → Int) × (Nat → Nat)) (idx : Nat) :
    List Nat × (Nat → Int) × (Nat → Nat) :=
  let rank2 := Function.update st.2.2 idx rk
  (unl.getD idx []).foldl
    (fun st u =>
      let w2 := Function.update st.2.1 u (st.2.1 u - 1)
      if w2 u = 0 then (st.1 ++ [u], w2, st.2.2) else (st.1, w2, st.2.2))
    (st.1, st.2.1, rank2)

/-- The main loop of scheduler_ranktasks (scheduler.c:817-840): while
`left < nr_tasks`, fail if the frontier is empty, otherwise process
`tid[j .. left_old)` and continue with `j = left_old`. -/
def ranktasks_loop (unl : List (List Nat)) (n : Nat) :
    Nat → Nat → Nat → List Nat → (Nat → Int) → (Nat → Nat) →
    Option ((Nat → Nat) × List Nat)
  | 0, _, _, _, _, _ => none
  | fuel + 1, j, rk, tid, wait, rank =>
      if tid.length < n then
        if j = tid.length then none
        else
          let frontier := tid.drop j
          let st := frontier.foldl (rank_process unl rk) (tid, wait, rank)
          ranktasks_loop unl n fuel tid.length (rk + 1) st.1 st.2.1 st.2.2
      else
        some (rank, tid)

/-- scheduler_ranktasks (src/scheduler.c:792-842) over the unlock lists of
`n` tasks (`unl` maps each task index to the indices it unlocks).  Returns
the rank assignment and the topological order `tid`, or `none` on the
"Unsatisfiable task dependencies" abort. -/
def scheduler_ranktasks (unl : List (List Nat)) :
    Option ((Nat → Nat) × List Nat) :=
  let n := unl.length
  let wait : Nat → Int :=
    unl.foldl (fun w l => l.foldl (fun w u => Function.update w u (w u + 1)) w)
      (fun _ => 0)
  let tid0 := (List.range n).filter (fun k => wait k = 0)
  ranktasks_loop unl n (n + 1) 0 0 tid0 wait (fun _ => 0)

/-- C2 (code_bug evaluation).  On the three-task chain 0 → 1 → 2 the main
loop of scheduler_ranktasks exits as soon as `left` reaches `nr_tasks`,
*before* the final frontier is processed: task 2 keeps its creation-time
rank 0 while task 1 is assigned rank 1.  The unlock edge (1, 2) therefore
violates the claimed `u.rank < v.rank`, even though the graph is acyclic
and ranking succeeds. -/
theorem ranktasks_chain_last_layer_unranked :
    ∃ p, scheduler_ranktasks [[1], [2], []] = some p ∧
      p.1 0 = 0 ∧ p.1 1 = 1 ∧ p.1 2 = 0 ∧
      2 ∈ ([[1], [2], ([] : List Nat)].getD 1 []) ∧ ¬(p.1 1 < p.1 2) := by
  refine ⟨_, rfl, rfl, rfl, rfl, ?_, ?_⟩
  · decide
  · decide

/- ===================================================================
   § scheduler_start, scheduler_rewait_mapper, scheduler_enqueue_mapper
     (claims C1 and C9)

   src/scheduler.c:978-1060.  A task, as far as this phase reads it, is its
   skip flag, type, subtype and unlock successor list (indices into the
   task array).  The two threadpool_map phases are sequential folds here
   (all the mapped updates are commuting atomic increments/decrements).
   =================================================================== -/

structure STask where
  skip : Bool
  ttype : Nat
  subtype : Nat
  unlocks : List Nat
deriving Inhabited

/-- The filter at the top of scheduler_rewait_mapper (scheduler.c:991):
`if (t->skip || !((1 << t->type) & s->mask) || !((1 << t->subtype) & s->submask)) continue;`
(as the condition for *not* skipping). -/
def task_in_masks (mask submask : Nat) (t : STask) : Bool :=
  !t.skip && mask.testBit t.ttype && submask.testBit t.subtype

/-- The submask actually stored by scheduler_start (scheduler.c:1039):
`s->submask = submask | (1 << task_subtype_none);`. -/
def scheduler_start_submask (submask : Nat) : Nat :=
  submask ||| (1 <<< task_subtype_none)

structure QCell where
  super_owner : Int
  gsuper_owner : Int
deriving Inhabited

structure QTask where
  ttype : Nat
  subtype : Nat
  skip : Bool
  implicit : Bool
  rid : Int
  ci : QCell
  cj : QCell
  unlocks : List Nat
deriving Inhabited

structure QSched where
  mask : Nat
  submask : Nat
  nr_queues : Nat
  queues : List (List Nat)
  waiting : Int
  wait : Nat → Int
  tasks : List QTask
  rand_seq : Nat → Nat
  rand_pos : Nat

/-- `queue_insert(&s->queues[qid], t)` plus the preceding
`atomic_inc(&s->waiting)` (scheduler.c:1176-1179). -/
def queue_insert (s : QSched) (qid : Nat) (ti : Nat) : QSched :=
  { s with
    waiting := s.waiting + 1,
    queues := s.queues.set qid ((s.queues.getD qid []) ++ [ti]) }

/-- The early-return filter of scheduler_enqueue (scheduler.c:1079-1082):
`if (t->skip || (1 << t->type) & ~(s->mask) || (1 << t->subtype) & ~(s->submask)) return;`. -/
def enqueue_dropped (s : QSched) (t : QTask) : Bool :=
  t.skip || !s.mask.testBit t.ttype || !s.submask.testBit t.subtype

/-- C9.  scheduler_start stores `submask | (1 << task_subtype_none)`
(scheduler.c:1039), so bit `task_subtype_none` of the active submask is
always set, and for a task of subtype `none` the subtype factor of the
filters in scheduler_rewait_mapper / scheduler_enqueue_mapper
(`task_in_masks`) and in scheduler_enqueue (`enqueue_dropped`) can never
filter the task out: only its skip flag and the type mask remain. -/
theorem start_submask_never_filters_subtype_none (submask : Nat) :
    (scheduler_start_submask submask).testBit task_subtype_none = true ∧
    (∀ (mask : Nat) (t : STask), t.subtype = task_subtype_none →
      task_in_masks mask (scheduler_start_submask submask) t =
        (!t.skip && mask.testBit t.ttype)) ∧
    (∀ (s : QSched) (t : QTask), s.submask = scheduler_start_submask submask →
      t.subtype = task_subtype_none →
      enqueue_dropped s t = (t.skip || !s.mask.testBit t.ttype)) := by
  have hbit : (scheduler_start_submask submask).testBit task_subtype_none = true := by
    unfold scheduler_start_submask task_subtype_none
    rw [Nat.testBit_or]
    simp [Nat.testBit_one_zero]
  refine ⟨hbit, ?_, ?_⟩
  · intro mask t hsub
    unfold task_in_masks
    rw [hsub, hbit]
    simp
  · intro s t hs hsub
    unfold enqueue_dropped
    rw [hsub, hs, hbit]
    simp

/-- C9 witness: a concrete subtype-none task passes the subtype filter for
the stored submask built from caller submask 8 (which has bit 0 clear). -/
theorem start_submask_never_filters_subtype_none_witness :
    (⟨false, task_type_self, task_subtype_none, []⟩ : STask).subtype =
        task_subtype_none ∧
    task_in_masks (1 <<< task_type_self) (scheduler_start_submask 8)
        ⟨false, task_type_self, task_subtype_none, []⟩ =
      (!(false : Bool) && (1 <<< task_type_self).testBit task_type_self) :=
  ⟨rfl,
    (start_submask_never_filters_subtype_none 8).2.1 (1 <<< task_type_self)
      ⟨false, task_type_self, task_subtype_none, []⟩ rfl⟩

theorem queue_insert_tasks (s : QSched) (q ti : Nat) :
    (queue_insert s q ti).tasks = s.tasks := rfl

theorem queue_insert_wait (s : QSched) (q ti : Nat) :
    (queue_insert s q ti).wait = s.wait := rfl

/-- The per-source edge counts (scheduler.c:732-733). -/
def su_counts (edges : List (Nat × Nat)) : Nat → Nat :=
  edges.foldl (fun c e => Function.update c e.1 (c e.1 + 1)) (fun _ => 0)

/-- The offsets as prefix sums of the counts (scheduler.c:739-740 and,
identically, 757-759). -/
def su_offsets (counts : Nat → Nat) : Nat → Nat
  | 0 => 0
  | k + 1 => su_offsets counts k + counts k

/-- One iteration of the scatter loop (scheduler.c:746-750):
`unlocks[offsets[ind]] = s->unlocks[k]; offsets[ind] += 1;`. -/
def su_step (acc : (Nat → Nat) × (Nat → Nat)) (e : Nat × Nat) :
    (Nat → Nat) × (Nat → Nat) :=
  (Function.update acc.1 (acc.2 e.1) e.2,
   Function.update acc.2 e.1 (acc.2 e.1 + 1))

/-- The scatter loop (scheduler.c:746-750): for each recorded edge, write
its target at the source's running offset and bump that offset.  The
freshly allocated buffer is modelled as the all-zero function. -/
def su_fill (edges : List (Nat × Nat)) (offs : Nat → Nat) :
    (Nat → Nat) × (Nat → Nat) :=
  edges.foldl su_step (fun _ => 0, offs)

structure SUResult where
  nr_unlock_tasks : Nat → Nat
  offsets : Nat → Nat
  unlocks : Nat → Nat

/-- scheduler_set_unlocks (src/scheduler.c:725-784): per-task unlock
counts, slice offsets, and the compacted global unlocks array. -/
def scheduler_set_unlocks (edges : List (Nat × Nat)) : SUResult :=
  let counts := su_counts edges
  let offs := su_offsets counts
  ⟨counts, offs, (su_fill edges offs).1⟩

/-- Task `k`'s unlock list after compaction: the contiguous slice
`unlocks[offsets[k] .. offsets[k] + nr_unlock_tasks[k])`
(scheduler.c:762-766: `t->nr_unlock_tasks = counts[k];
t->unlock_tasks = &s->unlocks[offsets[k]];`). -/
def unlock_slice (r : SUResult) (k : Nat) : List Nat :=
  (List.range (r.nr_unlock_tasks k)).map (fun i => r.unlocks (r.offsets k + i))

theorem su_counts_go (edges : List (Nat × Nat)) (c : Nat → Nat) (k : Nat) :
    (edges.foldl (fun c e => Function.update c e.1 (c e.1 + 1)) c) k =
      c k + (edges.filter (fun e => e.1 = k)).length := by
  induction edges generalizing c with
  | nil => simp
  | cons e rest ih =>
      rw [List.foldl_cons, ih]
      by_cases he : e.1 = k
      · rw [List.filter_cons_of_pos (by simp [he])]
        subst he
        rw [Function.update_same]
        simp only [List.length_cons]
        omega
      · rw [List.filter_cons_of_neg (by simp [he])]
        rw [Function.update_noteq (fun hh => he hh.symm)]

theorem su_counts_apply (edges : List (Nat × Nat)) (k : Nat) :
    su_counts edges k = (edges.filter (fun e => e.1 = k)).length := by
  unfold su_counts
  rw [su_counts_go]
  simp

theorem su_offsets_mono (counts : Nat → Nat) {k1 k2 : Nat} (h : k1 ≤ k2) :
    su_offsets counts k1 ≤ su_offsets counts k2 := by
  induction k2 with
  | zero =>
      have : k1 = 0 := Nat.le_zero.mp h
      subst this
      exact le_refl _
  | succ k ih =>
      rcases Nat.lt_or_ge k1 (k + 1) with hlt | hge
      · have := ih (Nat.lt_succ_iff.mp hlt)
        show _ ≤ su_offsets counts k + counts k
        omega
      · have : k1 = k + 1 := le_antisymm h hge
        subst this
        exact le_refl _

theorem filter_lt_succ_len (edges : List (Nat × Nat)) (n : Nat) :
    (edges.filter (fun e => e.1 < n + 1)).length =
      (edges.filter (fun e => e.1 < n)).length +
      (edges.filter (fun e => e.1 = n)).length := by
  induction edges with
  | nil => simp
  | cons e rest ihe =>
      by_cases h1 : e.1 < n
      · rw [List.filter_cons_of_pos (by simp; omega),
          List.filter_cons_of_pos (by simp; omega),
          List.filter_cons_of_neg (by simp; omega)]
        simp only [List.length_cons]
        omega
      · by_cases h3 : e.1 = n
        · rw [List.filter_cons_of_pos (by simp; omega),
            List.filter_cons_of_neg (by simp; omega),
            List.filter_cons_of_pos (by simp; omega)]
          simp only [List.length_cons]
          omega
        · rw [List.filter_cons_of_neg (by simp; omega),
            List.filter_cons_of_neg (by simp; omega),
            List.filter_cons_of_neg (by simp; omega)]
          exact ihe

theorem su_offsets_total (edges : List (Nat × Nat)) :
    ∀ n, (∀ e ∈ edges, e.1 < n) →
    su_offsets (su_counts edges) n = edges.length := by
  have key : ∀ n, su_offsets (su_counts edges) n =
      (edges.filter (fun e => e.1 < n)).length := by
    intro n
    induction n with
    | zero => simp [su_offsets]
    | succ n ih =>
        show su_offsets (su_counts edges) n + su_counts edges n = _
        rw [ih, su_counts_apply, filter_lt_succ_len]
  intro n hb
  rw [key n]
  congr 1
  apply List.filter_eq_self.mpr
  intro e he
  simp [hb e he]

/-- Invariant of the scatter loop: starting from running offsets `cur`
whose regions (one per source `k < n`, of length = the number of its
remaining edges) are pairwise disjoint, the fold advances each source's
offset by exactly its edge count, leaves every position outside the
regions untouched, and writes each source's targets, in recording order,
into its region. -/
theorem su_fill_go : ∀ (edges : List (Nat × Nat)) (unl cur : Nat → Nat) (n : Nat),
    (∀ e ∈ edges, e.1 < n) →
    (∀ k1 k2, k1 < n → k2 < n → k1 ≠ k2 → ∀ p,
      (cur k1 ≤ p ∧ p < cur k1 + (edges.filter (fun e => e.1 = k1)).length) →
      ¬(cur k2 ≤ p ∧ p < cur k2 + (edges.filter (fun e => e.1 = k2)).length)) →
    (∀ k, k < n →
      (edges.foldl su_step (unl, cur)).2 k =
        cur k + (edges.filter (fun e => e.1 = k)).length) ∧
    (∀ p, (∀ k, k < n →
        ¬(cur k ≤ p ∧ p < cur k + (edges.filter (fun e => e.1 = k)).length)) →
      (edges.foldl su_step (unl, cur)).1 p = unl p) ∧
    (∀ k, k < n →
      (List.range ((edges.filter (fun e => e.1 = k)).length)).map
        (fun i => (edges.foldl su_step (unl, cur)).1 (cur k + i)) =
      (edges.filter (fun e => e.1 = k)).map Prod.snd) := by
  intro edges
  induction edges with
  | nil =>
      intro unl cur n hb hdisj
      refine ⟨fun k hk => by simp, fun p hp => rfl, fun k hk => by simp⟩
  | cons e rest ih =>
      intro unl cur n hb hdisj
      obtain ⟨src, tgt⟩ := e
      have hsrc : src < n := hb _ (List.mem_cons_self _ _)
      have hbr : ∀ e ∈ rest, e.1 < n := fun e he => hb e (List.mem_cons_of_mem _ he)
      set unl1 := Function.update unl (cur src) tgt with hunl1
      set cur1 := Function.update cur src (cur src + 1) with hcur1
      have hfoldcons : ((src, tgt) :: rest).foldl su_step (unl, cur) =
          rest.foldl su_step (unl1, cur1) := by
        rw [List.foldl_cons]
        rfl
      -- lengths of the per-source filters of the full list
      have hlen : ∀ k, ((((src, tgt) :: rest).filter (fun e => e.1 = k)).length) =
          (rest.filter (fun e => e.1 = k)).length + (if src = k then 1 else 0) := by
        intro k
        by_cases hk : src = k
        · rw [List.filter_cons_of_pos (by simp [hk])]
          simp [hk]
        · rw [List.filter_cons_of_neg (by simp [hk])]
          simp [hk]
      -- the region of the tail state is contained in the region of the head state
      have hsub : ∀ k p, k < n →
          (cur1 k ≤ p ∧ p < cur1 k + (rest.filter (fun e => e.1 = k)).length) →
          (cur k ≤ p ∧ p < cur k + ((((src, tgt) :: rest).filter
            (fun e => e.1 = k)).length)) := by
        intro k p hk hp
        rw [hlen k]
        rcases eq_or_ne src k with rfl | hne
        · rw [hcur1, Function.update_same] at hp
          simp only [eq_self_iff_true, if_true]
          omega
        · rw [hcur1, Function.update_noteq (fun hh => hne hh.symm)] at hp
          simp only [if_neg hne]
          omega
      have hdisj1 : ∀ k1 k2, k1 < n → k2 < n → k1 ≠ k2 → ∀ p,
          (cur1 k1 ≤ p ∧ p < cur1 k1 + (rest.filter (fun e => e.1 = k1)).length) →
          ¬(cur1 k2 ≤ p ∧ p < cur1 k2 + (rest.filter (fun e => e.1 = k2)).length) :=
        fun k1 k2 h1 h2 hne p hp1 hp2 =>
          hdisj k1 k2 h1 h2 hne p (hsub k1 p h1 hp1) (hsub k2 p h2 hp2)
      obtain ⟨ih1, ih2, ih3⟩ := ih unl1 cur1 n hbr hdisj1
      have hsrcmem : cur src ≤ cur src ∧
          cur src < cur src + ((((src, tgt) :: rest).filter
            (fun e => e.1 = src)).length) := by
        rw [hlen src]
        simp
      refine ⟨?_, ?_, ?_⟩
      · intro k hk
        rw [hfoldcons]
        rw [ih1 k hk, hlen k]
        rcases eq_or_ne src k with rfl | hne
        · rw [hcur1, Function.update_same]
          simp only [eq_self_iff_true, if_true]
          omega
        · rw [hcur1, Function.update_noteq (fun hh => hne hh.symm)]
          simp only [if_neg hne]
          omega
      · intro p hp
        rw [hfoldcons]
        have hput : p ≠ cur src := by
          intro hpp
          exact hp src hsrc (hpp ▸ hsrcmem)
        have hrest : (rest.foldl su_step (unl1, cur1)).1 p = unl1 p := by
          refine ih2 p ?_
          intro k hk hreg
          exact hp k hk (hsub k p hk hreg)
        rw [hrest, hunl1, Function.update_noteq hput]
      · intro k hk
        rw [hfoldcons]
        rcases eq_or_ne src k with rfl | hne
        · -- source slice: the head entry is written now, the tail by the IH
          rw [List.filter_cons_of_pos (by simp)]
          have hlr : ((src, tgt) :: rest.filter (fun e => e.1 = src)).length =
              (rest.filter (fun e => e.1 = src)).length + 1 := by
            simp
          rw [hlr, List.range_succ_eq_map, List.map_cons, List.map_cons,
            List.cons_eq_cons]
          constructor
          · -- head: position cur src is outside every tail region
            show (rest.foldl su_step (unl1, cur1)).1 (cur src + 0) = tgt
            have hout : ∀ k2, k2 < n →
                ¬(cur1 k2 ≤ cur src ∧ cur src <
                  cur1 k2 + (rest.filter (fun e => e.1 = k2)).length) := by
              intro k2 hk2 hreg
              rcases eq_or_ne src k2 with rfl | hne2
              · rw [hcur1, Function.update_same] at hreg
                omega
              · exact hdisj src k2 hsrc hk2 hne2 (cur src) hsrcmem
                  (hsub k2 (cur src) hk2 hreg)
            have hu := ih2 (cur src) hout
            rw [Nat.add_zero, hu, hunl1, Function.update_same]
          · -- tail: shift the indices by one and use the IH slice
            have hmapeq : (List.map (fun i => (rest.foldl su_step (unl1, cur1)).1
                  (cur src + i)) (List.map Nat.succ
                    (List.range (rest.filter (fun e => e.1 = src)).length))) =
                (List.range ((rest.filter (fun e => e.1 = src)).length)).map
                  (fun i => (rest.foldl su_step (unl1, cur1)).1 (cur1 src + i)) := by
              rw [List.map_map]
              apply List.map_congr_left
              intro i hi
              have harith : cur src + Nat.succ i = cur1 src + i := by
                rw [hcur1, Function.update_same]
                omega
              simp only [Function.comp_apply, harith]
            rw [hmapeq, ih3 src hsrc]
        · -- other sources: same region, same filtered edges
          rw [List.filter_cons_of_neg (by simp [hne])]
          have hcur1k : cur1 k = cur k :=
            Function.update_noteq (fun hh => hne hh.symm) _ _
          have hres := ih3 k hk
          rw [hcur1k] at hres
          exact hres

/-- C3.  After scheduler_set_unlocks, every task `k < n` has
`nr_unlock_tasks` equal to the number of recorded edges with source `k`,
and its slice of the compacted global array is exactly (in recording
order, hence also as a multiset) the targets recorded for source `k`; the
offsets are the prefix sums of the counts, so consecutive slices are
disjoint and together cover all `edges.length` recorded edges. -/
theorem set_unlocks_spec (n : Nat) (edges : List (Nat × Nat))
    (hb : ∀ e ∈ edges, e.1 < n) :
    (∀ k, k < n → (scheduler_set_unlocks edges).nr_unlock_tasks k =
        (edges.filter (fun e => e.1 = k)).length) ∧
    (∀ k, k < n → unlock_slice (scheduler_set_unlocks edges) k =
        (edges.filter (fun e => e.1 = k)).map Prod.snd) ∧
    (∀ k, (scheduler_set_unlocks edges).offsets (k + 1) =
        (scheduler_set_unlocks edges).offsets k +
          (scheduler_set_unlocks edges).nr_unlock_tasks k) ∧
    (scheduler_set_unlocks edges).offsets 0 = 0 ∧
    (scheduler_set_unlocks edges).offsets n = edges.length := by
  have hcnt : ∀ k, (scheduler_set_unlocks edges).nr_unlock_tasks k =
      (edges.filter (fun e => e.1 = k)).length := fun k => su_counts_apply edges k
  have hdisj : ∀ k1 k2, k1 < n → k2 < n → k1 ≠ k2 → ∀ p,
      (su_offsets (su_counts edges) k1 ≤ p ∧
        p < su_offsets (su_counts edges) k1 +
          (edges.filter (fun e => e.1 = k1)).length) →
      ¬(su_offsets (su_counts edges) k2 ≤ p ∧
        p < su_offsets (su_counts edges) k2 +
          (edges.filter (fun e => e.1 = k2)).length) := by
    intro k1 k2 h1 h2 hne p hp1 hp2
    have e1 : su_offsets (su_counts edges) k1 +
        (edges.filter (fun e => e.1 = k1)).length =
        su_offsets (su_counts edges) (k1 + 1) := by
      show _ = su_offsets (su_counts edges) k1 + su_counts edges k1
      rw [su_counts_apply]
    have e2 : su_offsets (su_counts edges) k2 +
        (edges.filter (fun e => e.1 = k2)).length =
        su_offsets (su_counts edges) (k2 + 1) := by
      show _ = su_offsets (su_counts edges) k2 + su_counts edges k2
      rw [su_counts_apply]
    obtain ⟨hp1a, hp1b⟩ := hp1
    obtain ⟨hp2a, hp2b⟩ := hp2
    rcases Nat.lt_or_ge k1 k2 with hlt | hge
    · have hmono := su_offsets_mono (su_counts edges) (Nat.succ_le_of_lt hlt)
      rw [e1] at hp1b
      exact lt_irrefl p (lt_of_lt_of_le hp1b (le_trans hmono hp2a))
    · have hlt : k2 < k1 := lt_of_le_of_ne hge (Ne.symm hne)
      have hmono := su_offsets_mono (su_counts edges) (Nat.succ_le_of_lt hlt)
      rw [e2] at hp2b
      exact lt_irrefl p (lt_of_lt_of_le hp2b (le_trans hmono hp1a))
  obtain ⟨-, -, hslice⟩ := su_fill_go edges (fun _ => 0)
    (su_offsets (su_counts edges)) n hb hdisj
  refine ⟨fun k _ => hcnt k, ?_, fun k => rfl, rfl, su_offsets_total edges n hb⟩
  intro k hk
  unfold unlock_slice
  have := hslice k hk
  show (List.range ((scheduler_set_unlocks edges).nr_unlock_tasks k)).map _ = _
  rw [hcnt k]
  exact this

/-- C3 witness: two tasks, edges (0,5), (1,6), (0,7); task 0's slice is
[5, 7] and task 1's is [6]. -/
theorem set_unlocks_spec_witness :
    (∀ e ∈ [((0 : Nat), (5 : Nat)), (1, 6), (0, 7)], e.1 < 2) ∧
    (∀ k, k < 2 → unlock_slice (scheduler_set_unlocks [(0, 5), (1, 6), (0, 7)]) k =
      (([((0 : Nat), (5 : Nat)), (1, 6), (0, 7)].filter
        (fun e => e.1 = k)).map Prod.snd)) :=
  ⟨by decide,
    (set_unlocks_spec 2 [(0, 5), (1, 6), (0, 7)] (by decide)).2.1⟩

/- ===================================================================
   § runner_do_ghost (claim C8)

   src/runner.c:590-747.  A particle, as far as the ghost loop reads it,
   is its end-of-step time and the smoothing-length fields; the
   floating-point hydro kernels `hydro_end_density`, `hydro_init_part`,
   `hydro_prepare_force`/`hydro_reset_acceleration` and the subset
   re-density sweep over the cell hierarchy (runner.c:694-737) are opaque
   parameter functions — the claim is about the iteration structure, which
   does not depend on them.  Rationals stand for the C floats in the
   Newton-step arithmetic.  The trace records, for every executed round,
   the particle array and pid list at entry and the redo list it produced:
   the redo list is exactly what the subset re-density of that round is
   invoked on.
   =================================================================== -/

structure GPart where
  ti_end : Int
  h : ℚ
  wcount : ℚ
  wcount_dh : ℚ
deriving Inhabited

structure GhostParams where
  ti_current : Int
  target_wcount : ℚ
  delta_wcount : ℚ
  max_smoothing_iter : Nat
  endDensity : GPart → GPart
  initPart : GPart → GPart
  prepForce : GPart → GPart
  reRun : List GPart → List Nat → List GPart

/-- `p->density.wcount > max_wcount || p->density.wcount < min_wcount`
(runner.c:660). -/
def ghost_needs_redo (P : GhostParams) (p : GPart) : Bool :=
  decide (p.wcount > P.target_wcount + P.delta_wcount ∨
    p.wcount < P.target_wcount - P.delta_wcount)

/-- The Newton step with truncation to [-h/2, h] (runner.c:646-656). -/
def ghost_h_corr (P : GhostParams) (p : GPart) : ℚ :=
  if p.wcount_dh = 0 then p.h
  else
    let hc := (P.target_wcount - p.wcount) / p.wcount_dh
    let hc := if hc < p.h then hc else p.h
    if hc > -(1/2) * p.h then hc else -(1/2) * p.h

/-- One round of the ghost loop over the current pid list
(runner.c:630-686): finish the density of each active particle, redo the
unconverged ones (update h, re-init, compact their pids), prepare the
converged ones for the force loop. -/
def ghost_round (P : GhostParams) (parts : List GPart) (pid : List Nat) :
    List GPart × List Nat :=
  pid.foldl
    (fun acc i =>
      let p := acc.1.getD i default
      if p.ti_end ≤ P.ti_current then
        let p1 := P.endDensity p
        if ghost_needs_redo P p1 then
          (acc.1.set i (P.initPart { p1 with h := p1.h + ghost_h_corr P p1 }),
           acc.2 ++ [i])
        else
          (acc.1.set i (P.prepForce p1), acc.2)
      else acc)
    (parts, [])

/-- The rerun loop of runner_do_ghost (runner.c:624-686 and the subset
re-density at 689-737): while particles remain and fewer than
`max_smoothing_iter` rounds have run, run a round and re-run the density
on exactly the redo list.  Returns the final particles, the unconverged
pids, the number of rounds executed, and the per-round trace. -/
def runner_do_ghost_loop (P : GhostParams) (parts : List GPart)
    (pid : List Nat) (num_reruns : Nat) :
    List GPart × List Nat × Nat × List (List GPart × List Nat × List Nat) :=
  if pid.length = 0 ∨ P.max_smoothing_iter ≤ num_reruns then
    (parts, pid, num_reruns, [])
  else
    let r := ghost_round P parts pid
    let parts2 := if r.2.length > 0 then P.reRun r.1 r.2 else r.1
    let rest := runner_do_ghost_loop P parts2 r.2 (num_reruns + 1)
    (rest.1, rest.2.1, rest.2.2.1, (parts, pid, r.2) :: rest.2.2.2)
termination_by P.max_smoothing_iter - num_reruns

/-- The ghost cell: particles plus the cached minimal end-of-step time. -/
inductive GCell where
  | leaf (parts : List GPart) (ti_end_min : Int)
  | node (ch : List GCell) (ti_end_min : Int)

/-- runner_do_ghost (src/runner.c:590-747): inactive cells return at once,
split cells recurse into their progeny, leaves run the bounded rerun loop
over all their particles.  Besides the updated cell it returns, for every
processed leaf, the rounds used, the unconverged pids (reported by
`message(...)` iff non-empty and then left alone), and the round trace. -/
def runner_do_ghost (P : GhostParams) :
    GCell → GCell × List (Nat × List Nat × List (List GPart × List Nat × List Nat))
  | .leaf parts tmin =>
      if tmin > P.ti_current then (.leaf parts tmin, [])
      else
        let r := runner_do_ghost_loop P parts (List.range parts.length) 0
        (.leaf r.1 tmin, [(r.2.2.1, r.2.1, r.2.2.2)])
  | .node ch tmin =>
      if tmin > P.ti_current then (.node ch tmin, [])
      else
        let rs := ch.attach.map (fun c => runner_do_ghost P c.1)
        (.node (rs.map Prod.fst) tmin, (rs.map Prod.snd).flatten)
decreasing_by
  simp only [GCell.node.sizeOf_spec]
  have := List.sizeOf_lt_of_mem c.2
  omega

theorem getD_set_ne {α : Type} (l : List α) (i j : Nat) (h : i ≠ j) (v d : α) :
    (l.set i v).getD j d = l.getD j d := by
  simp [List.getD_eq_getElem?_getD, List.getElem?_set_ne h]

/-- The predicate deciding, over the particle state at round entry,
whether pid `i` is redone this round. -/
def ghost_redo_pred (P : GhostParams) (parts : List GPart) (i : Nat) : Bool :=
  decide ((parts.getD i default).ti_end ≤ P.ti_current) &&
    ghost_needs_redo P (P.endDensity (parts.getD i default))

/-- A round's redo list is exactly the sublist of its pid list whose
particles are active and, after `hydro_end_density`, outside
`target_neighbours ± delta_neighbours` (pids are distinct, so each
particle is inspected in its round-entry state). -/
theorem ghost_round_redo (P : GhostParams) :
    ∀ (pid : List Nat) (parts : List GPart) (acc : List Nat), pid.Nodup →
    (pid.foldl
      (fun acc i =>
        let p := acc.1.getD i default
        if p.ti_end ≤ P.ti_current then
          let p1 := P.endDensity p
          if ghost_needs_redo P p1 then
            (acc.1.set i (P.initPart { p1 with h := p1.h + ghost_h_corr P p1 }),
             acc.2 ++ [i])
          else
            (acc.1.set i (P.prepForce p1), acc.2)
        else acc)
      (parts, acc)).2 = acc ++ pid.filter (ghost_redo_pred P parts) := by
  intro pid
  induction pid with
  | nil =>
      intro parts acc h
      simp
  | cons i tl ih =>
      intro parts acc h
      have hnd : tl.Nodup := h.of_cons
      have hni : i ∉ tl := (List.nodup_cons.mp h).1
      rw [List.foldl_cons]
      have hcongr : ∀ parts2 : List GPart,
          (∀ j, j ∈ tl → parts2.getD j default = parts.getD j default) →
          tl.filter (ghost_redo_pred P parts2) =
            tl.filter (ghost_redo_pred P parts) := by
        intro parts2 hsame
        apply List.filter_congr
        intro j hj
        unfold ghost_redo_pred
        rw [hsame j hj]
      by_cases hact : (parts.getD i default).ti_end ≤ P.ti_current
      · rw [if_pos hact]
        by_cases hredo : ghost_needs_redo P (P.endDensity (parts.getD i default)) = true
        · rw [if_pos hredo]
          have hstep := ih (parts.set i
            (P.initPart { P.endDensity (parts.getD i default) with
              h := (P.endDensity (parts.getD i default)).h +
                ghost_h_corr P (P.endDensity (parts.getD i default)) }))
            (acc ++ [i]) hnd
          rw [hstep, hcongr _ (fun j hj =>
            getD_set_ne parts i j (fun hh => hni (hh ▸ hj)) _ _)]
          have hpred : ghost_redo_pred P parts i = true := by
            unfold ghost_redo_pred
            rw [Bool.and_eq_true]
            exact ⟨decide_eq_true hact, hredo⟩
          rw [List.filter_cons, if_pos hpred]
          simp
        · rw [if_neg hredo]
          have hstep := ih (parts.set i (P.prepForce (P.endDensity
            (parts.getD i default)))) acc hnd
          rw [hstep, hcongr _ (fun j hj =>
            getD_set_ne parts i j (fun hh => hni (hh ▸ hj)) _ _)]
          have hpred : ghost_redo_pred P parts i = false := by
            unfold ghost_redo_pred
            cases hv : ghost_needs_redo P (P.endDensity (parts.getD i default)) with
            | false => simp
            | true => exact absurd hv hredo
          rw [List.filter_cons, if_neg (by simp [hpred])]
      · rw [if_neg hact]
        have hstep := ih parts acc hnd
        rw [hstep]
        have hpred : ghost_redo_pred P parts i = false := by
          unfold ghost_redo_pred
          have hd : decide ((parts.getD i default).ti_end ≤ P.ti_current) = false :=
            decide_eq_false hact
          rw [hd]
          simp
        rw [List.filter_cons, if_neg (by simp [hpred])]

theorem ghost_round_redo_nil (P : GhostParams) (parts : List GPart)
    (pid : List Nat) (h : pid.Nodup) :
    (ghost_round P parts pid).2 = pid.filter (ghost_redo_pred P parts) := by
  unfold ghost_round
  rw [ghost_round_redo P pid parts [] h]
  simp

theorem ghost_loop_spec (P : GhostParams) :
    ∀ (k parts : _) (pid : List Nat) (num : Nat),
      P.max_smoothing_iter - num = k → pid.Nodup → num ≤ P.max_smoothing_iter →
      (runner_do_ghost_loop P parts pid num).2.2.1 ≤ P.max_smoothing_iter ∧
      ((runner_do_ghost_loop P parts pid num).2.2.1 < P.max_smoothing_iter →
        (runner_do_ghost_loop P parts pid num).2.1 = []) ∧
      (∀ tr ∈ (runner_do_ghost_loop P parts pid num).2.2.2,
        tr.2.2 = tr.2.1.filter (ghost_redo_pred P tr.1)) := by
  intro k
  induction k with
  | zero =>
      intro parts pid num hk hnd hnum
      have hle : P.max_smoothing_iter ≤ num := by omega
      rw [runner_do_ghost_loop, if_pos (Or.inr hle)]
      exact ⟨hnum, fun hlt =>
        absurd (show num < P.max_smoothing_iter from hlt) (by omega), by simp⟩
  | succ k ihk =>
      intro parts pid num hk hnd hnum
      rw [runner_do_ghost_loop]
      by_cases hcond : pid.length = 0 ∨ P.max_smoothing_iter ≤ num
      · rw [if_pos hcond]
        refine ⟨hnum, ?_, by simp⟩
        intro hlt
        rcases hcond with hcond | hcond
        · exact List.length_eq_zero.mp hcond
        · omega
      · rw [if_neg hcond]
        push_neg at hcond
        have hlt : num < P.max_smoothing_iter := hcond.2
        have hnd2 : (ghost_round P parts pid).2.Nodup := by
          rw [ghost_round_redo_nil P parts pid hnd]
          exact hnd.filter _
        have hrec := ihk
          (if (ghost_round P parts pid).2.length > 0 then
            P.reRun (ghost_round P parts pid).1 (ghost_round P parts pid).2
          else (ghost_round P parts pid).1)
          (ghost_round P parts pid).2 (num + 1) (by omega) hnd2 (by omega)
        refine ⟨hrec.1, hrec.2.1, ?_⟩
        intro tr htr
        rcases List.mem_cons.mp htr with rfl | htr
        · exact ghost_round_redo_nil P parts pid hnd
        · exact hrec.2.2 tr htr

/-- C8.  For every cell: runner_do_ghost executes at most
`max_smoothing_iterations` rounds of the smoothing-length loop on each
leaf (the loop is a total function, so it always terminates); every round
re-runs the density computation on exactly the pids whose particles are
active and whose neighbour count, after `hydro_end_density`, lies outside
`target_neighbours ± delta_neighbours`; and if the loop stopped short of
the bound then no unconverged particle remains — otherwise the leftovers
are reported (`message("Smoothing length failed to converge on %i
particles.")`) and not iterated further. -/
theorem runner_do_ghost_spec (P : GhostParams) (c : GCell) :
    ∀ e ∈ (runner_do_ghost P c).2,
      e.1 ≤ P.max_smoothing_iter ∧
      (e.1 < P.max_smoothing_iter → e.2.1 = []) ∧
      (∀ tr ∈ e.2.2, tr.2.2 = tr.2.1.filter (ghost_redo_pred P tr.1)) := by
  generalize hn : sizeOf c = n
  induction n using Nat.strong_induction_on generalizing c with
  | _ n ih =>
      cases c with
      | leaf parts tmin =>
          intro e he
          rw [runner_do_ghost] at he
          by_cases hskip : tmin > P.ti_current
          · rw [if_pos hskip] at he
            exact absurd he (by simp)
          · rw [if_neg hskip] at he
            have hspec := ghost_loop_spec P (P.max_smoothing_iter - 0) parts
              (List.range parts.length) 0 rfl (List.nodup_range _) (Nat.zero_le _)
            have he2 : e = ((runner_do_ghost_loop P parts
                (List.range parts.length) 0).2.2.1,
              (runner_do_ghost_loop P parts (List.range parts.length) 0).2.1,
              (runner_do_ghost_loop P parts (List.range parts.length) 0).2.2.2) := by
              simpa using he
            subst he2
            exact ⟨hspec.1, hspec.2.1, hspec.2.2⟩
      | node ch tmin =>
          intro e he
          rw [runner_do_ghost] at he
          by_cases hskip : tmin > P.ti_current
          · rw [if_pos hskip] at he
            exact absurd he (by simp)
          · rw [if_neg hskip] at he
            simp only [List.mem_flatten, List.mem_map] at he
            obtain ⟨l, ⟨pr, hpr, rfl⟩, hel⟩ := he
            obtain ⟨cc, hcc, hpr2⟩ := hpr
            subst hpr2
            have hsz : sizeOf cc.1 < n := by
              rw [← hn, GCell.node.sizeOf_spec]
              have := List.sizeOf_lt_of_mem cc.2
              omega
            exact ih (sizeOf cc.1) hsz cc.1 rfl e hel

/-- C8 witness: a leaf with no particles under a bound of 3 rounds; the
loop runs 0 rounds and reports nothing. -/
theorem runner_do_ghost_spec_witness :
    let P0 : GhostParams := ⟨0, 1, 0, 3, id, id, id, fun ps _ => ps⟩
    let c0 : GCell := GCell.leaf [] 0
    let e0 : Nat × List Nat × List (List GPart × List Nat × List Nat) :=
      (0, [], [])
    e0 ∈ (runner_do_ghost P0 c0).2 ∧
    (e0.1 ≤ P0.max_smoothing_iter ∧
      (e0.1 < P0.max_smoothing_iter → e0.2.1 = []) ∧
      (∀ tr ∈ e0.2.2, tr.2.2 = tr.2.1.filter (ghost_redo_pred P0 tr.1))) := by
  intro P0 c0 e0
  have hm : e0 ∈ (runner_do_ghost P0 c0).2 := by
    show e0 ∈ (runner_do_ghost P0 (GCell.leaf [] 0)).2
    rw [runner_do_ghost, if_neg (by norm_num), runner_do_ghost_loop,
      if_pos (Or.inl (by simp))]
    simp [e0]
  exact ⟨hm, runner_do_ghost_spec P0 c0 e0 hm⟩

/- ===================================================================
   § engine_make_hydroloop_tasks (claim C7)

   src/engine.c:1298-1358.  The space is the top-level grid: dimensions
   `cdim`, the periodicity flag, and per-cell-id particle count and owning
   node.  `cell_getid` is not among the sources (space.c is absent); it is
   modelled from the spec as the row-major id the grid loops and
   partition.c's adjacency construction use.  The `sortlistID[27]` table
   lives in the absent space.c too, so the generator takes it as a
   parameter `slid`; the claims only say the pair's flag is the table
   entry for the offset.
   =================================================================== -/

structure HConf where
  cdim0 : Nat
  cdim1 : Nat
  cdim2 : Nat
  periodic : Bool
  cellCount : Nat → Nat
  cellNode : Nat → Nat
  nodeID : Nat

/-- Modelled from the spec: `cell_getid` (in the absent space.c), the
row-major top-grid id `(i*cdim[1] + j)*cdim[2] + k`. -/
def cell_getid (c : HConf) (i j k : Nat) : Nat :=
  (i * c.cdim1 + j) * c.cdim2 + k

inductive HTask where
  | self (ci : Nat)
  | pair (sid : Nat) (ci cj : Nat)
deriving DecidableEq

/-- The neighbour-coordinate computation of the inner loops
(engine.c:1324-1335): `iii = i + ii; if (!periodic && (iii < 0 || iii >=
cdim)) continue; iii = (iii + cdim) % cdim;`. -/
def hl_wrap (per : Bool) (dim : Nat) (x : Int) : Option Nat :=
  if per = false ∧ (x < 0 ∨ x ≥ (dim : Int)) then none
  else some ((x + dim) % (dim : Int)).toNat

def hl_offsets : List Int := [-1, 0, 1]

/-- The innermost loop body (engine.c:1332-1352), for one `kk` offset:
wrap the neighbour coordinate, then either skip (`cid >= cjd`, `cj`
empty, or both cells foreign) or emit the pair/density task flagged
`sortlistID[(kk+1) + 3*((jj+1) + 3*(ii+1))]`. -/
def hl_pair_kk (c : HConf) (slid : Nat → Nat) (cid : Nat) (ii jj : Int)
    (iii jjj : Nat) (k : Nat) (kk : Int) : List HTask :=
  match hl_wrap c.periodic c.cdim2 ((k : Int) + kk) with
  | none => []
  | some kkk =>
      let cjd := cell_getid c iii jjj kkk
      if cid ≥ cjd ∨ c.cellCount cjd = 0 ∨
          (c.cellNode cid ≠ c.nodeID ∧ c.cellNode cjd ≠ c.nodeID) then []
      else
        [HTask.pair (slid ((kk + 1) + 3 * ((jj + 1) + 3 * (ii + 1))).toNat)
          cid cjd]

def hl_pair_jj (c : HConf) (slid : Nat → Nat) (cid : Nat) (ii : Int)
    (iii : Nat) (j k : Nat) (jj : Int) : List HTask :=
  match hl_wrap c.periodic c.cdim1 ((j : Int) + jj) with
  | none => []
  | some jjj => hl_offsets.flatMap (hl_pair_kk c slid cid ii jj iii jjj k)

def hl_pair_ii (c : HConf) (slid : Nat → Nat) (cid : Nat) (i j k : Nat)
    (ii : Int) : List HTask :=
  match hl_wrap c.periodic c.cdim0 ((i : Int) + ii) with
  | none => []
  | some iii => hl_offsets.flatMap (hl_pair_jj c slid cid ii iii j k)

/-- The body of the grid loop for one top cell (engine.c:1310-1354): skip
empty cells, emit the self/density task if the cell is local, then loop
over the 27 neighbour offsets. -/
def hl_cell (c : HConf) (slid : Nat → Nat) (i j k : Nat) : List HTask :=
  let cid := cell_getid c i j k
  if c.cellCount cid = 0 then []
  else
    (if c.cellNode cid = c.nodeID then [HTask.self cid] else []) ++
    hl_offsets.flatMap (hl_pair_ii c slid cid i j k)

/-- engine_make_hydroloop_tasks (src/engine.c:1298-1358): one self/density
task per non-empty local top cell, and one pair/density task per loop
visit of a neighbour `cj` of `ci` with `cid < cjd`, `cj` non-empty and at
least one of the two cells local, flagged `sortlistID[(kk+1) + 3*((jj+1) +
3*(ii+1))]`. -/
def engine_make_hydroloop_tasks (c : HConf) (slid : Nat → Nat) : List HTask :=
  (List.range c.cdim0).flatMap (fun i =>
  (List.range c.cdim1).flatMap (fun j =>
  (List.range c.cdim2).flatMap (fun k => hl_cell c slid i j k)))

/-- C7 counterexample.  Two top cells on a 2×1×1 non-periodic grid:
cell 0 is non-empty but *foreign*, cell 1 is non-empty and local.  The
code emits the pair (0, 1) — the condition at engine.c:1342-1344 only
skips a pair when *both* cells are foreign — while the claim allows pair
tasks only for local `ci`, and claims no other hydro tasks are created. -/
theorem hydroloop_emits_foreign_ci_pair :
    let c : HConf := ⟨2, 1, 1, false, fun _ => 1,
      fun cid => if cid = 0 then 1 else 0, 0⟩
    HTask.pair 22 0 1 ∈ engine_make_hydroloop_tasks c (fun x => x) ∧
    c.cellNode 0 ≠ c.nodeID := by
  refine ⟨?_, by decide⟩
  decide

theorem count_flatMap_single {α β : Type} [DecidableEq α] [DecidableEq β]
    (l : List α) (f : α → List β) (x : β) (a0 : α) (hnd : l.Nodup)
    (hother : ∀ a ∈ l, a ≠ a0 → (f a).count x = 0) :
    (l.flatMap f).count x = if a0 ∈ l then (f a0).count x else 0 := by
  induction l with
  | nil => simp
  | cons a tl ih =>
      have hnd2 : tl.Nodup := hnd.of_cons
      have hna : a ∉ tl := (List.nodup_cons.mp hnd).1
      rw [List.flatMap_cons, List.count_append]
      rcases eq_or_ne a a0 with rfl | hne
      · have htl : (tl.flatMap f).count x = 0 := by
          rw [ih hnd2 (fun b hb hbne => hother b (List.mem_cons_of_mem _ hb) hbne)]
          simp [hna]
        rw [htl, if_pos (List.mem_cons_self _ _)]
        omega
      · have hfa : (f a).count x = 0 := hother a (List.mem_cons_self _ _) hne
        rw [hfa, ih hnd2 (fun b hb hbne => hother b (List.mem_cons_of_mem _ hb) hbne)]
        by_cases hm : a0 ∈ tl
        · rw [if_pos hm, if_pos (List.mem_cons_of_mem _ hm)]
          omega
        · rw [if_neg hm, if_neg (by
            intro hc
            rcases List.mem_cons.mp hc with hc | hc
            · exact hne hc.symm
            · exact hm hc)]

theorem hl_wrap_lt (per : Bool) (dim : Nat) (hdim : 1 ≤ dim) (x : Int)
    (y : Nat) (h : hl_wrap per dim x = some y) : y < dim := by
  unfold hl_wrap at h
  by_cases hc : per = false ∧ (x < 0 ∨ x ≥ (dim : Int))
  · rw [if_pos hc] at h
    exact absurd h (by simp)
  · rw [if_neg hc] at h
    have hy : ((x + dim) % (dim : Int)).toNat = y := by
      simpa using h
    have hdpos : (0 : Int) < dim := by exact_mod_cast hdim
    have hlt := Int.emod_lt_of_pos (x + dim) hdpos
    have hge : 0 ≤ (x + dim) % (dim : Int) := Int.emod_nonneg _ (by omega)
    have hyy : (y : Int) = (x + dim) % (dim : Int) := by
      rw [← hy, Int.toNat_of_nonneg hge]
    have hfin : (y : Int) < (dim : Int) := by
      rw [hyy]
      exact hlt
    exact_mod_cast hfin

theorem hl_wrap_nonper (dim : Nat) (x : Int) (y : Nat)
    (h : hl_wrap false dim x = some y) : 0 ≤ x ∧ x < dim ∧ (x.toNat = y) := by
  unfold hl_wrap at h
  by_cases hc : (false = false) ∧ (x < 0 ∨ x ≥ (dim : Int))
  · rw [if_pos hc] at h
    exact absurd h (by simp)
  · rw [if_neg hc] at h
    have hx : 0 ≤ x ∧ x < dim := by
      rcases not_and_or.mp hc with hc | hc
      · exact absurd rfl hc
      · push_neg at hc
        exact ⟨hc.1, hc.2⟩
    have hy : ((x + dim) % (dim : Int)).toNat = y := by
      simpa using h
    have hmod : (x + dim) % (dim : Int) = x := by
      have h1 : (x + (dim : Int)) % dim = x % dim := by
        have h2 := Int.add_mul_emod_self_left (a := x) (b := (dim : Int)) (c := 1)
        simpa using h2
      rw [h1]
      exact Int.emod_eq_of_lt hx.1 hx.2
    refine ⟨hx.1, hx.2, ?_⟩
    rw [← hy, hmod]

theorem hl_wrap_inj (per : Bool) (dim : Nat) (hdim : 1 ≤ dim)
    (h3 : per = true → 3 ≤ dim) (i : Nat) (o1 o2 : Int)
    (hm1 : -1 ≤ o1 ∧ o1 ≤ 1) (hm2 : -1 ≤ o2 ∧ o2 ≤ 1) (y : Nat)
    (h1 : hl_wrap per dim ((i : Int) + o1) = some y)
    (h2 : hl_wrap per dim ((i : Int) + o2) = some y) : o1 = o2 := by
  cases per with
  | false =>
      obtain ⟨ha1, hb1, hc1⟩ := hl_wrap_nonper dim _ y h1
      obtain ⟨ha2, hb2, hc2⟩ := hl_wrap_nonper dim _ y h2
      omega
  | true =>
      have hdpos : (0 : Int) < dim := by
        have := h3 rfl
        exact_mod_cast (by omega : 0 < dim)
      have hy1 : (((i : Int) + o1 + dim) % (dim : Int)).toNat = y := by
        unfold hl_wrap at h1
        rw [if_neg (by simp)] at h1
        simpa using h1
      have hy2 : (((i : Int) + o2 + dim) % (dim : Int)).toNat = y := by
        unfold hl_wrap at h2
        rw [if_neg (by simp)] at h2
        simpa using h2
      have hmn1 : 0 ≤ ((i : Int) + o1 + dim) % (dim : Int) :=
        Int.emod_nonneg _ (by omega)
      have hmn2 : 0 ≤ ((i : Int) + o2 + dim) % (dim : Int) :=
        Int.emod_nonneg _ (by omega)
      have hmeq : ((i : Int) + o1 + dim) % (dim : Int) =
          ((i : Int) + o2 + dim) % (dim : Int) := by
        rw [← Int.toNat_of_nonneg hmn1, ← Int.toNat_of_nonneg hmn2, hy1, hy2]
      have hz : ((i : Int) + o1 + dim - ((i : Int) + o2 + dim)) % (dim : Int) = 0 :=
        Int.emod_eq_emod_iff_emod_sub_eq_zero.mp hmeq
      have hdvd : (dim : Int) ∣ (o1 - o2) := by
        have : (i : Int) + o1 + dim - ((i : Int) + o2 + dim) = o1 - o2 := by ring
        rw [this] at hz
        exact Int.dvd_of_emod_eq_zero hz
      have habs : |o1 - o2| < (dim : Int) := by
        rw [abs_lt]
        have := h3 rfl
        have : (3 : Int) ≤ dim := by exact_mod_cast this
        omega
      have := Int.eq_zero_of_abs_lt_dvd hdvd habs
      omega

theorem base_inj {a b k1 k2 cc : Nat} (h1 : k1 < cc) (h2 : k2 < cc)
    (heq : a * cc + k1 = b * cc + k2) : a = b ∧ k1 = k2 := by
  have hcc : 0 < cc := by omega
  have hk : k1 = k2 := by
    have ha : (a * cc + k1) % cc = k1 := by
      rw [Nat.mul_comm, Nat.mul_add_mod]
      exact Nat.mod_eq_of_lt h1
    have hb : (b * cc + k2) % cc = k2 := by
      rw [Nat.mul_comm, Nat.mul_add_mod]
      exact Nat.mod_eq_of_lt h2
    rw [← ha, ← hb, heq]
  constructor
  · have : a * cc = b * cc := by omega
    exact Nat.eq_of_mul_eq_mul_right hcc this
  · exact hk

theorem cell_getid_inj (c : HConf) {i1 j1 k1 i2 j2 k2 : Nat}
    (hj1 : j1 < c.cdim1) (hk1 : k1 < c.cdim2)
    (hj2 : j2 < c.cdim1) (hk2 : k2 < c.cdim2)
    (heq : cell_getid c i1 j1 k1 = cell_getid c i2 j2 k2) :
    i1 = i2 ∧ j1 = j2 ∧ k1 = k2 := by
  unfold cell_getid at heq
  obtain ⟨hrow, hkk⟩ := base_inj hk1 hk2 heq
  obtain ⟨hii, hjj⟩ := base_inj hj1 hj2 hrow
  exact ⟨hii, hjj, hkk⟩

/-- The pair-emission conditions of engine.c:1342-1344, in positive form. -/
def hl_pair_ok (c : HConf) (cid cjd : Nat) : Prop :=
  cid < cjd ∧ c.cellCount cjd ≠ 0 ∧
    (c.cellNode cid = c.nodeID ∨ c.cellNode cjd = c.nodeID)

instance (c : HConf) (cid cjd : Nat) : Decidable (hl_pair_ok c cid cjd) := by
  unfold hl_pair_ok
  infer_instance

theorem hl_pair_kk_eq (c : HConf) (slid : Nat → Nat) (cid : Nat) (ii jj : Int)
    (iii jjj : Nat) (k : Nat) (kk : Int) :
    hl_pair_kk c slid cid ii jj iii jjj k kk =
      match hl_wrap c.periodic c.cdim2 ((k : Int) + kk) with
      | none => []
      | some kkk =>
          if hl_pair_ok c cid (cell_getid c iii jjj kkk) then
            [HTask.pair (slid ((kk + 1) + 3 * ((jj + 1) + 3 * (ii + 1))).toNat)
              cid (cell_getid c iii jjj kkk)]
          else [] := by
  unfold hl_pair_kk
  cases hl_wrap c.periodic c.cdim2 ((k : Int) + kk) with
  | none => rfl
  | some kkk =>
      simp only
      by_cases hok : hl_pair_ok c cid (cell_getid c iii jjj kkk)
      · rw [if_pos hok]
        rw [if_neg]
        push_neg
        refine ⟨hok.1, hok.2.1, ?_⟩
        intro hci
        rcases hok.2.2 with hl | hl
        · exact absurd hl hci
        · exact hl
      · rw [if_neg hok]
        rw [if_pos]
        by_cases hlt : cid < cell_getid c iii jjj kkk
        · by_cases hcnt : c.cellCount (cell_getid c iii jjj kkk) = 0
          · exact Or.inr (Or.inl hcnt)
          · refine Or.inr (Or.inr ⟨?_, ?_⟩)
            · intro hci
              exact hok ⟨hlt, hcnt, Or.inl hci⟩
            · intro hcj
              exact hok ⟨hlt, hcnt, Or.inr hcj⟩
        · exact Or.inl (by omega)

theorem mem_hl_pair_kk (c : HConf) (slid : Nat → Nat) (cid : Nat)
    (ii jj : Int) (iii jjj : Nat) (k : Nat) (kk : Int) (t : HTask)
    (h : t ∈ hl_pair_kk c slid cid ii jj iii jjj k kk) :
    ∃ kkk, hl_wrap c.periodic c.cdim2 ((k : Int) + kk) = some kkk ∧
      hl_pair_ok c cid (cell_getid c iii jjj kkk) ∧
      t = HTask.pair (slid ((kk + 1) + 3 * ((jj + 1) + 3 * (ii + 1))).toNat)
        cid (cell_getid c iii jjj kkk) := by
  rw [hl_pair_kk_eq] at h
  split at h
  · exact absurd h (by simp)
  · rename_i kkk hw
    split at h
    · rename_i hok
      exact ⟨kkk, hw, hok, List.mem_singleton.mp h⟩
    · exact absurd h (by simp)

theorem mem_hl_pair_jj (c : HConf) (slid : Nat → Nat) (cid : Nat) (ii : Int)
    (iii : Nat) (j k : Nat) (jj : Int) (t : HTask)
    (h : t ∈ hl_pair_jj c slid cid ii iii j k jj) :
    ∃ jjj kk kkk, hl_wrap c.periodic c.cdim1 ((j : Int) + jj) = some jjj ∧
      kk ∈ hl_offsets ∧
      hl_wrap c.periodic c.cdim2 ((k : Int) + kk) = some kkk ∧
      hl_pair_ok c cid (cell_getid c iii jjj kkk) ∧
      t = HTask.pair (slid ((kk + 1) + 3 * ((jj + 1) + 3 * (ii + 1))).toNat)
        cid (cell_getid c iii jjj kkk) := by
  unfold hl_pair_jj at h
  split at h
  · exact absurd h (by simp)
  · rename_i jjj hw
    obtain ⟨kk, hkk, hmem⟩ := List.mem_flatMap.mp h
    obtain ⟨kkk, hwk, hok, ht⟩ := mem_hl_pair_kk c slid cid ii jj iii jjj k kk t hmem
    exact ⟨jjj, kk, kkk, hw, hkk, hwk, hok, ht⟩

theorem mem_hl_pair_ii (c : HConf) (slid : Nat → Nat) (cid : Nat)
    (i j k : Nat) (ii : Int) (t : HTask)
    (h : t ∈ hl_pair_ii c slid cid i j k ii) :
    ∃ iii jj jjj kk kkk,
      hl_wrap c.periodic c.cdim0 ((i : Int) + ii) = some iii ∧
      jj ∈ hl_offsets ∧
      hl_wrap c.periodic c.cdim1 ((j : Int) + jj) = some jjj ∧
      kk ∈ hl_offsets ∧
      hl_wrap c.periodic c.cdim2 ((k : Int) + kk) = some kkk ∧
      hl_pair_ok c cid (cell_getid c iii jjj kkk) ∧
      t = HTask.pair (slid ((kk + 1) + 3 * ((jj + 1) + 3 * (ii + 1))).toNat)
        cid (cell_getid c iii jjj kkk) := by
  unfold hl_pair_ii at h
  split at h
  · exact absurd h (by simp)
  · rename_i iii hw
    obtain ⟨jj, hjj, hmem⟩ := List.mem_flatMap.mp h
    obtain ⟨jjj, kk, kkk, hwj, hkk, hwk, hok, ht⟩ :=
      mem_hl_pair_jj c slid cid ii iii j k jj t hmem
    exact ⟨iii, jj, jjj, kk, kkk, hw, hjj, hwj, hkk, hwk, hok, ht⟩

theorem mem_hl_cell (c : HConf) (slid : Nat → Nat) (i j k : Nat) (t : HTask)
    (h : t ∈ hl_cell c slid i j k) :
    c.cellCount (cell_getid c i j k) ≠ 0 ∧
    ((t = HTask.self (cell_getid c i j k) ∧
        c.cellNode (cell_getid c i j k) = c.nodeID) ∨
      (∃ ii iii jj jjj kk kkk, ii ∈ hl_offsets ∧
        hl_wrap c.periodic c.cdim0 ((i : Int) + ii) = some iii ∧
        jj ∈ hl_offsets ∧
        hl_wrap c.periodic c.cdim1 ((j : Int) + jj) = some jjj ∧
        kk ∈ hl_offsets ∧
        hl_wrap c.periodic c.cdim2 ((k : Int) + kk) = some kkk ∧
        hl_pair_ok c (cell_getid c i j k) (cell_getid c iii jjj kkk) ∧
        t = HTask.pair (slid ((kk + 1) + 3 * ((jj + 1) + 3 * (ii + 1))).toNat)
          (cell_getid c i j k) (cell_getid c iii jjj kkk))) := by
  unfold hl_cell at h
  by_cases hcnt : c.cellCount (cell_getid c i j k) = 0
  · rw [if_pos hcnt] at h
    exact absurd h (by simp)
  · rw [if_neg hcnt] at h
    refine ⟨hcnt, ?_⟩
    rcases List.mem_append.mp h with h | h
    · left
      by_cases hloc : c.cellNode (cell_getid c i j k) = c.nodeID
      · rw [if_pos hloc] at h
        exact ⟨List.mem_singleton.mp h, hloc⟩
      · rw [if_neg hloc] at h
        exact absurd h (by simp)
    · right
      obtain ⟨ii, hii, hmem⟩ := List.mem_flatMap.mp h
      obtain ⟨iii, jj, jjj, kk, kkk, hw, hjj, hwj, hkk, hwk, hok, ht⟩ :=
        mem_hl_pair_ii c slid (cell_getid c i j k) i j k ii t hmem
      exact ⟨ii, iii, jj, jjj, kk, kkk, hii, hw, hjj, hwj, hkk, hwk, hok, ht⟩

/-- The `ci`-field of an emitted task. -/
def tci : HTask → Nat
  | .self ci => ci
  | .pair _ ci _ => ci

theorem tci_hl_cell (c : HConf) (slid : Nat → Nat) (i j k : Nat) (t : HTask)
    (h : t ∈ hl_cell c slid i j k) : tci t = cell_getid c i j k := by
  obtain ⟨-, hsh⟩ := mem_hl_cell c slid i j k t h
  rcases hsh with ⟨rfl, -⟩ | ⟨ii, iii, jj, jjj, kk, kkk, hsh⟩
  · rfl
  · rw [hsh.2.2.2.2.2.2.2]
    rfl

theorem hl_offsets_bound {o : Int} (h : o ∈ hl_offsets) : -1 ≤ o ∧ o ≤ 1 := by
  unfold hl_offsets at h
  rcases List.mem_cons.mp h with h1 | h1
  · subst h1
    omega
  rcases List.mem_cons.mp h1 with h2 | h2
  · subst h2
    omega
  rcases List.mem_cons.mp h2 with h3 | h3
  · subst h3
    omega
  · exact absurd h3 (by simp)

theorem hl_offsets_nodup : hl_offsets.Nodup := by decide

/-- Only the source cell's loop iteration can emit a task whose ci field
is that cell. -/
theorem hl_grid_count (c : HConf) (slid : Nat → Nat) (x : HTask)
    (i0 j0 k0 : Nat) (hi0 : i0 < c.cdim0) (hj0 : j0 < c.cdim1)
    (hk0 : k0 < c.cdim2) (htci : tci x = cell_getid c i0 j0 k0) :
    (engine_make_hydroloop_tasks c slid).count x =
      (hl_cell c slid i0 j0 k0).count x := by
  unfold engine_make_hydroloop_tasks
  have hstep1 : ((List.range c.cdim0).flatMap (fun i =>
      (List.range c.cdim1).flatMap (fun j =>
      (List.range c.cdim2).flatMap (fun k => hl_cell c slid i j k)))).count x =
      ((List.range c.cdim1).flatMap (fun j =>
      (List.range c.cdim2).flatMap (fun k => hl_cell c slid i0 j k))).count x := by
    rw [count_flatMap_single _ _ x i0 (List.nodup_range _) ?hother]
    · rw [if_pos (List.mem_range.mpr hi0)]
    case hother =>
      intro i hi hne
      rw [List.count_eq_zero]
      intro hmem
      obtain ⟨j, hj, hmem2⟩ := List.mem_flatMap.mp hmem
      obtain ⟨k, hk, hmem3⟩ := List.mem_flatMap.mp hmem2
      have := tci_hl_cell c slid i j k x hmem3
      rw [htci] at this
      exact hne (cell_getid_inj c hj0 hk0 (List.mem_range.mp hj)
        (List.mem_range.mp hk) this).1.symm
  rw [hstep1]
  have hstep2 : ((List.range c.cdim1).flatMap (fun j =>
      (List.range c.cdim2).flatMap (fun k => hl_cell c slid i0 j k))).count x =
      ((List.range c.cdim2).flatMap (fun k => hl_cell c slid i0 j0 k)).count x := by
    rw [count_flatMap_single _ _ x j0 (List.nodup_range _) ?hother]
    · rw [if_pos (List.mem_range.mpr hj0)]
    case hother =>
      intro j hj hne
      rw [List.count_eq_zero]
      intro hmem
      obtain ⟨k, hk, hmem2⟩ := List.mem_flatMap.mp hmem
      have := tci_hl_cell c slid i0 j k x hmem2
      rw [htci] at this
      exact hne (cell_getid_inj c hj0 hk0 (List.mem_range.mp hj)
        (List.mem_range.mp hk) this).2.1.symm
  rw [hstep2]
  rw [count_flatMap_single _ _ x k0 (List.nodup_range _) ?hother]
  · rw [if_pos (List.mem_range.mpr hk0)]
  case hother =>
    intro k hk hne
    rw [List.count_eq_zero]
    intro hmem
    have := tci_hl_cell c slid i0 j0 k x hmem
    rw [htci] at this
    exact hne (cell_getid_inj c hj0 hk0 hj0 (List.mem_range.mp hk) this).2.2.symm

theorem hl_cell_count_self (c : HConf) (slid : Nat → Nat) (i j k : Nat) :
    (hl_cell c slid i j k).count (HTask.self (cell_getid c i j k)) =
      if c.cellCount (cell_getid c i j k) ≠ 0 ∧
          c.cellNode (cell_getid c i j k) = c.nodeID then 1 else 0 := by
  unfold hl_cell
  by_cases hcnt : c.cellCount (cell_getid c i j k) = 0
  · rw [if_pos hcnt, if_neg (by simp [hcnt])]
    rfl
  · rw [if_neg hcnt]
    rw [List.count_append]
    have hpair0 : ((hl_offsets.flatMap
        (hl_pair_ii c slid (cell_getid c i j k) i j k)).count
          (HTask.self (cell_getid c i j k))) = 0 := by
      rw [List.count_eq_zero]
      intro hmem
      obtain ⟨ii, hii, hmem2⟩ := List.mem_flatMap.mp hmem
      obtain ⟨iii, jj, jjj, kk, kkk, -, -, -, -, -, -, ht⟩ :=
        mem_hl_pair_ii c slid (cell_getid c i j k) i j k ii _ hmem2
      exact HTask.noConfusion ht
    rw [hpair0]
    by_cases hloc : c.cellNode (cell_getid c i j k) = c.nodeID
    · rw [if_pos hloc, if_pos ⟨hcnt, hloc⟩]
      simp
    · rw [if_neg hloc, if_neg (by
        intro hc
        exact hloc hc.2)]
      simp

theorem hl_cell_count_pair (c : HConf) (slid : Nat → Nat)
    (h0 : 1 ≤ c.cdim0) (h1 : 1 ≤ c.cdim1) (h2 : 1 ≤ c.cdim2)
    (hp0 : c.periodic = true → 3 ≤ c.cdim0)
    (hp1 : c.periodic = true → 3 ≤ c.cdim1)
    (hp2 : c.periodic = true → 3 ≤ c.cdim2)
    (i j k : Nat) (ii jj kk : Int)
    (hii : ii ∈ hl_offsets) (hjj : jj ∈ hl_offsets) (hkk : kk ∈ hl_offsets)
    (iii jjj kkk : Nat)
    (wi : hl_wrap c.periodic c.cdim0 ((i : Int) + ii) = some iii)
    (wj : hl_wrap c.periodic c.cdim1 ((j : Int) + jj) = some jjj)
    (wk : hl_wrap c.periodic c.cdim2 ((k : Int) + kk) = some kkk) :
    (hl_cell c slid i j k).count
      (HTask.pair (slid ((kk + 1) + 3 * ((jj + 1) + 3 * (ii + 1))).toNat)
        (cell_getid c i j k) (cell_getid c iii jjj kkk)) =
      if c.cellCount (cell_getid c i j k) ≠ 0 ∧
          hl_pair_ok c (cell_getid c i j k) (cell_getid c iii jjj kkk)
      then 1 else 0 := by
  have hjjj : jjj < c.cdim1 := hl_wrap_lt _ _ h1 _ _ wj
  have hkkk : kkk < c.cdim2 := hl_wrap_lt _ _ h2 _ _ wk
  set x := HTask.pair (slid ((kk + 1) + 3 * ((jj + 1) + 3 * (ii + 1))).toNat)
    (cell_getid c i j k) (cell_getid c iii jjj kkk) with hx
  unfold hl_cell
  by_cases hcnt : c.cellCount (cell_getid c i j k) = 0
  · rw [if_pos hcnt, if_neg (by simp [hcnt])]
    rfl
  · rw [if_neg hcnt, List.count_append]
    have hself0 : ((if c.cellNode (cell_getid c i j k) = c.nodeID then
        [HTask.self (cell_getid c i j k)] else []).count x) = 0 := by
      by_cases hloc : c.cellNode (cell_getid c i j k) = c.nodeID
      · rw [if_pos hloc, List.count_eq_zero]
        intro hmem
        rw [hx] at hmem
        exact HTask.noConfusion (List.mem_singleton.mp hmem)
      · rw [if_neg hloc]
        rfl
    rw [hself0]
    -- descend the three offset levels; at each one only the matching
    -- offset can contribute, because the target cj pins the wrapped
    -- coordinates and hl_wrap is injective on the offsets
    have hkklevel : (hl_offsets.flatMap
        (hl_pair_kk c slid (cell_getid c i j k) ii jj iii jjj k)).count x =
        if hl_pair_ok c (cell_getid c i j k) (cell_getid c iii jjj kkk)
        then 1 else 0 := by
      rw [count_flatMap_single _ _ x kk hl_offsets_nodup ?hother]
      · rw [if_pos hkk]
        rw [hl_pair_kk_eq, wk]
        show List.count x (if hl_pair_ok c (cell_getid c i j k)
            (cell_getid c iii jjj kkk) then
            [HTask.pair (slid ((kk + 1) + 3 * ((jj + 1) + 3 * (ii + 1))).toNat)
              (cell_getid c i j k) (cell_getid c iii jjj kkk)]
          else []) =
          if hl_pair_ok c (cell_getid c i j k) (cell_getid c iii jjj kkk)
          then 1 else 0
        by_cases hok : hl_pair_ok c (cell_getid c i j k) (cell_getid c iii jjj kkk)
        · rw [if_pos hok, if_pos hok]
          rw [hx]
          simp
        · rw [if_neg hok, if_neg hok]
          rfl
      case hother =>
        intro kk2 hkk2 hne
        rw [List.count_eq_zero]
        intro hmem
        obtain ⟨kkk2, wk2, -, ht⟩ :=
          mem_hl_pair_kk c slid (cell_getid c i j k) ii jj iii jjj k kk2 x hmem
        rw [hx] at ht
        have hcj : cell_getid c iii jjj kkk = cell_getid c iii jjj kkk2 := by
          exact (HTask.pair.inj ht).2.2
        have hkkk2 : kkk2 < c.cdim2 := hl_wrap_lt _ _ h2 _ _ wk2
        have : kkk = kkk2 := (cell_getid_inj c hjjj hkkk hjjj hkkk2 hcj).2.2
        subst this
        exact hne (hl_wrap_inj c.periodic c.cdim2 h2 hp2 k kk2 kk
          (hl_offsets_bound hkk2) (hl_offsets_bound hkk) kkk wk2 wk)
    have hjjlevel : (hl_offsets.flatMap
        (hl_pair_jj c slid (cell_getid c i j k) ii iii j k)).count x =
        if hl_pair_ok c (cell_getid c i j k) (cell_getid c iii jjj kkk)
        then 1 else 0 := by
      rw [count_flatMap_single _ _ x jj hl_offsets_nodup ?hother]
      · rw [if_pos hjj]
        unfold hl_pair_jj
        rw [wj]
        exact hkklevel
      case hother =>
        intro jj2 hjj2 hne
        rw [List.count_eq_zero]
        intro hmem
        obtain ⟨jjj2, kk2, kkk2, wj2, -, wk2, -, ht⟩ :=
          mem_hl_pair_jj c slid (cell_getid c i j k) ii iii j k jj2 x hmem
        rw [hx] at ht
        have hcj : cell_getid c iii jjj kkk = cell_getid c iii jjj2 kkk2 := by
          exact (HTask.pair.inj ht).2.2
        have hjjj2 : jjj2 < c.cdim1 := hl_wrap_lt _ _ h1 _ _ wj2
        have hkkk2 : kkk2 < c.cdim2 := hl_wrap_lt _ _ h2 _ _ wk2
        have : jjj = jjj2 := (cell_getid_inj c hjjj hkkk hjjj2 hkkk2 hcj).2.1
        subst this
        exact hne (hl_wrap_inj c.periodic c.cdim1 h1 hp1 j jj2 jj
          (hl_offsets_bound hjj2) (hl_offsets_bound hjj) jjj wj2 wj)
    have hiilevel : (hl_offsets.flatMap
        (hl_pair_ii c slid (cell_getid c i j k) i j k)).count x =
        if hl_pair_ok c (cell_getid c i j k) (cell_getid c iii jjj kkk)
        then 1 else 0 := by
      rw [count_flatMap_single _ _ x ii hl_offsets_nodup ?hother]
      · rw [if_pos hii]
        unfold hl_pair_ii
        rw [wi]
        exact hjjlevel
      case hother =>
        intro ii2 hii2 hne
        rw [List.count_eq_zero]
        intro hmem
        obtain ⟨iii2, jj2, jjj2, kk2, kkk2, wi2, -, wj2, -, wk2, -, ht⟩ :=
          mem_hl_pair_ii c slid (cell_getid c i j k) i j k ii2 x hmem
        rw [hx] at ht
        have hcj : cell_getid c iii jjj kkk = cell_getid c iii2 jjj2 kkk2 := by
          exact (HTask.pair.inj ht).2.2
        have hjjj2 : jjj2 < c.cdim1 := hl_wrap_lt _ _ h1 _ _ wj2
        have hkkk2 : kkk2 < c.cdim2 := hl_wrap_lt _ _ h2 _ _ wk2
        have hiii2 : iii = iii2 := (cell_getid_inj c hjjj hkkk hjjj2 hkkk2 hcj).1
        subst hiii2
        exact hne (hl_wrap_inj c.periodic c.cdim0 h0 hp0 i ii2 ii
          (hl_offsets_bound hii2) (hl_offsets_bound hii) iii wi2 wi)
    rw [hiilevel]
    by_cases hok : hl_pair_ok c (cell_getid c i j k) (cell_getid c iii jjj kkk)
    · rw [if_pos hok, if_pos ⟨hcnt, hok⟩]
    · rw [if_neg hok, if_neg (by
        intro hc
        exact hok hc.2)]

/-- C7 (corrected): `engine_make_hydroloop_tasks` (src/engine.c:1298-1358)
emits exactly one self/density task per non-empty *local* top cell; exactly
one pair/density task, tagged `sortlistID[(kk+1) + 3*((jj+1) + 3*(ii+1))]`,
per ordered neighbour visit of a top cell `ci` to a cell `cj` with
`cid < cjd`, `cj` non-empty and *at least one* of the two cells local (not,
as claimed, `ci` local — see `hydroloop_emits_foreign_ci_pair`); and every
task it emits is of one of these two forms. -/
theorem hydroloop_tasks_spec (c : HConf) (slid : Nat → Nat)
    (h0 : 1 ≤ c.cdim0) (h1 : 1 ≤ c.cdim1) (h2 : 1 ≤ c.cdim2)
    (hp0 : c.periodic = true → 3 ≤ c.cdim0)
    (hp1 : c.periodic = true → 3 ≤ c.cdim1)
    (hp2 : c.periodic = true → 3 ≤ c.cdim2) :
    (∀ i j k, i < c.cdim0 → j < c.cdim1 → k < c.cdim2 →
      (engine_make_hydroloop_tasks c slid).count
          (HTask.self (cell_getid c i j k)) =
        if c.cellCount (cell_getid c i j k) ≠ 0 ∧
            c.cellNode (cell_getid c i j k) = c.nodeID then 1 else 0) ∧
    (∀ i j k, i < c.cdim0 → j < c.cdim1 → k < c.cdim2 →
      ∀ ii ∈ hl_offsets, ∀ jj ∈ hl_offsets, ∀ kk ∈ hl_offsets,
      ∀ iii jjj kkk,
        hl_wrap c.periodic c.cdim0 ((i : Int) + ii) = some iii →
        hl_wrap c.periodic c.cdim1 ((j : Int) + jj) = some jjj →
        hl_wrap c.periodic c.cdim2 ((k : Int) + kk) = some kkk →
        (engine_make_hydroloop_tasks c slid).count
            (HTask.pair (slid ((kk + 1) + 3 * ((jj + 1) + 3 * (ii + 1))).toNat)
              (cell_getid c i j k) (cell_getid c iii jjj kkk)) =
          if c.cellCount (cell_getid c i j k) ≠ 0 ∧
              hl_pair_ok c (cell_getid c i j k) (cell_getid c iii jjj kkk)
          then 1 else 0) ∧
    (∀ t ∈ engine_make_hydroloop_tasks c slid,
      ∃ i j k, i < c.cdim0 ∧ j < c.cdim1 ∧ k < c.cdim2 ∧
        c.cellCount (cell_getid c i j k) ≠ 0 ∧
        ((t = HTask.self (cell_getid c i j k) ∧
            c.cellNode (cell_getid c i j k) = c.nodeID) ∨
          (∃ ii iii jj jjj kk kkk, ii ∈ hl_offsets ∧
            hl_wrap c.periodic c.cdim0 ((i : Int) + ii) = some iii ∧
            jj ∈ hl_offsets ∧
            hl_wrap c.periodic c.cdim1 ((j : Int) + jj) = some jjj ∧
            kk ∈ hl_offsets ∧
            hl_wrap c.periodic c.cdim2 ((k : Int) + kk) = some kkk ∧
            hl_pair_ok c (cell_getid c i j k) (cell_getid c iii jjj kkk) ∧
            t = HTask.pair
              (slid ((kk + 1) + 3 * ((jj + 1) + 3 * (ii + 1))).toNat)
              (cell_getid c i j k) (cell_getid c iii jjj kkk)))) := by
  refine ⟨?_, ?_, ?_⟩
  · intro i j k hi hj hk
    rw [hl_grid_count c slid (HTask.self (cell_getid c i j k))
      i j k hi hj hk rfl]
    exact hl_cell_count_self c slid i j k
  · intro i j k hi hj hk ii hii jj hjj kk hkk iii jjj kkk wi wj wk
    rw [hl_grid_count c slid
      (HTask.pair (slid ((kk + 1) + 3 * ((jj + 1) + 3 * (ii + 1))).toNat)
        (cell_getid c i j k) (cell_getid c iii jjj kkk))
      i j k hi hj hk rfl]
    exact hl_cell_count_pair c slid h0 h1 h2 hp0 hp1 hp2 i j k ii jj kk
      hii hjj hkk iii jjj kkk wi wj wk
  · intro t ht
    unfold engine_make_hydroloop_tasks at ht
    obtain ⟨i, hi, ht2⟩ := List.mem_flatMap.mp ht
    obtain ⟨j, hj, ht3⟩ := List.mem_flatMap.mp ht2
    obtain ⟨k, hk, ht4⟩ := List.mem_flatMap.mp ht3
    obtain ⟨hcnt, hsh⟩ := mem_hl_cell c slid i j k t ht4
    exact ⟨i, j, k, List.mem_range.mp hi, List.mem_range.mp hj,
      List.mem_range.mp hk, hcnt, hsh⟩

theorem hydroloop_tasks_spec_witness :
    (engine_make_hydroloop_tasks ⟨2, 1, 1, false, fun _ => 1, fun _ => 0, 0⟩
        (fun x => x)).count (HTask.self 0) = 1 := by
  have h := (hydroloop_tasks_spec ⟨2, 1, 1, false, fun _ => 1, fun _ => 0, 0⟩
    (fun x => x) (by decide) (by decide) (by decide)
    (by decide) (by decide) (by decide)).1
    0 0 0 (by decide) (by decide) (by decide)
  simpa [cell_getid] using h

/- ============== C5: runner_do_sort / runner_do_sort_ascending ============== -/

/-- One entry of a cell's sort arrays (`struct entry`: the projected
distance `d` and the particle index `i`).  Distances are modelled as
rationals, abstracting the floats; `FLT_MAX` becomes the parameter `M`. -/
structure SEntry where
  d : ℚ
  i : Nat
deriving DecidableEq

def EZero : SEntry := ⟨0, 0⟩

/-- Read `sort[n]` at a C int index; an out-of-range read yields a junk
entry (the proofs establish in-range access wherever the value matters). -/
def getE (l : List SEntry) (n : Int) : SEntry :=
  if 0 ≤ n then l.getD n.toNat EZero else EZero

/-- Write `sort[n] = e`. -/
def setE (l : List SEntry) (n : Int) (e : SEntry) : List SEntry :=
  if 0 ≤ n then l.set n.toNat e else l

/-- `temp = sort[a]; sort[a] = sort[b]; sort[b] = temp` (runner.c:279-281
and 293-295). -/
def swapE (l : List SEntry) (a b : Int) : List SEntry :=
  setE (setE l a (getE l b)) b (getE l a)

theorem length_setE (l : List SEntry) (n : Int) (e : SEntry) :
    (setE l n e).length = l.length := by
  unfold setE
  by_cases h : 0 ≤ n
  · rw [if_pos h]
    exact List.length_set l _ _
  · rw [if_neg h]

theorem length_swapE (l : List SEntry) (a b : Int) :
    (swapE l a b).length = l.length := by
  unfold swapE
  rw [length_setE, length_setE]

theorem getE_eq_getElem (l : List SEntry) (n : Int) (h0 : 0 ≤ n)
    (h : n.toNat < l.length) : getE l n = l[n.toNat] := by
  unfold getE
  rw [if_pos h0]
  exact List.getD_eq_getElem l EZero h

theorem getE_setE_self (l : List SEntry) (n : Int) (e : SEntry) (h0 : 0 ≤ n)
    (h : n.toNat < l.length) : getE (setE l n e) n = e := by
  unfold getE setE
  rw [if_pos h0, if_pos h0]
  rw [List.getD_eq_getElem _ EZero (by simpa using h)]
  exact List.getElem_set_self _

theorem getE_setE_ne (l : List SEntry) (n m : Int) (e : SEntry) (h : m ≠ n) :
    getE (setE l n e) m = getE l m := by
  unfold getE setE
  by_cases hm : 0 ≤ m
  · rw [if_pos hm, if_pos hm]
    by_cases hn : 0 ≤ n
    · rw [if_pos hn]
      have htn : m.toNat ≠ n.toNat := by
        intro hc
        exact h (by omega)
      simp [List.getD_eq_getElem?_getD, List.getElem?_set_ne (Ne.symm htn)]
    · rw [if_neg hn]
  · rw [if_neg hm, if_neg hm]

theorem getE_swapE_ne (l : List SEntry) (a b p : Int) (ha : p ≠ a)
    (hb : p ≠ b) : getE (swapE l a b) p = getE l p := by
  unfold swapE
  rw [getE_setE_ne _ _ _ _ hb, getE_setE_ne _ _ _ _ ha]

theorem count_set_add (l : List SEntry) (n : Nat) (e x : SEntry)
    (h : n < l.length) :
    (l.set n e).count x + (if l[n] = x then 1 else 0) =
      l.count x + (if e = x then 1 else 0) := by
  induction l generalizing n with
  | nil => simp at h
  | cons a t ih =>
      cases n with
      | zero =>
          simp only [List.set_cons_zero, List.count_cons,
            List.getElem_cons_zero, beq_iff_eq]
          by_cases hax : a = x <;> by_cases hex : e = x <;>
            simp [hax, hex] <;> omega
      | succ m =>
          simp only [List.set_cons_succ, List.count_cons,
            List.getElem_cons_succ, beq_iff_eq]
          have hm : m < t.length := by
            simpa using h
          have := ih m hm
          omega

theorem swapE_perm (l : List SEntry) (a b : Int) (ha0 : 0 ≤ a)
    (ha : a.toNat < l.length) (hb0 : 0 ≤ b) (hb : b.toNat < l.length) :
    List.Perm (swapE l a b) l := by
  apply List.perm_iff_count.mpr
  intro x
  have hga : getE l a = l[a.toNat] := getE_eq_getElem l a ha0 ha
  have hgb : getE l b = l[b.toNat] := getE_eq_getElem l b hb0 hb
  unfold swapE setE
  rw [if_pos ha0, if_pos hb0, hga, hgb]
  have hlen1 : b.toNat < (l.set a.toNat (l[b.toNat])).length := by
    simpa using hb
  have h1 := count_set_add l a.toNat (l[b.toNat]) x ha
  have h2 := count_set_add (l.set a.toNat (l[b.toNat])) b.toNat
    (l[a.toNat]) x hlen1
  have hread : (l.set a.toNat (l[b.toNat]))[b.toNat] = l[b.toNat] := by
    rw [List.getElem_set]
    simp
  rw [hread] at h2
  omega

/-- Values at positions of `[lo, hi]` in `l2` all occur at positions of
`[lo, hi]` in `l1` (value origin, used to restore cross-range order after
an in-range permutation). -/
def VO (l2 l1 : List SEntry) (lo hi : Int) : Prop :=
  ∀ p, lo ≤ p → p ≤ hi → ∃ q, lo ≤ q ∧ q ≤ hi ∧ getE l2 p = getE l1 q

theorem VO_refl (l : List SEntry) (lo hi : Int) : VO l l lo hi := by
  intro p h1 h2
  exact ⟨p, h1, h2, rfl⟩

theorem VO_trans {l3 l2 l1 : List SEntry} {lo hi : Int}
    (h32 : VO l3 l2 lo hi) (h21 : VO l2 l1 lo hi) : VO l3 l1 lo hi := by
  intro p h1 h2
  obtain ⟨q, hq1, hq2, hq3⟩ := h32 p h1 h2
  obtain ⟨r, hr1, hr2, hr3⟩ := h21 q hq1 hq2
  exact ⟨r, hr1, hr2, hq3.trans hr3⟩

theorem VO_swapE (l : List SEntry) (a b lo hi : Int) (ha1 : lo ≤ a)
    (ha2 : a ≤ hi) (hb1 : lo ≤ b) (hb2 : b ≤ hi) (ha0 : 0 ≤ a)
    (ha : a.toNat < l.length) (hb0 : 0 ≤ b) (hb : b.toNat < l.length) :
    VO (swapE l a b) l lo hi := by
  intro p h1 h2
  by_cases hpb : p = b
  · subst hpb
    refine ⟨a, ha1, ha2, ?_⟩
    unfold swapE
    rw [getE_setE_self _ _ _ hb0 (by rw [length_setE]; exact hb)]
  · by_cases hpa : p = a
    · subst hpa
      refine ⟨b, hb1, hb2, ?_⟩
      unfold swapE
      rw [getE_setE_ne _ _ _ _ hpb, getE_setE_self _ _ _ ha0 ha]
    · exact ⟨p, h1, h2, getE_swapE_ne l a b p hpa hpb⟩

/-- Positions outside `[lo, hi]` (and in particular outside `[0, N-1]`)
are untouched by `swapE` inside the range. -/
theorem unch_swapE (l : List SEntry) (a b p lo hi : Int) (ha1 : lo ≤ a)
    (ha2 : a ≤ hi) (hb1 : lo ≤ b) (hb2 : b ≤ hi)
    (hp : p < lo ∨ hi < p) : getE (swapE l a b) p = getE l p := by
  apply getE_swapE_ne
  · intro hc
    subst hc
    omega
  · intro hc
    subst hc
    omega

/-- The inner scan of the short-range selection sort (runner.c:275-277):
`imin = i; for (j = i+1; j <= hi; j++) if (sort[j].d < sort[imin].d)
imin = j;`. -/
def selMin (l : List SEntry) (hi : Int) : Int → Int → Nat → Int
  | imin, _, 0 => imin
  | imin, j, fuel+1 =>
      if j ≤ hi then
        selMin l hi (if (getE l j).d < (getE l imin).d then j else imin)
          (j + 1) fuel
      else imin

theorem selMin_spec (l : List SEntry) (hi : Int) :
    ∀ (fuel : Nat) (imin j : Int), (hi + 1 - j).toNat ≤ fuel →
      (selMin l hi imin j fuel = imin ∨
        (j ≤ selMin l hi imin j fuel ∧ selMin l hi imin j fuel ≤ hi)) ∧
      (getE l (selMin l hi imin j fuel)).d ≤ (getE l imin).d ∧
      (∀ p, j ≤ p → p ≤ hi →
        (getE l (selMin l hi imin j fuel)).d ≤ (getE l p).d) := by
  intro fuel
  induction fuel with
  | zero =>
      intro imin j hf
      refine ⟨Or.inl rfl, le_refl _, ?_⟩
      intro p h1 h2
      clear * - h1 h2 hf
      omega
  | succ f ih =>
      intro imin j hf
      by_cases hj : j ≤ hi
      · show _ ∧ _
        rw [show selMin l hi imin j (f + 1) =
          selMin l hi (if (getE l j).d < (getE l imin).d then j else imin)
            (j + 1) f from by rw [selMin]; rw [if_pos hj]]
        by_cases hlt : (getE l j).d < (getE l imin).d
        · rw [if_pos hlt]
          obtain ⟨hA, hB, hC⟩ := ih j (j + 1) (by clear * - hf; omega)
          refine ⟨?_, le_trans hB (le_of_lt hlt), ?_⟩
          · rcases hA with hA | hA
            · exact Or.inr (by clear * - hA hj; omega)
            · exact Or.inr (by clear * - hA hj; omega)
          · intro p h1 h2
            by_cases hpj : p = j
            · subst hpj
              exact hB
            · exact hC p (by clear * - h1 hpj; omega) h2
        · rw [if_neg hlt]
          obtain ⟨hA, hB, hC⟩ := ih imin (j + 1) (by clear * - hf; omega)
          refine ⟨?_, hB, ?_⟩
          · rcases hA with hA | hA
            · exact Or.inl hA
            · exact Or.inr (by clear * - hA hj; omega)
          · intro p h1 h2
            by_cases hpj : p = j
            · subst hpj
              exact le_trans hB (not_lt.mp hlt)
            · exact hC p (by clear * - h1 hpj; omega) h2
      · rw [show selMin l hi imin j (f + 1) = imin from by
          rw [selMin]; rw [if_neg hj]]
        refine ⟨Or.inl rfl, le_refl _, ?_⟩
        intro p h1 h2
        exact absurd (le_trans h1 h2) hj

/-- The selection sort used on ranges shorter than 15 entries
(runner.c:273-283). -/
def selSortGo : List SEntry → Int → Int → Nat → List SEntry
  | l, _, _, 0 => l
  | l, hi, i, fuel+1 =>
      if i < hi then
        let imin := selMin l hi i (i + 1) (hi - i).toNat
        let l2 := if imin ≠ i then swapE l imin i else l
        selSortGo l2 hi (i + 1) fuel
      else l

theorem selSortGo_spec (hi : Int) :
    ∀ (fuel : Nat) (l : List SEntry) (i : Int), (hi - i).toNat ≤ fuel →
      0 ≤ i → hi < (l.length : Int) →
      (selSortGo l hi i fuel).length = l.length ∧
      List.Perm (selSortGo l hi i fuel) l ∧
      VO (selSortGo l hi i fuel) l i hi ∧
      (∀ p, p < i ∨ hi < p → getE (selSortGo l hi i fuel) p = getE l p) ∧
      (∀ p q, i ≤ p → p ≤ q → q ≤ hi →
        (getE (selSortGo l hi i fuel) p).d ≤
          (getE (selSortGo l hi i fuel) q).d) := by
  intro fuel
  induction fuel with
  | zero =>
      intro l i hf h0 hL
      refine ⟨rfl, List.Perm.refl _, VO_refl _ _ _, fun p hp => rfl, ?_⟩
      intro p q h1 h2 h3
      have : p = q := by clear * - hf h1 h2 h3; omega
      subst this
      exact le_refl _
  | succ f ih =>
      intro l i hf h0 hL
      by_cases hilt : i < hi
      · have heq : selSortGo l hi i (f + 1) =
            selSortGo (if selMin l hi i (i + 1) (hi - i).toNat ≠ i then
                swapE l (selMin l hi i (i + 1) (hi - i).toNat) i else l)
              hi (i + 1) f := by
          rw [selSortGo]
          rw [if_pos hilt]
        set imin := selMin l hi i (i + 1) (hi - i).toNat with him
        obtain ⟨hmA, hmB, hmC⟩ := selMin_spec l hi (hi - i).toNat i (i + 1)
          (by clear * - hilt; omega)
        rw [← him] at hmA hmB hmC
        have hminr : i ≤ imin ∧ imin ≤ hi := by
          rcases hmA with h | h
          · clear * - h hilt; omega
          · clear * - h; omega
        set l2 := (if imin ≠ i then swapE l imin i else l) with hl2
        have hlen2 : l2.length = l.length := by
          rw [hl2]
          by_cases hne : imin ≠ i
          · rw [if_pos hne, length_swapE]
          · rw [if_neg hne]
        have h0m : 0 ≤ imin := le_trans h0 hminr.1
        have hNm : imin.toNat < l.length :=
          (Int.toNat_lt h0m).mpr (lt_of_le_of_lt hminr.2 hL)
        have hNi : i.toNat < l.length :=
          (Int.toNat_lt h0).mpr (lt_of_le_of_lt (le_of_lt hilt) hL)
        have hperm2 : List.Perm l2 l := by
          rw [hl2]
          by_cases hne : imin ≠ i
          · rw [if_pos hne]
            exact swapE_perm l imin i h0m hNm h0 hNi
          · rw [if_neg hne]
        have hvo2 : VO l2 l i hi := by
          rw [hl2]
          by_cases hne : imin ≠ i
          · rw [if_pos hne]
            exact VO_swapE l imin i i hi hminr.1 hminr.2 (le_refl i)
              (le_of_lt hilt) h0m hNm h0 hNi
          · rw [if_neg hne]
            exact VO_refl _ _ _
        have hunch2 : ∀ p, p < i ∨ hi < p → getE l2 p = getE l p := by
          intro p hp
          rw [hl2]
          by_cases hne : imin ≠ i
          · rw [if_pos hne]
            exact unch_swapE l imin i p i hi hminr.1 hminr.2 (le_refl i)
              (le_of_lt hilt) hp
          · rw [if_neg hne]
        have hl2i : getE l2 i = getE l imin := by
          rw [hl2]
          by_cases hne : imin ≠ i
          · rw [if_pos hne]
            unfold swapE
            rw [getE_setE_self _ _ _ h0 (by rw [length_setE]; exact hNi)]
          · rw [if_neg hne]
            push_neg at hne
            rw [hne]
        have hl2min : ∀ p, i ≤ p → p ≤ hi → (getE l imin).d ≤ (getE l2 p).d := by
          intro p h1 h2
          by_cases hpi : p = i
          · subst hpi
            rw [hl2i]
          · have hp2 : getE l2 p = getE l p ∨ getE l2 p = getE l i := by
              rw [hl2]
              by_cases hne : imin ≠ i
              · rw [if_pos hne]
                by_cases hpm : p = imin
                · right
                  subst hpm
                  unfold swapE
                  rw [getE_setE_ne _ _ _ _ hpi,
                    getE_setE_self _ _ _ h0m hNm]
                · left
                  exact getE_swapE_ne l imin i p hpm hpi
              · rw [if_neg hne]
                left
                rfl
            rcases hp2 with hp2 | hp2
            · rw [hp2]
              exact hmC p (by clear * - h1 hpi; omega) h2
            · rw [hp2]
              exact hmB
        obtain ⟨rA, rB, rC, rD, rE⟩ := ih l2 (i + 1)
          (by clear * - hf; omega) (by clear * - h0; omega)
          (by rw [hlen2]; exact hL)
        rw [heq]
        refine ⟨by rw [rA, hlen2], rB.trans hperm2, ?_, ?_, ?_⟩
        · refine VO_trans ?_ hvo2
          intro p h1 h2
          by_cases hpi : p = i
          · subst hpi
            exact ⟨p, le_refl _, le_of_lt hilt, rD p (Or.inl (lt_add_one p))⟩
          · obtain ⟨q, hq1, hq2, hq3⟩ := rC p (by clear * - h1 hpi; omega) h2
            exact ⟨q, le_trans (Int.le_add_one (le_refl i)) hq1, hq2, hq3⟩
        · intro p hp
          rw [rD p (Or.imp_left (fun h => lt_trans h (lt_add_one i)) hp),
            hunch2 p hp]
        · intro p q h1 h2 h3
          by_cases hpi : p = i
          · subst hpi
            rw [rD p (Or.inl (lt_add_one p)), hl2i]
            by_cases hqi : q = p
            · subst hqi
              rw [rD q (Or.inl (lt_add_one q)), hl2i]
            · obtain ⟨q2, hq1, hq2, hq3⟩ := rC q (by clear * - h2 hqi; omega) h3
              rw [hq3]
              exact hl2min q2 (le_trans (Int.le_add_one (le_refl p)) hq1) hq2
          · exact rE p q (by clear * - h1 hpi; omega) h2 h3
      · rw [show selSortGo l hi i (f + 1) = l from by
          rw [selSortGo]; rw [if_neg hilt]]
        refine ⟨rfl, List.Perm.refl _, VO_refl _ _ _, fun p hp => rfl, ?_⟩
        intro p q h1 h2 h3
        have : p = q := by clear * - hilt h1 h2 h3; omega
        subst this
        exact le_refl _

/-- `while (sort[i].d < pivot) i++;` (runner.c:289). -/
def scanI (l : List SEntry) (pivot : ℚ) : Int → Nat → Int
  | i, 0 => i
  | i, fuel+1 =>
      if (getE l i).d < pivot then scanI l pivot (i + 1) fuel else i

/-- `while (sort[j].d > pivot) j--;` (runner.c:290). -/
def scanJ (l : List SEntry) (pivot : ℚ) : Int → Nat → Int
  | j, 0 => j
  | j, fuel+1 =>
      if (getE l j).d > pivot then scanJ l pivot (j - 1) fuel else j

theorem scanI_spec (l : List SEntry) (pivot : ℚ) :
    ∀ (fuel : Nat) (i w : Int), i ≤ w → ¬((getE l w).d < pivot) →
      (w - i).toNat < fuel →
      i ≤ scanI l pivot i fuel ∧ scanI l pivot i fuel ≤ w ∧
      ¬((getE l (scanI l pivot i fuel)).d < pivot) ∧
      ∀ p, i ≤ p → p < scanI l pivot i fuel → (getE l p).d < pivot := by
  intro fuel
  induction fuel with
  | zero =>
      intro i w h1 h2 hf
      exact absurd hf (Nat.not_lt_zero _)
  | succ f ih =>
      intro i w h1 h2 hf
      by_cases hlt : (getE l i).d < pivot
      · rw [show scanI l pivot i (f + 1) = scanI l pivot (i + 1) f from by
          rw [scanI]; rw [if_pos hlt]]
        have hiw : i ≠ w := by
          intro hc
          rw [hc] at hlt
          exact h2 hlt
        obtain ⟨rA, rB, rC, rD⟩ := ih (i + 1) w
          (by clear * - h1 hiw; omega) h2 (by clear * - hf h1 hiw; omega)
        refine ⟨le_trans (Int.le_add_one (le_refl i)) rA, rB, rC, ?_⟩
        intro p hp1 hp2
        by_cases hpi : p = i
        · subst hpi
          exact hlt
        · exact rD p (by clear * - hp1 hpi; omega) hp2
      · rw [show scanI l pivot i (f + 1) = i from by
          rw [scanI]; rw [if_neg hlt]]
        refine ⟨le_refl _, h1, hlt, ?_⟩
        intro p hp1 hp2
        exact absurd (lt_of_le_of_lt hp1 hp2) (lt_irrefl i)

theorem scanJ_spec (l : List SEntry) (pivot : ℚ) :
    ∀ (fuel : Nat) (j w : Int), w ≤ j → ¬((getE l w).d > pivot) →
      (j - w).toNat < fuel →
      scanJ l pivot j fuel ≤ j ∧ w ≤ scanJ l pivot j fuel ∧
      ¬((getE l (scanJ l pivot j fuel)).d > pivot) ∧
      ∀ p, scanJ l pivot j fuel < p → p ≤ j → (getE l p).d > pivot := by
  intro fuel
  induction fuel with
  | zero =>
      intro j w h1 h2 hf
      exact absurd hf (Nat.not_lt_zero _)
  | succ f ih =>
      intro j w h1 h2 hf
      by_cases hgt : (getE l j).d > pivot
      · rw [show scanJ l pivot j (f + 1) = scanJ l pivot (j - 1) f from by
          rw [scanJ]; rw [if_pos hgt]]
        have hjw : j ≠ w := by
          intro hc
          rw [hc] at hgt
          exact h2 hgt
        obtain ⟨rA, rB, rC, rD⟩ := ih (j - 1) w
          (by clear * - h1 hjw; omega) h2 (by clear * - hf h1 hjw; omega)
        refine ⟨le_trans rA (le_of_lt (sub_one_lt j)), rB, rC, ?_⟩
        intro p hp1 hp2
        by_cases hpj : p = j
        · subst hpj
          exact hgt
        · exact rD p hp1 (by clear * - hp2 hpj; omega)
      · rw [show scanJ l pivot j (f + 1) = j from by
          rw [scanJ]; rw [if_neg hgt]]
        refine ⟨le_refl _, h1, hgt, ?_⟩
        intro p hp1 hp2
        exact absurd (lt_of_lt_of_le hp1 hp2) (lt_irrefl j)

/-- The Hoare partition loop of the quicksort (runner.c:286-300). -/
def partLoop (pivot : ℚ) (nb : Nat) :
    List SEntry → Int → Int → Nat → List SEntry × Int × Int
  | l, i, j, 0 => (l, i, j)
  | l, i, j, fuel+1 =>
      if i ≤ j then
        if scanI l pivot i nb ≤ scanJ l pivot j nb then
          partLoop pivot nb
            (if scanI l pivot i nb < scanJ l pivot j nb then
              swapE l (scanI l pivot i nb) (scanJ l pivot j nb)
            else l)
            (scanI l pivot i nb + 1) (scanJ l pivot j nb - 1) fuel
        else (l, scanI l pivot i nb, scanJ l pivot j nb)
      else (l, i, j)

theorem partLoop_spec (pivot : ℚ) (nb : Nat) (lo hi : Int) :
    ∀ (fuel : Nat) (l : List SEntry) (i j : Int),
      0 ≤ lo → hi < (l.length : Int) → (hi - lo).toNat < nb →
      lo ≤ i → i ≤ hi + 1 → lo - 1 ≤ j → j ≤ hi →
      (∀ p, lo ≤ p → p < i → (getE l p).d ≤ pivot) →
      (∀ p, j < p → p ≤ hi → pivot ≤ (getE l p).d) →
      (i ≤ j →
        (∃ w, i ≤ w ∧ w ≤ j + 1 ∧ w ≤ hi ∧ ¬((getE l w).d < pivot)) ∧
        (∃ w, i - 1 ≤ w ∧ lo ≤ w ∧ w ≤ j ∧ ¬((getE l w).d > pivot))) →
      (j - i + 2).toNat ≤ 2 * fuel →
      ((partLoop pivot nb l i j fuel).1.length = l.length ∧
       List.Perm (partLoop pivot nb l i j fuel).1 l ∧
       VO (partLoop pivot nb l i j fuel).1 l lo hi ∧
       (∀ p, p < lo ∨ hi < p →
         getE (partLoop pivot nb l i j fuel).1 p = getE l p)) ∧
      (i ≤ (partLoop pivot nb l i j fuel).2.1 ∧
       (partLoop pivot nb l i j fuel).2.2 ≤ j ∧
       (partLoop pivot nb l i j fuel).2.2 < (partLoop pivot nb l i j fuel).2.1 ∧
       (partLoop pivot nb l i j fuel).2.1 ≤ hi + 1 ∧
       lo - 1 ≤ (partLoop pivot nb l i j fuel).2.2) ∧
      (∀ p, lo ≤ p → p < (partLoop pivot nb l i j fuel).2.1 →
        (getE (partLoop pivot nb l i j fuel).1 p).d ≤ pivot) ∧
      (∀ p, (partLoop pivot nb l i j fuel).2.2 < p → p ≤ hi →
        pivot ≤ (getE (partLoop pivot nb l i j fuel).1 p).d) := by
  intro fuel
  induction fuel with
  | zero =>
      intro l i j hlo hhi hnb hi1 hi2 hj1 hj2 inv2 inv3 hwit hf
      have hji : j < i := by clear * - hf; omega
      show ((l, i, j).1.length = l.length ∧ _) ∧ _
      refine ⟨⟨rfl, List.Perm.refl _, VO_refl _ _ _, fun p hp => rfl⟩,
        ⟨le_refl _, le_refl _, hji, hi2, hj1⟩, inv2, inv3⟩
  | succ f ih =>
      intro l i j hlo hhi hnb hi1 hi2 hj1 hj2 inv2 inv3 hwit hf
      by_cases hij : i ≤ j
      · obtain ⟨⟨wI, hwI1, hwI2, hwI3, hwI4⟩, ⟨wJ, hwJ1, hwJ2, hwJ3, hwJ4⟩⟩ :=
          hwit hij
        have hfI : (wI - i).toNat < nb := by
          have h1 := hwI3
          have h2 := hi1
          have h3 := hnb
          clear * - h1 h2 h3
          omega
        have hfJ : (j - wJ).toNat < nb := by
          have h1 := hwJ2
          have h2 := hj2
          have h3 := hnb
          clear * - h1 h2 h3
          omega
        obtain ⟨sA, sB, sC, sD⟩ := scanI_spec l pivot nb i wI hwI1 hwI4 hfI
        obtain ⟨tA, tB, tC, tD⟩ := scanJ_spec l pivot nb j wJ hwJ3 hwJ4 hfJ
        set i2 := scanI l pivot i nb with hi2d
        set j2 := scanJ l pivot j nb with hj2d
        have hi2hi : i2 ≤ hi := le_trans sB hwI3
        have hj2lo : lo ≤ j2 := le_trans hwJ2 tB
        have hloi2 : lo ≤ i2 := le_trans hi1 sA
        have hj2hi : j2 ≤ hi := le_trans tA hj2
        have h0i2 : 0 ≤ i2 := le_trans hlo hloi2
        have h0j2 : 0 ≤ j2 := le_trans hlo hj2lo
        have hNi2 : i2.toNat < l.length :=
          (Int.toNat_lt h0i2).mpr (lt_of_le_of_lt hi2hi hhi)
        have hNj2 : j2.toNat < l.length :=
          (Int.toNat_lt h0j2).mpr (lt_of_le_of_lt hj2hi hhi)
        by_cases hij2 : i2 ≤ j2
        · have heq : partLoop pivot nb l i j (f + 1) =
              partLoop pivot nb (if i2 < j2 then swapE l i2 j2 else l)
                (i2 + 1) (j2 - 1) f := by
            rw [partLoop]
            rw [if_pos hij, if_pos hij2]
          set l2 := (if i2 < j2 then swapE l i2 j2 else l) with hl2
          have hlen2 : l2.length = l.length := by
            rw [hl2]
            by_cases hsw : i2 < j2
            · rw [if_pos hsw, length_swapE]
            · rw [if_neg hsw]
          have hperm2 : List.Perm l2 l := by
            rw [hl2]
            by_cases hsw : i2 < j2
            · rw [if_pos hsw]
              exact swapE_perm l i2 j2 h0i2 hNi2 h0j2 hNj2
            · rw [if_neg hsw]
          have hvo2 : VO l2 l lo hi := by
            rw [hl2]
            by_cases hsw : i2 < j2
            · rw [if_pos hsw]
              exact VO_swapE l i2 j2 lo hi hloi2 hi2hi hj2lo hj2hi
                h0i2 hNi2 h0j2 hNj2
            · rw [if_neg hsw]
              exact VO_refl _ _ _
          have hunch2 : ∀ p, p < lo ∨ hi < p → getE l2 p = getE l p := by
            intro p hp
            rw [hl2]
            by_cases hsw : i2 < j2
            · rw [if_pos hsw]
              exact unch_swapE l i2 j2 p lo hi hloi2 hi2hi hj2lo hj2hi hp
            · rw [if_neg hsw]
          have hl2i2 : (getE l2 i2).d ≤ pivot := by
            rw [hl2]
            by_cases hsw : i2 < j2
            · rw [if_pos hsw]
              unfold swapE
              rw [getE_setE_ne _ _ _ _ (ne_of_lt hsw),
                getE_setE_self _ _ _ h0i2 hNi2]
              exact not_lt.mp tC
            · rw [if_neg hsw]
              have heq2 : i2 = j2 := le_antisymm hij2 (not_lt.mp hsw)
              rw [heq2]
              exact not_lt.mp tC
          have hl2j2 : pivot ≤ (getE l2 j2).d := by
            rw [hl2]
            by_cases hsw : i2 < j2
            · rw [if_pos hsw]
              unfold swapE
              rw [getE_setE_self _ _ _ h0j2 (by rw [length_setE]; exact hNj2)]
              exact not_lt.mp sC
            · rw [if_neg hsw]
              have heq2 : j2 = i2 := le_antisymm (not_lt.mp hsw) hij2
              rw [heq2]
              exact not_lt.mp sC
          have hl2other : ∀ p, p ≠ i2 → p ≠ j2 → getE l2 p = getE l p := by
            intro p hp1 hp2
            rw [hl2]
            by_cases hsw : i2 < j2
            · rw [if_pos hsw]
              exact getE_swapE_ne l i2 j2 p hp1 hp2
            · rw [if_neg hsw]
          have inv2b : ∀ p, lo ≤ p → p < i2 + 1 → (getE l2 p).d ≤ pivot := by
            intro p h1 h2
            by_cases hp : p = i2
            · subst hp
              exact hl2i2
            · have hpi2 : p ≤ i2 := Int.lt_add_one_iff.mp h2
              rw [hl2other p hp (fun he => hp (le_antisymm hpi2 (he ▸ hij2)))]
              by_cases hpi : p < i
              · exact inv2 p h1 hpi
              · exact le_of_lt (sD p (not_lt.mp hpi) (lt_of_le_of_ne hpi2 hp))
          have inv3b : ∀ p, j2 - 1 < p → p ≤ hi → pivot ≤ (getE l2 p).d := by
            intro p h1 h2
            by_cases hp : p = j2
            · subst hp
              exact hl2j2
            · have hj2p : j2 ≤ p := Int.sub_one_lt_iff.mp h1
              rw [hl2other p
                (fun he => hp (he.trans (le_antisymm hij2 (he ▸ hj2p)))) hp]
              by_cases hpj : j < p
              · exact inv3 p hpj h2
              · exact le_of_lt (tD p
                  (lt_of_le_of_ne hj2p (Ne.symm hp)) (not_lt.mp hpj))
          have hwitb : i2 + 1 ≤ j2 - 1 →
              (∃ w, i2 + 1 ≤ w ∧ w ≤ (j2 - 1) + 1 ∧ w ≤ hi ∧
                ¬((getE l2 w).d < pivot)) ∧
              (∃ w, (i2 + 1) - 1 ≤ w ∧ lo ≤ w ∧ w ≤ j2 - 1 ∧
                ¬((getE l2 w).d > pivot)) := by
            intro hlt
            constructor
            · exact ⟨j2, le_trans hlt (le_of_lt (sub_one_lt j2)),
                le_of_eq (Int.sub_add_cancel j2 1).symm,
                hj2hi, not_lt.mpr hl2j2⟩
            · exact ⟨i2, le_of_eq (Int.add_sub_cancel i2 1), hloi2,
                le_trans (Int.le_add_one (le_refl i2)) hlt, not_lt.mpr hl2i2⟩
          obtain ⟨⟨rA, rB, rC, rD⟩, ⟨rE, rF, rG, rH, rI⟩, rJ, rK⟩ :=
            ih l2 (i2 + 1) (j2 - 1) hlo (by rw [hlen2]; exact hhi) hnb
              (le_trans hloi2 (Int.le_add_one (le_refl i2)))
              (add_le_add_right hi2hi 1)
              (sub_le_sub_right hj2lo 1)
              (le_trans (le_of_lt (sub_one_lt j2)) hj2hi) inv2b inv3b hwitb
              (by clear * - hf sA tA hij2; omega)
          rw [heq]
          refine ⟨⟨by rw [rA, hlen2], rB.trans hperm2, VO_trans rC hvo2, ?_⟩,
            ⟨le_trans (Int.le_add_one sA) rE,
             le_trans rF ((le_of_lt (sub_one_lt j2)).trans tA),
             rG, rH, rI⟩, rJ, rK⟩
          intro p hp
          rw [rD p hp, hunch2 p hp]
        · have heq : partLoop pivot nb l i j (f + 1) = (l, i2, j2) := by
            rw [partLoop]
            rw [if_pos hij, if_neg hij2]
          rw [heq]
          refine ⟨⟨rfl, List.Perm.refl _, VO_refl _ _ _, fun p hp => rfl⟩,
            ⟨sA, tA, not_le.mp hij2, Int.le_add_one hi2hi,
              (le_of_lt (sub_one_lt lo)).trans hj2lo⟩, ?_, ?_⟩
          · intro p h1 h2
            by_cases hpi : p < i
            · exact inv2 p h1 hpi
            · exact le_of_lt (sD p (not_lt.mp hpi) h2)
          · intro p h1 h2
            by_cases hpj : j < p
            · exact inv3 p hpj h2
            · exact le_of_lt (tD p h1 (not_lt.mp hpj))
      · have heq : partLoop pivot nb l i j (f + 1) = (l, i, j) := by
          rw [partLoop]
          rw [if_neg hij]
        rw [heq]
        refine ⟨⟨rfl, List.Perm.refl _, VO_refl _ _ _, fun p hp => rfl⟩,
          ⟨le_refl _, le_refl _, not_le.mp hij, hi2, hj1⟩, inv2, inv3⟩

theorem partition_top (l : List SEntry) (lo hi : Int) (nb fuel : Nat)
    (hlo : 0 ≤ lo) (hhi : hi < (l.length : Int)) (hlen : lo + 1 ≤ hi)
    (hnb : (hi - lo).toNat < nb)
    (hfuel : (hi - lo + 2).toNat ≤ 2 * fuel) :
    (partLoop (getE l ((lo + hi) / 2)).d nb l lo hi fuel).1.length =
      l.length ∧
    List.Perm (partLoop (getE l ((lo + hi) / 2)).d nb l lo hi fuel).1 l ∧
    VO (partLoop (getE l ((lo + hi) / 2)).d nb l lo hi fuel).1 l lo hi ∧
    (∀ p, p < lo ∨ hi < p →
      getE (partLoop (getE l ((lo + hi) / 2)).d nb l lo hi fuel).1 p =
        getE l p) ∧
    lo + 1 ≤ (partLoop (getE l ((lo + hi) / 2)).d nb l lo hi fuel).2.1 ∧
    (partLoop (getE l ((lo + hi) / 2)).d nb l lo hi fuel).2.2 ≤ hi - 1 ∧
    (partLoop (getE l ((lo + hi) / 2)).d nb l lo hi fuel).2.2 <
      (partLoop (getE l ((lo + hi) / 2)).d nb l lo hi fuel).2.1 ∧
    lo - 1 ≤ (partLoop (getE l ((lo + hi) / 2)).d nb l lo hi fuel).2.2 ∧
    (partLoop (getE l ((lo + hi) / 2)).d nb l lo hi fuel).2.1 ≤ hi + 1 ∧
    (∀ p, lo ≤ p → p < (partLoop (getE l ((lo + hi) / 2)).d nb l lo hi
        fuel).2.1 →
      (getE (partLoop (getE l ((lo + hi) / 2)).d nb l lo hi fuel).1 p).d ≤
        (getE l ((lo + hi) / 2)).d) ∧
    (∀ p, (partLoop (getE l ((lo + hi) / 2)).d nb l lo hi fuel).2.2 < p →
      p ≤ hi →
      (getE l ((lo + hi) / 2)).d ≤
        (getE (partLoop (getE l ((lo + hi) / 2)).d nb l lo hi fuel).1 p).d) := by
  set pivot := (getE l ((lo + hi) / 2)).d with hpiv
  set mid := (lo + hi) / 2 with hmid
  have hij : lo ≤ hi := le_of_lt (Int.lt_iff_add_one_le.mpr hlen)
  have hmid1 : lo ≤ mid := by rw [hmid]; clear * - hij; omega
  have hmid2 : mid ≤ hi := by rw [hmid]; clear * - hij; omega
  obtain ⟨F, rfl⟩ : ∃ F, fuel = F + 1 :=
    ⟨fuel - 1, by clear * - hfuel hlen; omega⟩
  have hstopI : ¬((getE l mid).d < pivot) := by
    rw [hpiv]
    exact lt_irrefl _
  have hstopJ : ¬((getE l mid).d > pivot) := by
    rw [hpiv]
    exact lt_irrefl _
  obtain ⟨sA, sB, sC, sD⟩ := scanI_spec l pivot nb lo mid hmid1 hstopI
    (by clear * - hnb hmid1 hmid2; omega)
  obtain ⟨tA, tB, tC, tD⟩ := scanJ_spec l pivot nb hi mid hmid2 hstopJ
    (by clear * - hnb hmid1 hmid2; omega)
  set i2 := scanI l pivot lo nb with hi2d
  set j2 := scanJ l pivot hi nb with hj2d
  have hij2 : i2 ≤ j2 := le_trans sB tB
  have hi2hi : i2 ≤ hi := le_trans sB hmid2
  have hj2lo : lo ≤ j2 := le_trans hmid1 tB
  have hj2hi : j2 ≤ hi := tA
  have h0i2 : 0 ≤ i2 := le_trans hlo sA
  have h0j2 : 0 ≤ j2 := le_trans hlo hj2lo
  have hNi2 : i2.toNat < l.length :=
    (Int.toNat_lt h0i2).mpr (lt_of_le_of_lt hi2hi hhi)
  have hNj2 : j2.toNat < l.length :=
    (Int.toNat_lt h0j2).mpr (lt_of_le_of_lt hj2hi hhi)
  have heq : partLoop pivot nb l lo hi (F + 1) =
      partLoop pivot nb (if i2 < j2 then swapE l i2 j2 else l)
        (i2 + 1) (j2 - 1) F := by
    rw [partLoop]
    rw [if_pos hij, if_pos hij2]
  set l2 := (if i2 < j2 then swapE l i2 j2 else l) with hl2
  have hlen2 : l2.length = l.length := by
    rw [hl2]
    by_cases hsw : i2 < j2
    · rw [if_pos hsw, length_swapE]
    · rw [if_neg hsw]
  have hperm2 : List.Perm l2 l := by
    rw [hl2]
    by_cases hsw : i2 < j2
    · rw [if_pos hsw]
      exact swapE_perm l i2 j2 h0i2 hNi2 h0j2 hNj2
    · rw [if_neg hsw]
  have hvo2 : VO l2 l lo hi := by
    rw [hl2]
    by_cases hsw : i2 < j2
    · rw [if_pos hsw]
      exact VO_swapE l i2 j2 lo hi sA hi2hi hj2lo hj2hi h0i2 hNi2 h0j2 hNj2
    · rw [if_neg hsw]
      exact VO_refl _ _ _
  have hunch2 : ∀ p, p < lo ∨ hi < p → getE l2 p = getE l p := by
    intro p hp
    rw [hl2]
    by_cases hsw : i2 < j2
    · rw [if_pos hsw]
      exact unch_swapE l i2 j2 p lo hi sA hi2hi hj2lo hj2hi hp
    · rw [if_neg hsw]
  have hl2i2 : (getE l2 i2).d ≤ pivot := by
    rw [hl2]
    by_cases hsw : i2 < j2
    · rw [if_pos hsw]
      unfold swapE
      rw [getE_setE_ne _ _ _ _ (ne_of_lt hsw),
        getE_setE_self _ _ _ h0i2 hNi2]
      exact not_lt.mp tC
    · rw [if_neg hsw]
      have heq2 : i2 = j2 := le_antisymm hij2 (not_lt.mp hsw)
      rw [heq2]
      exact not_lt.mp tC
  have hl2j2 : pivot ≤ (getE l2 j2).d := by
    rw [hl2]
    by_cases hsw : i2 < j2
    · rw [if_pos hsw]
      unfold swapE
      rw [getE_setE_self _ _ _ h0j2 (by rw [length_setE]; exact hNj2)]
      exact not_lt.mp sC
    · rw [if_neg hsw]
      have heq2 : j2 = i2 := le_antisymm (not_lt.mp hsw) hij2
      rw [heq2]
      exact not_lt.mp sC
  have hl2other : ∀ p, p ≠ i2 → p ≠ j2 → getE l2 p = getE l p := by
    intro p hp1 hp2
    rw [hl2]
    by_cases hsw : i2 < j2
    · rw [if_pos hsw]
      exact getE_swapE_ne l i2 j2 p hp1 hp2
    · rw [if_neg hsw]
  have inv2b : ∀ p, lo ≤ p → p < i2 + 1 → (getE l2 p).d ≤ pivot := by
    intro p h1 h2
    by_cases hp : p = i2
    · subst hp
      exact hl2i2
    · have hpi2 : p ≤ i2 := Int.lt_add_one_iff.mp h2
      rw [hl2other p hp (fun he => hp (le_antisymm hpi2 (he ▸ hij2)))]
      exact le_of_lt (sD p h1 (lt_of_le_of_ne hpi2 hp))
  have inv3b : ∀ p, j2 - 1 < p → p ≤ hi → pivot ≤ (getE l2 p).d := by
    intro p h1 h2
    by_cases hp : p = j2
    · subst hp
      exact hl2j2
    · have hj2p : j2 ≤ p := Int.sub_one_lt_iff.mp h1
      rw [hl2other p
        (fun he => hp (he.trans (le_antisymm hij2 (he ▸ hj2p)))) hp]
      exact le_of_lt (tD p (lt_of_le_of_ne hj2p (Ne.symm hp)) h2)
  have hwitb : i2 + 1 ≤ j2 - 1 →
      (∃ w, i2 + 1 ≤ w ∧ w ≤ (j2 - 1) + 1 ∧ w ≤ hi ∧
        ¬((getE l2 w).d < pivot)) ∧
      (∃ w, (i2 + 1) - 1 ≤ w ∧ lo ≤ w ∧ w ≤ j2 - 1 ∧
        ¬((getE l2 w).d > pivot)) := by
    intro hlt
    constructor
    · exact ⟨j2, le_trans hlt (le_of_lt (sub_one_lt j2)),
        le_of_eq (Int.sub_add_cancel j2 1).symm,
        hj2hi, not_lt.mpr hl2j2⟩
    · exact ⟨i2, le_of_eq (Int.add_sub_cancel i2 1), sA,
        le_trans (Int.le_add_one (le_refl i2)) hlt, not_lt.mpr hl2i2⟩
  obtain ⟨⟨rA, rB, rC, rD⟩, ⟨rE, rF, rG, rH, rI⟩, rJ, rK⟩ :=
    partLoop_spec pivot nb lo hi F l2 (i2 + 1) (j2 - 1) hlo
      (by rw [hlen2]; exact hhi) hnb
      (le_trans sA (Int.le_add_one (le_refl i2)))
      (add_le_add_right hi2hi 1)
      (sub_le_sub_right hj2lo 1)
      (le_trans (le_of_lt (sub_one_lt j2)) hj2hi) inv2b inv3b hwitb
      (by clear * - hfuel sA tA; omega)
  rw [heq]
  refine ⟨by rw [rA, hlen2], rB.trans hperm2, VO_trans rC hvo2, ?_,
    le_trans (add_le_add_right sA 1) rE,
    le_trans rF (sub_le_sub_right tA 1), rG,
    rI, rH, rJ, rK⟩
  intro p hp
  rw [rD p hp, hunch2 p hp]

/-- Pushing the two sub-ranges after a partition (runner.c:301-323): the
C `qstack` grows by one or two entries; the list head is the next range
popped, so the range pushed *last* stands first. -/
def qpush (lo hi i j : Int) (rest : List (Int × Int)) : List (Int × Int) :=
  if j > (lo + hi) / 2 then
    (if i < hi then [(i, hi)] else []) ++
    (if lo < j then [(lo, j)] else []) ++ rest
  else
    (if lo < j then [(lo, j)] else []) ++
    (if i < hi then [(i, hi)] else []) ++ rest

/-- The termination measure of the quicksort driver: each pending range
of size `s` counts `3 ^ s`. -/
def qMeasure (stack : List (Int × Int)) : Nat :=
  (stack.map (fun r => 3 ^ (r.2 - r.1 + 1).toNat)).sum

theorem qMeasure_cons (r : Int × Int) (t : List (Int × Int)) :
    qMeasure (r :: t) = 3 ^ (r.2 - r.1 + 1).toNat + qMeasure t := by
  simp [qMeasure]

theorem qMeasure_append (a b : List (Int × Int)) :
    qMeasure (a ++ b) = qMeasure a + qMeasure b := by
  simp [qMeasure]

theorem mem_ite_singleton {α : Type} (c : Prop) [Decidable c] (x r : α)
    (h : r ∈ (if c then [x] else [])) : r = x ∧ c := by
  by_cases hc : c
  · rw [if_pos hc] at h
    exact ⟨List.mem_singleton.mp h, hc⟩
  · rw [if_neg hc] at h
    exact absurd h (List.not_mem_nil r)

theorem qpush_mem (lo hi i j : Int) (rest : List (Int × Int)) (r : Int × Int)
    (h : r ∈ qpush lo hi i j rest) :
    (r = (i, hi) ∧ i < hi) ∨ (r = (lo, j) ∧ lo < j) ∨ r ∈ rest := by
  unfold qpush at h
  by_cases hc : j > (lo + hi) / 2
  · rw [if_pos hc] at h
    rcases List.mem_append.mp h with h | h
    · rcases List.mem_append.mp h with h | h
      · exact Or.inl (mem_ite_singleton _ _ _ h)
      · exact Or.inr (Or.inl (mem_ite_singleton _ _ _ h))
    · exact Or.inr (Or.inr h)
  · rw [if_neg hc] at h
    rcases List.mem_append.mp h with h | h
    · rcases List.mem_append.mp h with h | h
      · exact Or.inr (Or.inl (mem_ite_singleton _ _ _ h))
      · exact Or.inl (mem_ite_singleton _ _ _ h)
    · exact Or.inr (Or.inr h)

theorem qpush_mem_rest (lo hi i j : Int) (rest : List (Int × Int))
    (r : Int × Int) (h : r ∈ rest) : r ∈ qpush lo hi i j rest := by
  unfold qpush
  by_cases hc : j > (lo + hi) / 2
  · rw [if_pos hc]
    exact List.mem_append.mpr (Or.inr h)
  · rw [if_neg hc]
    exact List.mem_append.mpr (Or.inr h)

theorem qpush_mem_hi (lo hi i j : Int) (rest : List (Int × Int))
    (h : i < hi) : (i, hi) ∈ qpush lo hi i j rest := by
  unfold qpush
  by_cases hc : j > (lo + hi) / 2
  · rw [if_pos hc]
    exact List.mem_append.mpr (Or.inl (List.mem_append.mpr (Or.inl
      (by rw [if_pos h]; exact List.mem_singleton.mpr rfl))))
  · rw [if_neg hc]
    exact List.mem_append.mpr (Or.inl (List.mem_append.mpr (Or.inr
      (by rw [if_pos h]; exact List.mem_singleton.mpr rfl))))

theorem qpush_mem_lo (lo hi i j : Int) (rest : List (Int × Int))
    (h : lo < j) : (lo, j) ∈ qpush lo hi i j rest := by
  unfold qpush
  by_cases hc : j > (lo + hi) / 2
  · rw [if_pos hc]
    exact List.mem_append.mpr (Or.inl (List.mem_append.mpr (Or.inr
      (by rw [if_pos h]; exact List.mem_singleton.mpr rfl))))
  · rw [if_neg hc]
    exact List.mem_append.mpr (Or.inl (List.mem_append.mpr (Or.inl
      (by rw [if_pos h]; exact List.mem_singleton.mpr rfl))))

theorem pairwise_ite_singleton {α : Type} (c : Prop) [Decidable c] (x : α)
    (R : α → α → Prop) : (if c then [x] else []).Pairwise R := by
  by_cases hc : c
  · rw [if_pos hc]
    exact List.pairwise_singleton R x
  · rw [if_neg hc]
    exact List.Pairwise.nil

theorem qpush_pairwise (lo hi i j : Int) (rest : List (Int × Int))
    (hji : j < i) (hloi : lo ≤ i) (hjhi : j ≤ hi)
    (hhead : ∀ r ∈ rest, hi < r.1 ∨ r.2 < lo)
    (hrest : rest.Pairwise (fun r s => r.2 < s.1 ∨ s.2 < r.1)) :
    (qpush lo hi i j rest).Pairwise (fun r s => r.2 < s.1 ∨ s.2 < r.1) := by
  have hnew : ∀ r : Int × Int, (r = (i, hi) ∧ i < hi) ∨
      (r = (lo, j) ∧ lo < j) → ∀ s ∈ rest, r.2 < s.1 ∨ s.2 < r.1 := by
    intro r hr s hs
    rcases hhead s hs with h | h
    · rcases hr with ⟨rfl, -⟩ | ⟨rfl, -⟩
      · exact Or.inl h
      · exact Or.inl (lt_of_le_of_lt hjhi h)
    · rcases hr with ⟨rfl, -⟩ | ⟨rfl, -⟩
      · exact Or.inr (lt_of_lt_of_le h hloi)
      · exact Or.inr h
  unfold qpush
  by_cases hc : j > (lo + hi) / 2
  · rw [if_pos hc]
    rw [List.pairwise_append]
    refine ⟨?_, hrest, ?_⟩
    · rw [List.pairwise_append]
      refine ⟨pairwise_ite_singleton _ _ _, pairwise_ite_singleton _ _ _, ?_⟩
      intro a ha b hb
      obtain ⟨rfl, h2⟩ := mem_ite_singleton _ _ _ ha
      obtain ⟨rfl, h3⟩ := mem_ite_singleton _ _ _ hb
      exact Or.inr hji
    · intro a ha b hb
      rcases List.mem_append.mp ha with ha | ha
      · obtain ⟨rfl, h2⟩ := mem_ite_singleton _ _ _ ha
        exact hnew _ (Or.inl ⟨rfl, h2⟩) b hb
      · obtain ⟨rfl, h2⟩ := mem_ite_singleton _ _ _ ha
        exact hnew _ (Or.inr ⟨rfl, h2⟩) b hb
  · rw [if_neg hc]
    rw [List.pairwise_append]
    refine ⟨?_, hrest, ?_⟩
    · rw [List.pairwise_append]
      refine ⟨pairwise_ite_singleton _ _ _, pairwise_ite_singleton _ _ _, ?_⟩
      intro a ha b hb
      obtain ⟨rfl, h2⟩ := mem_ite_singleton _ _ _ ha
      obtain ⟨rfl, h3⟩ := mem_ite_singleton _ _ _ hb
      exact Or.inl hji
    · intro a ha b hb
      rcases List.mem_append.mp ha with ha | ha
      · obtain ⟨rfl, h2⟩ := mem_ite_singleton _ _ _ ha
        exact hnew _ (Or.inr ⟨rfl, h2⟩) b hb
      · obtain ⟨rfl, h2⟩ := mem_ite_singleton _ _ _ ha
        exact hnew _ (Or.inl ⟨rfl, h2⟩) b hb

theorem qpush_measure (lo hi i j : Int) (rest : List (Int × Int)) :
    qMeasure (qpush lo hi i j rest) =
      (if i < hi then 3 ^ (hi - i + 1).toNat else 0) +
      (if lo < j then 3 ^ (j - lo + 1).toNat else 0) + qMeasure rest := by
  have h1 : ∀ c : Prop, ∀ inst : Decidable c, ∀ x : Int × Int,
      qMeasure (if c then [x] else []) =
        if c then 3 ^ (x.2 - x.1 + 1).toNat else 0 := by
    intro c inst x
    by_cases hc : c
    · rw [if_pos hc, if_pos hc]
      simp [qMeasure]
    · rw [if_neg hc, if_neg hc]
      rfl
  unfold qpush
  by_cases hc : j > (lo + hi) / 2
  · rw [if_pos hc, qMeasure_append, qMeasure_append, h1, h1]
  · rw [if_neg hc, qMeasure_append, qMeasure_append, h1, h1]
    show (if lo < j then 3 ^ (j - lo + 1).toNat else 0) +
        (if i < hi then 3 ^ (hi - i + 1).toNat else 0) + qMeasure rest = _
    clear * -
    omega

theorem qMeasure_eq_zero (stack : List (Int × Int))
    (h : qMeasure stack = 0) : stack = [] := by
  cases stack with
  | nil => rfl
  | cons r t =>
      rw [qMeasure_cons] at h
      have : 0 < 3 ^ (r.2 - r.1 + 1).toNat := Nat.pos_pow_of_pos _
        (by norm_num)
      omega

/-- The stack-driven loop of runner_do_sort_ascending (runner.c:266-325):
pop a range; ranges shorter than 15 get the selection sort, longer ones
are partitioned about the middle element's distance and the sub-ranges
pushed.  The C `qstack[10]` is modelled as an unbounded list; `nb` bounds
the scan/partition loops and `fuel` the driver (callers pass enough for
full execution). -/
def qsortLoop (nb : Nat) : List SEntry → List (Int × Int) → Nat → List SEntry
  | l, _, 0 => l
  | l, [], _+1 => l
  | l, (lo, hi) :: rest, fuel+1 =>
      if hi - lo < 15 then
        qsortLoop nb (selSortGo l hi lo (hi - lo).toNat) rest fuel
      else
        qsortLoop nb (partLoop (getE l ((lo + hi) / 2)).d nb l lo hi nb).1
          (qpush lo hi
            (partLoop (getE l ((lo + hi) / 2)).d nb l lo hi nb).2.1
            (partLoop (getE l ((lo + hi) / 2)).d nb l lo hi nb).2.2 rest)
          fuel

theorem qsortLoop_spec (nb : Nat) (N : Int) :
    ∀ (fuel : Nat) (l : List SEntry) (stack : List (Int × Int)),
      N ≤ (l.length : Int) → 0 < nb → N ≤ (nb : Int) →
      (∀ r ∈ stack, 0 ≤ r.1 ∧ r.2 ≤ N - 1) →
      stack.Pairwise (fun r s => r.2 < s.1 ∨ s.2 < r.1) →
      (∀ p q, 0 ≤ p → p < q → q ≤ N - 1 →
        (∀ r ∈ stack, ¬(r.1 ≤ p ∧ q ≤ r.2)) →
        (getE l p).d ≤ (getE l q).d) →
      qMeasure stack ≤ fuel →
      (qsortLoop nb l stack fuel).length = l.length ∧
      List.Perm (qsortLoop nb l stack fuel) l ∧
      (∀ p, (∀ r ∈ stack, ¬(r.1 ≤ p ∧ p ≤ r.2)) →
        getE (qsortLoop nb l stack fuel) p = getE l p) ∧
      (∀ p q, 0 ≤ p → p ≤ q → q ≤ N - 1 →
        (getE (qsortLoop nb l stack fuel) p).d ≤
          (getE (qsortLoop nb l stack fuel) q).d) := by
  intro fuel
  induction fuel with
  | zero =>
      intro l stack hN hnb1 hnb2 hra hpw hcross hmeas
      have hst : stack = [] := qMeasure_eq_zero stack (by omega)
      subst hst
      refine ⟨rfl, List.Perm.refl _, fun p hp => rfl, ?_⟩
      intro p q h1 h2 h3
      rcases eq_or_lt_of_le h2 with rfl | h2
      · exact le_refl _
      · exact hcross p q h1 h2 h3 (fun r hr => absurd hr
          (List.not_mem_nil r))
  | succ f ih =>
      intro l stack hN hnb1 hnb2 hra hpw hcross hmeas
      match stack with
      | [] =>
          refine ⟨rfl, List.Perm.refl _, fun p hp => rfl, ?_⟩
          intro p q h1 h2 h3
          rcases eq_or_lt_of_le h2 with rfl | h2
          · exact le_refl _
          · exact hcross p q h1 h2 h3 (fun r hr => absurd hr
              (List.not_mem_nil r))
      | (lo, hi) :: rest =>
          have hhd := hra (lo, hi) (List.mem_cons_self _ _)
          have hlo : 0 ≤ lo := hhd.1
          have hhiN : hi ≤ N - 1 := hhd.2
          have hhi : hi < (l.length : Int) := by clear * - hhiN hN; omega
          have hratl : ∀ r ∈ rest, 0 ≤ r.1 ∧ r.2 ≤ N - 1 :=
            fun r hr => hra r (List.mem_cons_of_mem _ hr)
          have hhead : ∀ r ∈ rest, hi < r.1 ∨ r.2 < lo := by
            intro r hr
            have := (List.pairwise_cons.mp hpw).1 r hr
            rcases this with h | h
            · exact Or.inl h
            · exact Or.inr h
          have hpwtl : rest.Pairwise (fun r s => r.2 < s.1 ∨ s.2 < r.1) :=
            (List.pairwise_cons.mp hpw).2
          have hmeastl : 3 ^ (hi - lo + 1).toNat + qMeasure rest ≤ f + 1 := by
            have h := hmeas
            rw [qMeasure_cons] at h
            exact h
          have hpow1 : 0 < 3 ^ (hi - lo + 1).toNat :=
            Nat.pos_pow_of_pos _ (by norm_num)
          by_cases hsmall : hi - lo < 15
          · have heq : qsortLoop nb l ((lo, hi) :: rest) (f + 1) =
                qsortLoop nb (selSortGo l hi lo (hi - lo).toNat) rest f := by
              rw [qsortLoop]
              rw [if_pos hsmall]
            obtain ⟨eA, eB, eC, eD, eE⟩ := selSortGo_spec hi (hi - lo).toNat
              l lo (le_refl _) hlo hhi
            set l3 := selSortGo l hi lo (hi - lo).toNat with hl3
            have icross : ∀ p q, 0 ≤ p → p < q → q ≤ N - 1 →
                (∀ r ∈ rest, ¬(r.1 ≤ p ∧ q ≤ r.2)) →
                (getE l3 p).d ≤ (getE l3 q).d := by
              intro p q h0p hpq hqN hfree
              by_cases hpin : lo ≤ p ∧ p ≤ hi
              · by_cases hqin : lo ≤ q ∧ q ≤ hi
                · exact eE p q hpin.1 (le_of_lt hpq) hqin.2
                · have hqhi : hi < q := by clear * - hqin hpin hpq; omega
                  obtain ⟨p2, hp21, hp22, hp23⟩ := eC p hpin.1 hpin.2
                  rw [hp23, eD q (Or.inr hqhi)]
                  refine hcross p2 q (le_trans hlo hp21)
                    (lt_of_le_of_lt hp22 hqhi) hqN ?_
                  intro r hr
                  rcases List.mem_cons.mp hr with rfl | hr
                  · intro hc
                    exact absurd (hc.2 : q ≤ hi) (not_le.mpr hqhi)
                  · intro hc
                    rcases hhead r hr with hh | hh
                    · exact absurd (hc.1 : r.1 ≤ p2)
                        (not_le.mpr (lt_of_le_of_lt hp22 hh))
                    · exact absurd (hc.2 : q ≤ r.2)
                        (not_le.mpr (lt_of_lt_of_le hh
                          (le_trans hp21 (le_trans hp22 (le_of_lt hqhi)))))
              · by_cases hqin : lo ≤ q ∧ q ≤ hi
                · have hplo : p < lo := by clear * - hpin hpq hqin; omega
                  obtain ⟨q2, hq21, hq22, hq23⟩ := eC q hqin.1 hqin.2
                  rw [hq23, eD p (Or.inl hplo)]
                  refine hcross p q2 h0p (lt_of_lt_of_le hplo hq21)
                    (le_trans hq22 hhiN) ?_
                  intro r hr
                  rcases List.mem_cons.mp hr with rfl | hr
                  · intro hc
                    exact absurd (hc.1 : lo ≤ p) (not_le.mpr hplo)
                  · intro hc
                    rcases hhead r hr with hh | hh
                    · exact absurd (hc.1 : r.1 ≤ p)
                        (not_le.mpr (lt_of_lt_of_le hplo
                          (le_trans hqin.1 (le_trans hqin.2 (le_of_lt hh)))))
                    · exact absurd (hc.2 : q2 ≤ r.2)
                        (not_le.mpr (lt_of_lt_of_le hh hq21))
                · have hp2 : p < lo ∨ hi < p := by clear * - hpin; omega
                  have hq2 : q < lo ∨ hi < q := by clear * - hqin; omega
                  rw [eD p hp2, eD q hq2]
                  refine hcross p q h0p hpq hqN ?_
                  intro r hr
                  rcases List.mem_cons.mp hr with rfl | hr
                  · intro hc
                    have hc1 : lo ≤ p := hc.1
                    have hc2 : q ≤ hi := hc.2
                    exact hpin ⟨hc1, le_trans (le_of_lt hpq) hc2⟩
                  · exact hfree r hr
            obtain ⟨rA, rB, rC, rD⟩ := ih l3 rest (by rw [eA]; exact hN)
              hnb1 hnb2 hratl hpwtl icross
              (by clear * - hmeastl hpow1; omega)
            rw [heq]
            refine ⟨by rw [rA, eA], rB.trans eB, ?_, rD⟩
            intro p hp
            have hphead := hp (lo, hi) (List.mem_cons_self _ _)
            have hpout : p < lo ∨ hi < p := by
              by_contra hcon
              push_neg at hcon
              exact hphead ⟨hcon.1, hcon.2⟩
            rw [rC p (fun r hr => hp r (List.mem_cons_of_mem _ hr)),
              eD p hpout]
          · have heq : qsortLoop nb l ((lo, hi) :: rest) (f + 1) =
                qsortLoop nb
                  (partLoop (getE l ((lo + hi) / 2)).d nb l lo hi nb).1
                  (qpush lo hi
                    (partLoop (getE l ((lo + hi) / 2)).d nb l lo hi nb).2.1
                    (partLoop (getE l ((lo + hi) / 2)).d nb l lo hi nb).2.2
                    rest)
                  f := by
              rw [qsortLoop]
              rw [if_neg hsmall]
            obtain ⟨pA, pB, pC, pD, pE, pF, pG, pH, pI, pJ, pK⟩ :=
              partition_top l lo hi nb nb hlo hhi
                (by clear * - hsmall; omega)
                (by clear * - hhiN hlo hnb2 hnb1; omega)
                (by clear * - hhiN hlo hnb2 hnb1; omega)
            set l2 := (partLoop (getE l ((lo + hi) / 2)).d nb l lo hi nb).1
              with hl2d
            set i := (partLoop (getE l ((lo + hi) / 2)).d nb l lo hi nb).2.1
              with hid
            set j := (partLoop (getE l ((lo + hi) / 2)).d nb l lo hi nb).2.2
              with hjd
            set st2 := qpush lo hi i j rest with hst2
            have hra2 : ∀ r ∈ st2, 0 ≤ r.1 ∧ r.2 ≤ N - 1 := by
              intro r hr
              rcases qpush_mem lo hi i j rest r hr with ⟨rfl, h2⟩ |
                ⟨rfl, h2⟩ | hr2
              · exact ⟨by clear * - hlo pE; omega, hhiN⟩
              · exact ⟨hlo, by clear * - pF hhiN; omega⟩
              · exact hratl r hr2
            have hpw2 := qpush_pairwise lo hi i j rest pG
              (by clear * - pE; omega) (by clear * - pF; omega) hhead hpwtl
            have icross2 : ∀ p q, 0 ≤ p → p < q → q ≤ N - 1 →
                (∀ r ∈ st2, ¬(r.1 ≤ p ∧ q ≤ r.2)) →
                (getE l2 p).d ≤ (getE l2 q).d := by
              intro p q h0p hpq hqN hfree
              by_cases hpin : lo ≤ p ∧ p ≤ hi
              · by_cases hqin : lo ≤ q ∧ q ≤ hi
                · by_cases hqj : q ≤ j
                  · exfalso
                    have hloj : lo < j := by clear * - hpin hpq hqj; omega
                    exact hfree (lo, j) (qpush_mem_lo lo hi i j rest hloj)
                      ⟨hpin.1, hqj⟩
                  · by_cases hpi : i ≤ p
                    · exfalso
                      have hihi : i < hi := by clear * - hpi hpq hqin; omega
                      exact hfree (i, hi) (qpush_mem_hi lo hi i j rest hihi)
                        ⟨hpi, hqin.2⟩
                    · exact le_trans (pJ p hpin.1 (not_le.mp hpi))
                        (pK q (not_le.mp hqj) hqin.2)
                · have hqhi : hi < q := by clear * - hqin hpin hpq; omega
                  obtain ⟨p2, hp21, hp22, hp23⟩ := pC p hpin.1 hpin.2
                  rw [hp23, pD q (Or.inr hqhi)]
                  refine hcross p2 q (le_trans hlo hp21)
                    (lt_of_le_of_lt hp22 hqhi) hqN ?_
                  intro r hr
                  rcases List.mem_cons.mp hr with rfl | hr
                  · intro hc
                    exact absurd (hc.2 : q ≤ hi) (not_le.mpr hqhi)
                  · intro hc
                    rcases hhead r hr with hh | hh
                    · exact absurd (hc.1 : r.1 ≤ p2)
                        (not_le.mpr (lt_of_le_of_lt hp22 hh))
                    · exact absurd (hc.2 : q ≤ r.2)
                        (not_le.mpr (lt_of_lt_of_le hh
                          (le_trans hp21 (le_trans hp22 (le_of_lt hqhi)))))
              · by_cases hqin : lo ≤ q ∧ q ≤ hi
                · have hplo : p < lo := by clear * - hpin hpq hqin; omega
                  obtain ⟨q2, hq21, hq22, hq23⟩ := pC q hqin.1 hqin.2
                  rw [hq23, pD p (Or.inl hplo)]
                  refine hcross p q2 h0p (lt_of_lt_of_le hplo hq21)
                    (le_trans hq22 hhiN) ?_
                  intro r hr
                  rcases List.mem_cons.mp hr with rfl | hr
                  · intro hc
                    exact absurd (hc.1 : lo ≤ p) (not_le.mpr hplo)
                  · intro hc
                    rcases hhead r hr with hh | hh
                    · exact absurd (hc.1 : r.1 ≤ p)
                        (not_le.mpr (lt_of_lt_of_le hplo
                          (le_trans hqin.1 (le_trans hqin.2 (le_of_lt hh)))))
                    · exact absurd (hc.2 : q2 ≤ r.2)
                        (not_le.mpr (lt_of_lt_of_le hh hq21))
                · have hp2 : p < lo ∨ hi < p := by clear * - hpin; omega
                  have hq2 : q < lo ∨ hi < q := by clear * - hqin; omega
                  rw [pD p hp2, pD q hq2]
                  refine hcross p q h0p hpq hqN ?_
                  intro r hr
                  rcases List.mem_cons.mp hr with rfl | hr
                  · intro hc
                    have hc1 : lo ≤ p := hc.1
                    have hc2 : q ≤ hi := hc.2
                    exact hpin ⟨hc1, le_trans (le_of_lt hpq) hc2⟩
                  · exact fun hc =>
                      hfree r (qpush_mem_rest lo hi i j rest r hr) hc
            have hmeas2 : qMeasure st2 ≤ f := by
              rw [hst2, qpush_measure]
              have hs1 : (hi - i + 1).toNat ≤ (hi - lo).toNat := by
                clear * - pE; omega
              have hs2 : (j - lo + 1).toNat ≤ (hi - lo).toNat := by
                clear * - pF; omega
              have hq1 : 3 ^ (hi - i + 1).toNat ≤ 3 ^ (hi - lo).toNat :=
                Nat.pow_le_pow_right (by norm_num) hs1
              have hq2 : 3 ^ (j - lo + 1).toNat ≤ 3 ^ (hi - lo).toNat :=
                Nat.pow_le_pow_right (by norm_num) hs2
              have hq3 : 3 ^ (hi - lo + 1).toNat =
                  3 ^ (hi - lo).toNat * 3 := by
                rw [show (hi - lo + 1).toNat = (hi - lo).toNat + 1 from
                  by clear * - hsmall; omega, pow_succ]
              have hpos : 0 < 3 ^ (hi - lo).toNat :=
                Nat.pos_pow_of_pos _ (by norm_num)
              have hb1 : (if i < hi then 3 ^ (hi - i + 1).toNat else 0) ≤
                  3 ^ (hi - lo).toNat := by
                by_cases h : i < hi
                · rw [if_pos h]
                  exact hq1
                · rw [if_neg h]
                  exact Nat.zero_le _
              have hb2 : (if lo < j then 3 ^ (j - lo + 1).toNat else 0) ≤
                  3 ^ (hi - lo).toNat := by
                by_cases h : lo < j
                · rw [if_pos h]
                  exact hq2
                · rw [if_neg h]
                  exact Nat.zero_le _
              clear * - hb1 hb2 hq3 hpos hmeastl
              omega
            obtain ⟨rA, rB, rC, rD⟩ := ih l2 st2 (by rw [pA]; exact hN)
              hnb1 hnb2 hra2 hpw2 icross2 hmeas2
            rw [heq]
            refine ⟨by rw [rA, pA], rB.trans pB, ?_, rD⟩
            intro p hp
            have hphead := hp (lo, hi) (List.mem_cons_self _ _)
            have hpout : p < lo ∨ hi < p := by
              by_contra hcon
              push_neg at hcon
              exact hphead ⟨hcon.1, hcon.2⟩
            have hfree2 : ∀ r ∈ st2, ¬(r.1 ≤ p ∧ p ≤ r.2) := by
              intro r hr
              rcases qpush_mem lo hi i j rest r hr with ⟨rfl, h2⟩ |
                ⟨rfl, h2⟩ | hr2
              · intro hc
                have hc1 : i ≤ p := hc.1
                have hc2 : p ≤ hi := hc.2
                clear * - hc1 hc2 hpout pE
                omega
              · intro hc
                have hc1 : lo ≤ p := hc.1
                have hc2 : p ≤ j := hc.2
                clear * - hc1 hc2 hpout pF
                omega
              · exact hp r (List.mem_cons_of_mem _ hr2)
            rw [rC p hfree2, pD p hpout]

/-- runner_do_sort_ascending (runner.c:256-326): quicksort of the first
`N` entries; the caller's sentinel at index `N` is never touched. -/
def runner_do_sort_ascending (sort : List SEntry) (N : Nat) : List SEntry :=
  qsortLoop (N + 1) sort [(0, (N : Int) - 1)] (3 ^ N)

theorem runner_do_sort_ascending_spec (sort : List SEntry) (N : Nat)
    (hN : N ≤ sort.length) :
    (runner_do_sort_ascending sort N).length = sort.length ∧
    List.Perm (runner_do_sort_ascending sort N) sort ∧
    (∀ p : Int, p < 0 ∨ (N : Int) - 1 < p →
      getE (runner_do_sort_ascending sort N) p = getE sort p) ∧
    (∀ p q : Int, 0 ≤ p → p ≤ q → q ≤ (N : Int) - 1 →
      (getE (runner_do_sort_ascending sort N) p).d ≤
        (getE (runner_do_sort_ascending sort N) q).d) := by
  have htn : (((0 : Int), (N : Int) - 1).2 - ((0 : Int), (N : Int) - 1).1 +
      1).toNat = N := by
    show ((N : Int) - 1 - 0 + 1).toNat = N
    omega
  obtain ⟨rA, rB, rC, rD⟩ := qsortLoop_spec (N + 1) (N : Int) (3 ^ N) sort
    [(0, (N : Int) - 1)]
    (by exact_mod_cast hN) (Nat.succ_pos N) (by clear * - ; push_cast; omega)
    (by
      intro r hr
      have hr2 := List.mem_singleton.mp hr
      subst hr2
      exact ⟨le_refl _, le_refl _⟩)
    (List.pairwise_singleton _ _)
    (by
      intro p q h1 h2 h3 hfree
      exact absurd ⟨h1, h3⟩ (hfree (0, (N : Int) - 1)
        (List.mem_singleton.mpr rfl)))
    (by
      show qMeasure [(0, (N : Int) - 1)] ≤ 3 ^ N
      rw [qMeasure_cons, htn]
      show 3 ^ N + qMeasure [] ≤ 3 ^ N
      rw [show qMeasure [] = 0 from rfl]
      omega)
  refine ⟨rA, rB, ?_, rD⟩
  intro p hp
  refine rC p ?_
  intro r hr
  have hr2 := List.mem_singleton.mp hr
  subst hr2
  intro hc
  have hc1 : (0 : Int) ≤ p := hc.1
  have hc2 : p ≤ (N : Int) - 1 := hc.2
  clear * - hc1 hc2 hp
  omega

theorem getD_set_self_lt {α : Type} (l : List α) (i : Nat) (h : i < l.length)
    (v d : α) : (l.set i v).getD i d = v := by
  rw [List.getD_eq_getElem _ d (by simpa using h)]
  exact List.getElem_set_self _

theorem count_set_add_gen {α : Type} [DecidableEq α] (l : List α) (n : Nat)
    (e x : α) (h : n < l.length) :
    (l.set n e).count x + (if l[n] = x then 1 else 0) =
      l.count x + (if e = x then 1 else 0) := by
  induction l generalizing n with
  | nil => simp at h
  | cons a t ih =>
      cases n with
      | zero =>
          simp only [List.set_cons_zero, List.count_cons,
            List.getElem_cons_zero, beq_iff_eq]
          by_cases hax : a = x <;> by_cases hex : e = x <;>
            simp [hax, hex] <;> omega
      | succ m =>
          simp only [List.set_cons_succ, List.count_cons,
            List.getElem_cons_succ, beq_iff_eq]
          have hm : m < t.length := by
            simpa using h
          have := ih m hm
          omega

theorem set_swap_perm {α : Type} [DecidableEq α] (l : List α) (a b : Nat)
    (ha : a < l.length) (hb : b < l.length) :
    List.Perm ((l.set a (l[b])).set b (l[a])) l := by
  apply List.perm_iff_count.mpr
  intro x
  have hlen1 : b < (l.set a (l[b])).length := by
    simpa using hb
  have h1 := count_set_add_gen l a (l[b]) x ha
  have h2 := count_set_add_gen (l.set a (l[b])) b (l[a]) x hlen1
  have hread : (l.set a (l[b]))[b] = l[b] := by
    rw [List.getElem_set]
    simp
  rw [hread] at h2
  omega

/-- One pass of the initial 8-way buffer sort (runner.c:399-405), fixed
`i`: `for (k = i+1; k < 8; k++) if (buff[inds[k]] < buff[inds[i]])
{ swap inds[i], inds[k] }`. -/
def exchPass (key : Nat → ℚ) (i : Nat) : List Nat → Nat → Nat → List Nat
  | inds, _, 0 => inds
  | inds, k, fuel+1 =>
      if k < inds.length then
        exchPass key i
          (if key (inds.getD k 0) < key (inds.getD i 0) then
            (inds.set i (inds.getD k 0)).set k (inds.getD i 0)
          else inds) (k + 1) fuel
      else inds

theorem exchPass_spec (key : Nat → ℚ) (i : Nat) :
    ∀ (fuel : Nat) (inds : List Nat) (k : Nat), i < k →
      inds.length ≤ k + fuel →
      (exchPass key i inds k fuel).length = inds.length ∧
      List.Perm (exchPass key i inds k fuel) inds ∧
      (∀ m, m ≠ i → m < k →
        (exchPass key i inds k fuel).getD m 0 = inds.getD m 0) ∧
      (∀ m, m = i ∨ (k ≤ m ∧ m < inds.length) →
        ∃ m2, (m2 = i ∨ (k ≤ m2 ∧ m2 < inds.length)) ∧
          (exchPass key i inds k fuel).getD m 0 = inds.getD m2 0) ∧
      key ((exchPass key i inds k fuel).getD i 0) ≤ key (inds.getD i 0) ∧
      (∀ m, k ≤ m → m < inds.length →
        key ((exchPass key i inds k fuel).getD i 0) ≤
          key ((exchPass key i inds k fuel).getD m 0)) := by
  intro fuel
  induction fuel with
  | zero =>
      intro inds k hik hlen
      refine ⟨rfl, List.Perm.refl _, fun m h1 h2 => rfl, ?_, le_refl _, ?_⟩
      · intro m hm
        exact ⟨m, hm, rfl⟩
      · intro m h1 h2
        exact absurd (lt_of_lt_of_le (lt_of_le_of_lt h1 h2) hlen)
          (lt_irrefl k)
  | succ f ih =>
      intro inds k hik hlen
      by_cases hk : k < inds.length
      · have heq : exchPass key i inds k (f + 1) =
            exchPass key i
              (if key (inds.getD k 0) < key (inds.getD i 0) then
                (inds.set i (inds.getD k 0)).set k (inds.getD i 0)
              else inds) (k + 1) f := by
          rw [exchPass]
          rw [if_pos hk]
        set inds2 := (if key (inds.getD k 0) < key (inds.getD i 0) then
          (inds.set i (inds.getD k 0)).set k (inds.getD i 0)
          else inds) with hi2
        have hilen : i < inds.length := lt_trans hik hk
        have hlen2 : inds2.length = inds.length := by
          rw [hi2]
          by_cases hc : key (inds.getD k 0) < key (inds.getD i 0)
          · rw [if_pos hc]
            simp
          · rw [if_neg hc]
        have hperm2 : List.Perm inds2 inds := by
          rw [hi2]
          by_cases hc : key (inds.getD k 0) < key (inds.getD i 0)
          · rw [if_pos hc]
            have hgk : inds.getD k 0 = inds[k] := List.getD_eq_getElem _ _ hk
            have hgi : inds.getD i 0 = inds[i] := List.getD_eq_getElem _ _ hilen
            rw [hgk, hgi]
            exact set_swap_perm inds i k hilen hk
          · rw [if_neg hc]
        have hg2other : ∀ m, m ≠ i → m ≠ k → inds2.getD m 0 = inds.getD m 0 := by
          intro m h1 h2
          rw [hi2]
          by_cases hc : key (inds.getD k 0) < key (inds.getD i 0)
          · rw [if_pos hc, getD_set_ne _ _ _ (Ne.symm h2),
              getD_set_ne _ _ _ (Ne.symm h1)]
          · rw [if_neg hc]
        have hg2i : inds2.getD i 0 =
            (if key (inds.getD k 0) < key (inds.getD i 0) then inds.getD k 0
             else inds.getD i 0) := by
          rw [hi2]
          by_cases hc : key (inds.getD k 0) < key (inds.getD i 0)
          · rw [if_pos hc, if_pos hc, getD_set_ne _ _ _ (ne_of_gt hik),
              getD_set_self_lt _ _ hilen]
          · rw [if_neg hc, if_neg hc]
        have hg2k : inds2.getD k 0 =
            (if key (inds.getD k 0) < key (inds.getD i 0) then inds.getD i 0
             else inds.getD k 0) := by
          rw [hi2]
          by_cases hc : key (inds.getD k 0) < key (inds.getD i 0)
          · rw [if_pos hc, if_pos hc,
              getD_set_self_lt _ _ (by rw [List.length_set]; exact hk)]
          · rw [if_neg hc, if_neg hc]
        obtain ⟨rA, rB, rC, rD, rE, rF⟩ := ih inds2 (k + 1)
          (Nat.lt_succ_of_lt hik) (by clear * - hlen hlen2; omega)
        rw [heq]
        have hg2ile : key (inds2.getD i 0) ≤ key (inds.getD i 0) := by
          rw [hg2i]
          by_cases hc : key (inds.getD k 0) < key (inds.getD i 0)
          · rw [if_pos hc]
            exact le_of_lt hc
          · rw [if_neg hc]
        have hg2ik : key (inds2.getD i 0) ≤ key (inds2.getD k 0) := by
          rw [hg2i, hg2k]
          by_cases hc : key (inds.getD k 0) < key (inds.getD i 0)
          · rw [if_pos hc, if_pos hc]
            exact le_of_lt hc
          · rw [if_neg hc, if_neg hc]
            exact not_lt.mp hc
        refine ⟨by rw [rA, hlen2], rB.trans hperm2, ?_, ?_, ?_, ?_⟩
        · intro m h1 h2
          rw [rC m h1 (Nat.lt_succ_of_lt h2), hg2other m h1 (ne_of_lt h2)]
        · intro m hm
          rcases hm with hmi | ⟨hm1, hm2⟩
          · obtain ⟨m2, hm2a, hm2b⟩ := rD m (Or.inl hmi)
            rcases hm2a with hm2i | ⟨hm2c, hm2d⟩
            · rw [hm2b, hm2i, hg2i]
              by_cases hc : key (inds.getD k 0) < key (inds.getD i 0)
              · rw [if_pos hc]
                exact ⟨k, Or.inr ⟨le_refl _, hk⟩, rfl⟩
              · rw [if_neg hc]
                exact ⟨i, Or.inl rfl, rfl⟩
            · rw [hm2b, hg2other m2
                (ne_of_gt (lt_of_lt_of_le (Nat.lt_succ_of_lt hik) hm2c))
                (ne_of_gt (Nat.lt_of_succ_le hm2c))]
              exact ⟨m2, Or.inr ⟨Nat.le_of_succ_le hm2c, hlen2 ▸ hm2d⟩, rfl⟩
          · by_cases hmk : m = k
            · rw [rC m (hmk ▸ ne_of_gt hik) (hmk ▸ lt_add_one k), hmk, hg2k]
              by_cases hc : key (inds.getD k 0) < key (inds.getD i 0)
              · rw [if_pos hc]
                exact ⟨i, Or.inl rfl, rfl⟩
              · rw [if_neg hc]
                exact ⟨k, Or.inr ⟨le_refl _, hk⟩, rfl⟩
            · obtain ⟨m2, hm2a, hm2b⟩ := rD m (Or.inr
                ⟨Nat.succ_le_of_lt (lt_of_le_of_ne hm1 (Ne.symm hmk)),
                 hlen2.symm ▸ hm2⟩)
              rcases hm2a with hm2i | ⟨hm2c, hm2d⟩
              · rw [hm2b, hm2i, hg2i]
                by_cases hc : key (inds.getD k 0) < key (inds.getD i 0)
                · rw [if_pos hc]
                  exact ⟨k, Or.inr ⟨le_refl _, hk⟩, rfl⟩
                · rw [if_neg hc]
                  exact ⟨i, Or.inl rfl, rfl⟩
              · rw [hm2b, hg2other m2
                  (ne_of_gt (lt_of_lt_of_le (Nat.lt_succ_of_lt hik) hm2c))
                  (ne_of_gt (Nat.lt_of_succ_le hm2c))]
                exact ⟨m2, Or.inr ⟨Nat.le_of_succ_le hm2c, hlen2 ▸ hm2d⟩, rfl⟩
        · exact le_trans rE hg2ile
        · intro m h1 h2
          by_cases hmk : m = k
          · subst hmk
            rw [rC m (ne_of_gt hik) (lt_add_one m)]
            exact le_trans rE hg2ik
          · exact rF m
              (Nat.succ_le_of_lt (lt_of_le_of_ne h1 (Ne.symm hmk)))
              (hlen2.symm ▸ h2)
      · rw [show exchPass key i inds k (f + 1) = inds from by
          rw [exchPass]; rw [if_neg hk]]
        refine ⟨rfl, List.Perm.refl _, fun m h1 h2 => rfl, ?_, le_refl _, ?_⟩
        · intro m hm
          exact ⟨m, hm, rfl⟩
        · intro m h1 h2
          exact absurd (lt_of_le_of_lt h1 h2) hk

/-- The initial sort of the 8 merge fingers by buffer value
(runner.c:398-405). -/
def exchSort (key : Nat → ℚ) : List Nat → Nat → Nat → List Nat
  | inds, _, 0 => inds
  | inds, i, fuel+1 =>
      if i + 1 < inds.length then
        exchSort key (exchPass key i inds (i + 1) inds.length) (i + 1) fuel
      else inds

theorem exchSort_spec (key : Nat → ℚ) :
    ∀ (fuel : Nat) (inds : List Nat) (i : Nat),
      inds.length ≤ i + 1 + fuel →
      (∀ a, a < i → ∀ b, a < b → b < inds.length →
        key (inds.getD a 0) ≤ key (inds.getD b 0)) →
      (exchSort key inds i fuel).length = inds.length ∧
      List.Perm (exchSort key inds i fuel) inds ∧
      (∀ a b, a < b → b < inds.length →
        key ((exchSort key inds i fuel).getD a 0) ≤
          key ((exchSort key inds i fuel).getD b 0)) := by
  intro fuel
  induction fuel with
  | zero =>
      intro inds i hlen hinv
      refine ⟨rfl, List.Perm.refl _, ?_⟩
      intro a b hab hb
      exact hinv a (by clear * - hab hb hlen; omega) b hab hb
  | succ f ih =>
      intro inds i hlen hinv
      by_cases hi : i + 1 < inds.length
      · have heq : exchSort key inds i (f + 1) =
            exchSort key (exchPass key i inds (i + 1) inds.length)
              (i + 1) f := by
          rw [exchSort]
          rw [if_pos hi]
        obtain ⟨pA, pB, pC, pD, pE, pF⟩ := exchPass_spec key i inds.length
          inds (i + 1) (lt_add_one i) (by clear * - hlen; omega)
        set pass := exchPass key i inds (i + 1) inds.length with hpass
        have hinv2 : ∀ a, a < i + 1 → ∀ b, a < b → b < pass.length →
            key (pass.getD a 0) ≤ key (pass.getD b 0) := by
          intro a ha b hab hb
          rw [pA] at hb
          by_cases hai : a < i
          · rw [pC a (ne_of_lt hai) (Nat.lt_succ_of_lt hai)]
            by_cases hbi : b < i
            · rw [pC b (ne_of_lt hbi) (Nat.lt_succ_of_lt hbi)]
              exact hinv a hai b hab hb
            · by_cases hbi2 : b = i
              · rw [hbi2]
                obtain ⟨m2, hm2a, hm2b⟩ := pD i (Or.inl rfl)
                rw [hm2b]
                refine hinv a hai m2 ?_ ?_
                · rcases hm2a with h | h
                  · exact h.symm ▸ hai
                  · exact lt_of_lt_of_le (Nat.lt_succ_of_lt hai) h.1
                · rcases hm2a with h | h
                  · exact h.symm ▸ (lt_trans (lt_add_one i) hi)
                  · exact h.2
              · obtain ⟨m2, hm2a, hm2b⟩ := pD b
                  (Or.inr ⟨by clear * - hbi hbi2; omega, hb⟩)
                rw [hm2b]
                refine hinv a hai m2 ?_ ?_
                · rcases hm2a with h | h
                  · exact h.symm ▸ hai
                  · exact lt_of_lt_of_le (Nat.lt_succ_of_lt hai) h.1
                · rcases hm2a with h | h
                  · exact h.symm ▸ (lt_trans (lt_add_one i) hi)
                  · exact h.2
          · have hai2 : a = i :=
              le_antisymm (Nat.lt_succ_iff.mp ha) (not_lt.mp hai)
            rw [hai2]
            exact pF b (Nat.succ_le_of_lt (hai2 ▸ hab)) hb
        obtain ⟨rA, rB, rC⟩ := ih pass (i + 1)
          (by rw [pA]; clear * - hlen; omega) hinv2
        rw [heq]
        refine ⟨by rw [rA, pA], rB.trans pB, ?_⟩
        intro a b hab hb
        exact rC a b hab (by rw [pA]; exact hb)
      · rw [show exchSort key inds i (f + 1) = inds from by
          rw [exchSort]; rw [if_neg hi]]
        refine ⟨rfl, List.Perm.refl _, ?_⟩
        intro a b hab hb
        exact hinv a (by clear * - hab hb hi; omega) b hab hb

/-- The single insertion pass after refilling the head finger
(runner.c:420-424): `for (k = 1; k < 8 && buff[inds[k]] <
buff[inds[k-1]]; k++) { swap inds[k-1], inds[k] }`. -/
def bubblePass (key : Nat → ℚ) : List Nat → Nat → Nat → List Nat
  | inds, _, 0 => inds
  | inds, k, fuel+1 =>
      if k < inds.length ∧ key (inds.getD k 0) < key (inds.getD (k - 1) 0)
      then
        bubblePass key
          ((inds.set (k - 1) (inds.getD k 0)).set k (inds.getD (k - 1) 0))
          (k + 1) fuel
      else inds

theorem bubblePass_spec (key : Nat → ℚ) :
    ∀ (fuel : Nat) (inds : List Nat) (k : Nat), 1 ≤ k → k ≤ inds.length →
      inds.length - k < fuel →
      (∀ a b, a < b → b < inds.length → a ≠ k - 1 → b ≠ k - 1 →
        key (inds.getD a 0) ≤ key (inds.getD b 0)) →
      (∀ a, a < k - 1 → key (inds.getD a 0) ≤ key (inds.getD (k - 1) 0)) →
      (bubblePass key inds k fuel).length = inds.length ∧
      List.Perm (bubblePass key inds k fuel) inds ∧
      (∀ a b, a < b → b < inds.length →
        key ((bubblePass key inds k fuel).getD a 0) ≤
          key ((bubblePass key inds k fuel).getD b 0)) := by
  intro fuel
  induction fuel with
  | zero =>
      intro inds k h1 h2 hf hH2 hH3
      exact absurd hf (Nat.not_lt_zero _)
  | succ f ih =>
      intro inds k h1 h2 hf hH2 hH3
      by_cases hcond : k < inds.length ∧
          key (inds.getD k 0) < key (inds.getD (k - 1) 0)
      · have heq : bubblePass key inds k (f + 1) =
            bubblePass key
              ((inds.set (k - 1) (inds.getD k 0)).set k (inds.getD (k - 1) 0))
              (k + 1) f := by
          rw [bubblePass]
          rw [if_pos hcond]
        set inds2 := (inds.set (k - 1) (inds.getD k 0)).set k
          (inds.getD (k - 1) 0) with hi2
        have hk : k < inds.length := hcond.1
        have hlen2 : inds2.length = inds.length := by
          rw [hi2]
          simp
        have hperm2 : List.Perm inds2 inds := by
          rw [hi2]
          have hgk : inds.getD k 0 = inds[k] := List.getD_eq_getElem _ _ hk
          have hgk1 : inds.getD (k - 1) 0 = inds[k - 1] :=
            List.getD_eq_getElem _ _ (lt_of_le_of_lt (Nat.sub_le k 1) hk)
          rw [hgk, hgk1]
          exact set_swap_perm inds (k - 1) k
            (lt_of_le_of_lt (Nat.sub_le k 1) hk) hk
        have hg2other : ∀ m, m ≠ k - 1 → m ≠ k →
            inds2.getD m 0 = inds.getD m 0 := by
          intro m hm1 hm2
          rw [hi2, getD_set_ne _ _ _ (Ne.symm hm2),
            getD_set_ne _ _ _ (Ne.symm hm1)]
        have hg2k1 : inds2.getD (k - 1) 0 = inds.getD k 0 := by
          rw [hi2, getD_set_ne _ _ _ (ne_of_gt (Nat.sub_lt h1 one_pos)),
            getD_set_self_lt _ _ (lt_of_le_of_lt (Nat.sub_le k 1) hk)]
        have hg2k : inds2.getD k 0 = inds.getD (k - 1) 0 := by
          rw [hi2, getD_set_self_lt _ _ (by rw [List.length_set]; exact hk)]
        have hH2b : ∀ a b, a < b → b < inds2.length → a ≠ (k + 1) - 1 →
            b ≠ (k + 1) - 1 → key (inds2.getD a 0) ≤ key (inds2.getD b 0) := by
          intro a b hab hb ha2 hb2
          rw [hlen2] at hb
          have ha3 : a ≠ k := ha2
          have hb3 : b ≠ k := hb2
          by_cases hak1 : a = k - 1
          · rw [hak1, hg2k1]
            by_cases hbk1 : b = k - 1
            · exact absurd hab (by rw [hak1, hbk1]; exact lt_irrefl _)
            · rw [hg2other b hbk1 hb3]
              exact hH2 k b (by clear * - hab hak1 hb3 h1; omega) hb
                (ne_of_gt (Nat.sub_lt h1 one_pos)) hbk1
          · by_cases hbk1 : b = k - 1
            · rw [hbk1, hg2k1, hg2other a hak1 ha3]
              exact hH2 a k (lt_of_lt_of_le (hbk1 ▸ hab) (Nat.sub_le k 1))
                hk hak1 (ne_of_gt (Nat.sub_lt h1 one_pos))
            · rw [hg2other a hak1 ha3, hg2other b hbk1 hb3]
              exact hH2 a b hab hb hak1 hbk1
        have hH3b : ∀ a, a < (k + 1) - 1 →
            key (inds2.getD a 0) ≤ key (inds2.getD ((k + 1) - 1) 0) := by
          intro a ha
          have hga : (k + 1) - 1 = k := rfl
          rw [hga, hg2k]
          by_cases hak1 : a = k - 1
          · rw [hak1, hg2k1]
            exact le_of_lt hcond.2
          · rw [hg2other a hak1 (ne_of_lt ha)]
            exact hH3 a (by clear * - ha hak1; omega)
        obtain ⟨rA, rB, rC⟩ := ih inds2 (k + 1) (Nat.le_add_left 1 k)
          (by rw [hlen2]; exact Nat.succ_le_of_lt hk)
          (by rw [hlen2]; clear * - hf hk; omega) hH2b hH3b
        rw [heq]
        refine ⟨by rw [rA, hlen2], rB.trans hperm2, ?_⟩
        intro a b hab hb
        exact rC a b hab (by rw [hlen2]; exact hb)
      · rw [show bubblePass key inds k (f + 1) = inds from by
          rw [bubblePass]; rw [if_neg hcond]]
        refine ⟨rfl, List.Perm.refl _, ?_⟩
        intro a b hab hb
        rcases not_and_or.mp hcond with hc | hc
        · -- k past the end: the moving element stands last
          have hkl : k = inds.length := le_antisymm h2 (not_lt.mp hc)
          by_cases hbk1 : b = k - 1
          · rw [hbk1]
            by_cases hak1 : a = k - 1
            · exact absurd hab (by rw [hak1, hbk1]; exact lt_irrefl _)
            · exact hH3 a (by clear * - hab hbk1 hak1; omega)
          · by_cases hak1 : a = k - 1
            · exact absurd hb (by rw [← hkl] at *; clear * - hab hak1 hbk1 h1; omega)
            · exact hH2 a b hab hb hak1 hbk1
        · have hge : key (inds.getD (k - 1) 0) ≤ key (inds.getD k 0) :=
            not_lt.mp hc
          by_cases hbk1 : b = k - 1
          · rw [hbk1]
            by_cases hak1 : a = k - 1
            · exact absurd hab (by rw [hak1, hbk1]; exact lt_irrefl _)
            · exact hH3 a (by clear * - hab hbk1 hak1; omega)
          · by_cases hak1 : a = k - 1
            · rw [hak1]
              by_cases hbk : b = k
              · rw [hbk]
                exact hge
              · refine le_trans hge ?_
                exact hH2 k b (by clear * - hab hak1 hbk hbk1 h1; omega) hb
                  (ne_of_gt (Nat.sub_lt h1 one_pos)) hbk1
            · exact hH2 a b hab hb hak1 hbk1

/-- One iteration of the 8-way merge (runner.c:409-426): copy the
minimum entry, advance its finger, refill its buffer slot and re-insert
the finger into the sorted index list. -/
def mergeStep (csl : List (List SEntry)) (off : Nat → Nat)
    (pos : Nat → Nat) (buff : Nat → ℚ) (inds : List Nat) :
    ((Nat → Nat) × (Nat → ℚ) × List Nat) × SEntry :=
  ((Function.update pos (inds.getD 0 0) (pos (inds.getD 0 0) + 1),
    Function.update buff (inds.getD 0 0)
      (((csl.getD (inds.getD 0 0) []).getD (pos (inds.getD 0 0) + 1)
        EZero).d),
    bubblePass
      (Function.update buff (inds.getD 0 0)
        (((csl.getD (inds.getD 0 0) []).getD (pos (inds.getD 0 0) + 1)
          EZero).d))
      inds 1 inds.length),
   ⟨buff (inds.getD 0 0),
    ((csl.getD (inds.getD 0 0) []).getD (pos (inds.getD 0 0)) EZero).i +
      off (inds.getD 0 0)⟩)

/-- The merge loop over the `count` output entries (runner.c:409-426). -/
def mergeGo (csl : List (List SEntry)) (off : Nat → Nat) :
    (Nat → Nat) → (Nat → ℚ) → List Nat → Nat → List SEntry
  | _, _, _, 0 => []
  | pos, buff, inds, cnt+1 =>
      (mergeStep csl off pos buff inds).2 ::
      mergeGo csl off (mergeStep csl off pos buff inds).1.1
        (mergeStep csl off pos buff inds).1.2.1
        (mergeStep csl off pos buff inds).1.2.2 cnt

theorem sentinel_read (A : List SEntry) (e : SEntry) :
    (A ++ [e]).getD A.length EZero = e := by
  rw [List.getD_eq_getElem _ EZero (by simp)]
  rw [List.getElem_append_right (le_refl A.length)]
  simp

theorem real_read (A : List SEntry) (e : SEntry) (p : Nat)
    (h : p < A.length) : (A ++ [e]).getD p EZero = A.getD p EZero := by
  rw [List.getD_eq_getElem _ EZero (by simp; omega),
    List.getD_eq_getElem _ EZero h]
  exact List.getElem_append_left h

theorem getD_mem {α : Type} (l : List α) (p : Nat) (d : α)
    (h : p < l.length) : l.getD p d ∈ l := by
  rw [List.getD_eq_getElem _ d h]
  exact List.getElem_mem h

theorem sum_congr_update (k0 : Nat) (f g : Nat → Nat)
    (h : ∀ k, k ≠ k0 → f k = g k) :
    ∀ n, k0 < n →
      ((List.range n).map f).sum + g k0 =
        ((List.range n).map g).sum + f k0 := by
  intro n
  induction n with
  | zero => exact fun h0 => absurd h0 (Nat.not_lt_zero k0)
  | succ m ih =>
      intro hk0
      rw [List.range_succ, List.map_append, List.map_append,
        List.sum_append, List.sum_append]
      have hsingle : ∀ q : Nat → Nat, (List.map q [m]).sum = q m := by
        intro q
        simp
      rw [hsingle f, hsingle g]
      by_cases hm : k0 = m
      · have hfg : (List.map f (List.range m)).sum =
            (List.map g (List.range m)).sum := by
          apply congrArg
          apply List.map_congr_left
          intro k hk
          apply h
          intro hc
          rw [hm] at hc
          rw [hc] at hk
          exact absurd (List.mem_range.mp hk) (lt_irrefl m)
        rw [hfg, hm]
        clear * -
        omega
      · have hmm := ih (by clear * - hk0 hm; omega)
        rw [h m (Ne.symm hm)]
        clear * - hmm
        omega

theorem flatten_update_cons (k0 : Nat) (f g : Nat → List ℚ) (e : ℚ)
    (hne : ∀ k, k ≠ k0 → f k = g k) (hk0 : f k0 = e :: g k0) :
    ∀ n, k0 < n →
      List.Perm (((List.range n).map f).flatten)
        (e :: ((List.range n).map g).flatten) := by
  intro n
  induction n with
  | zero => omega
  | succ m ih =>
      intro hk0n
      rw [List.range_succ, List.map_append, List.map_append,
        List.flatten_append, List.flatten_append]
      have hsingle : ∀ q : Nat → List ℚ, (List.map q [m]).flatten = q m := by
        intro q
        simp
      rw [hsingle f, hsingle g]
      by_cases hm : k0 = m
      · have hfg : List.map f (List.range m) = List.map g (List.range m) := by
          apply List.map_congr_left
          intro k hk
          apply hne
          intro hc
          rw [hm] at hc
          rw [hc] at hk
          exact absurd (List.mem_range.mp hk) (lt_irrefl m)
        have hfm : f m = e :: g m := by
          rw [← hm]
          exact hk0
        rw [hfg, hfm]
        exact List.perm_middle
      · have hrec := ih (by omega)
        rw [hne m (Ne.symm hm)]
        exact List.Perm.append_right _ hrec

theorem mergeGo_spec (M : ℚ) (csl : List (List SEntry))
    (Cs : List (List SEntry)) (off : Nat → Nat)
    (hcs : ∀ k, k < csl.length →
      csl.getD k [] = Cs.getD k [] ++ [(⟨M, 0⟩ : SEntry)])
    (hsorted : ∀ k, k < csl.length → ∀ a b : Nat, a ≤ b →
      b < (Cs.getD k []).length →
      ((Cs.getD k []).getD a EZero).d ≤ ((Cs.getD k []).getD b EZero).d)
    (hlt : ∀ k, k < csl.length → ∀ e ∈ Cs.getD k [], e.d < M) :
    ∀ (cnt : Nat) (pos : Nat → Nat) (buff : Nat → ℚ) (inds : List Nat),
      List.Perm inds (List.range csl.length) →
      (∀ k, k < csl.length → pos k ≤ (Cs.getD k []).length) →
      (∀ k, k < csl.length →
        buff k = ((csl.getD k []).getD (pos k) EZero).d) →
      (∀ a b, a < b → b < inds.length →
        buff (inds.getD a 0) ≤ buff (inds.getD b 0)) →
      cnt = ((List.range csl.length).map
        (fun k => (Cs.getD k []).length - pos k)).sum →
      (mergeGo csl off pos buff inds cnt).length = cnt ∧
      List.Pairwise (fun e1 e2 : SEntry => e1.d ≤ e2.d)
        (mergeGo csl off pos buff inds cnt) ∧
      (∀ x : ℚ, (∀ k, k < csl.length → x ≤ buff k) →
        ∀ e ∈ mergeGo csl off pos buff inds cnt, x ≤ e.d) ∧
      List.Perm ((mergeGo csl off pos buff inds cnt).map SEntry.d)
        (((List.range csl.length).map
          (fun k => ((Cs.getD k []).drop (pos k)).map SEntry.d)).flatten) := by
  intro cnt
  induction cnt with
  | zero =>
      intro pos buff inds hI1 hI2 hI3 hI4 hsum
      refine ⟨rfl, List.Pairwise.nil,
        fun x hx e he => absurd he (List.not_mem_nil e), ?_⟩
      have hzero : ∀ k, k < csl.length →
          (Cs.getD k []).length - pos k = 0 := by
        intro k hk
        have hz := (List.sum_eq_zero_iff.mp hsum.symm)
          ((Cs.getD k []).length - pos k)
          (List.mem_map_of_mem _ (List.mem_range.mpr hk))
        exact hz
      have hflatnil : ((List.range csl.length).map
          (fun k => ((Cs.getD k []).drop (pos k)).map SEntry.d)).flatten
          = [] := by
        apply List.eq_nil_iff_forall_not_mem.mpr
        intro x hx
        obtain ⟨lx, hlx, hxin⟩ := List.mem_flatten.mp hx
        obtain ⟨k, hk, hrf⟩ := List.mem_map.mp hlx
        rw [← hrf] at hxin
        rw [List.drop_eq_nil_of_le
          (by have := hzero k (List.mem_range.mp hk); omega)] at hxin
        exact absurd hxin (List.not_mem_nil x)
      rw [hflatnil]
      exact List.Perm.nil
  | succ c ih =>
      intro pos buff inds hI1 hI2 hI3 hI4 hsum
      have hlen : inds.length = csl.length :=
        hI1.length_eq.trans (List.length_range _)
      have hnpos : 0 < csl.length := by
        by_contra hcon
        push_neg at hcon
        have hzero : csl.length = 0 := Nat.le_zero.mp hcon
        rw [hzero] at hsum
        simp at hsum
      set k0 := inds.getD 0 0 with hk0d
      have hk0mem : k0 ∈ inds := by
        rw [hk0d]
        exact getD_mem inds 0 0 (by rw [hlen]; exact hnpos)
      have hk0n : k0 < csl.length :=
        List.mem_range.mp (hI1.mem_iff.mp hk0mem)
      have hnodup : inds.Nodup := (hI1.nodup_iff).mpr (List.nodup_range _)
      have hrem : ∃ k1, k1 < csl.length ∧
          pos k1 < (Cs.getD k1 []).length := by
        by_contra hcon
        push_neg at hcon
        have hz : ((List.range csl.length).map
            (fun k => (Cs.getD k []).length - pos k)).sum = 0 := by
          apply List.sum_eq_zero
          intro x hx
          obtain ⟨k, hk, hrf⟩ := List.mem_map.mp hx
          rw [← hrf]
          exact Nat.sub_eq_zero_of_le (hcon k (List.mem_range.mp hk))
        exact Nat.succ_ne_zero c (hsum.trans hz)
      obtain ⟨k1, hk1n, hk1rem⟩ := hrem
      have hbuffM : ∀ k, k < csl.length →
          pos k = (Cs.getD k []).length → buff k = M := by
        intro k hk hp
        rw [hI3 k hk, hcs k hk, hp, sentinel_read]
      have hbuffreal : ∀ k, k < csl.length →
          pos k < (Cs.getD k []).length →
          buff k = ((Cs.getD k []).getD (pos k) EZero).d ∧ buff k < M := by
        intro k hk hp
        have h1 : buff k = ((Cs.getD k []).getD (pos k) EZero).d := by
          rw [hI3 k hk, hcs k hk, real_read _ _ _ hp]
        refine ⟨h1, ?_⟩
        rw [h1]
        exact hlt k hk _ (getD_mem _ _ _ hp)
      have hmin : ∀ k, k < csl.length → buff k0 ≤ buff k := by
        intro k hk
        have hkmem : k ∈ inds := hI1.mem_iff.mpr (List.mem_range.mpr hk)
        obtain ⟨a, ha, hae⟩ := List.getElem_of_mem hkmem
        by_cases ha0 : a = 0
        · have hkk : k0 = k := by
            rw [hk0d, List.getD_eq_getElem _ _ (show 0 < inds.length by
              rw [hlen]; exact hnpos), ← hae]
            congr 1
            exact ha0.symm
          rw [hkk]
        · have h4 := hI4 0 a (Nat.pos_of_ne_zero ha0) ha
          have hga : inds.getD a 0 = k := by
            rw [List.getD_eq_getElem _ _ ha]
            exact hae
          rw [← hk0d, hga] at h4
          exact h4
      have hk0rem : pos k0 < (Cs.getD k0 []).length := by
        by_contra hcon
        push_neg at hcon
        have hp0 : pos k0 = (Cs.getD k0 []).length :=
          le_antisymm (hI2 k0 hk0n) hcon
        have hM0 : buff k0 = M := hbuffM k0 hk0n hp0
        have h1 := (hbuffreal k1 hk1n hk1rem).2
        have h2 := hmin k1 hk1n
        rw [hM0] at h2
        exact absurd (lt_of_le_of_lt h2 h1) (lt_irrefl M)
      have hed : buff k0 = ((Cs.getD k0 []).getD (pos k0) EZero).d :=
        (hbuffreal k0 hk0n hk0rem).1
      set buff2 := Function.update buff k0
        (((csl.getD k0 []).getD (pos k0 + 1) EZero).d) with hb2d
      set pos2 := Function.update pos k0 (pos k0 + 1) with hp2d
      set inds2 := bubblePass buff2 inds 1 inds.length with hi2d
      have hstep1 : (mergeStep csl off pos buff inds).1.1 = pos2 := rfl
      have hstep2 : (mergeStep csl off pos buff inds).1.2.1 = buff2 := rfl
      have hstep3 : (mergeStep csl off pos buff inds).1.2.2 = inds2 := rfl
      have hstep4 : (mergeStep csl off pos buff inds).2 =
          ⟨buff k0, ((csl.getD k0 []).getD (pos k0) EZero).i + off k0⟩ := rfl
      have hp2k0 : pos2 k0 = pos k0 + 1 := by
        rw [hp2d]
        exact Function.update_same _ _ _
      have hb2ge : ∀ k, k < csl.length → buff k0 ≤ buff2 k := by
        intro k hk
        by_cases hkk0 : k = k0
        · rw [hkk0, hb2d, Function.update_same]
          by_cases hp1 : pos k0 + 1 < (Cs.getD k0 []).length
          · rw [hcs k0 hk0n, real_read _ _ _ hp1, hed]
            exact hsorted k0 hk0n (pos k0) (pos k0 + 1) (Nat.le_succ _) hp1
          · have hp2 : pos k0 + 1 = (Cs.getD k0 []).length :=
              le_antisymm (Nat.succ_le_of_lt hk0rem) (not_lt.mp hp1)
            rw [hcs k0 hk0n, hp2, sentinel_read]
            exact le_of_lt (hbuffreal k0 hk0n hk0rem).2
        · rw [hb2d, Function.update_noteq hkk0]
          exact hmin k hk
      have hI2b : ∀ k, k < csl.length → pos2 k ≤ (Cs.getD k []).length := by
        intro k hk
        by_cases hkk0 : k = k0
        · rw [hkk0, hp2k0]
          exact Nat.succ_le_of_lt hk0rem
        · rw [hp2d, Function.update_noteq hkk0]
          exact hI2 k hk
      have hI3b : ∀ k, k < csl.length →
          buff2 k = ((csl.getD k []).getD (pos2 k) EZero).d := by
        intro k hk
        by_cases hkk0 : k = k0
        · rw [hkk0, hp2k0, hb2d, Function.update_same]
        · rw [hb2d, hp2d, Function.update_noteq hkk0,
            Function.update_noteq hkk0]
          exact hI3 k hk
      have hne0 : ∀ a, a ≠ 0 → a < inds.length → inds.getD a 0 ≠ k0 := by
        intro a ha0 ha
        rw [List.getD_eq_getElem _ _ ha, hk0d,
          List.getD_eq_getElem _ _ (by rw [hlen]; exact hnpos)]
        intro hc
        exact ha0 ((List.Nodup.getElem_inj_iff hnodup).mp hc)
      obtain ⟨bA, bB, bC⟩ := bubblePass_spec buff2 inds.length inds 1
        (le_refl 1) (by rw [hlen]; exact hnpos)
        (Nat.sub_lt (by rw [hlen]; exact hnpos) one_pos)
        (by
          intro a b hab hb ha0 hb0
          rw [hb2d, Function.update_noteq (hne0 a ha0 (lt_trans hab hb)),
            Function.update_noteq (hne0 b hb0 hb)]
          exact hI4 a b hab hb)
        (fun a ha => absurd ha (Nat.not_lt_zero a))
      have hI1b : List.Perm inds2 (List.range csl.length) := bB.trans hI1
      have hI4b : ∀ a b, a < b → b < inds2.length →
          buff2 (inds2.getD a 0) ≤ buff2 (inds2.getD b 0) := by
        intro a b hab hb
        exact bC a b hab (by rw [← bA]; exact hb)
      have hsum2 : c = ((List.range csl.length).map
          (fun k => (Cs.getD k []).length - pos2 k)).sum := by
        have hupd := sum_congr_update k0
          (fun k => (Cs.getD k []).length - pos k)
          (fun k => (Cs.getD k []).length - pos2 k)
          (by
            intro k hk
            show (Cs.getD k []).length - pos k =
              (Cs.getD k []).length - pos2 k
            rw [hp2d, Function.update_noteq hk])
          csl.length hk0n
        beta_reduce at hupd
        have h1 : (Cs.getD k0 []).length - pos2 k0 =
            (Cs.getD k0 []).length - (pos k0 + 1) := by
          rw [hp2k0]
        rw [h1] at hupd
        clear * - hupd hsum hk0rem
        omega
      obtain ⟨rA, rB, rC, rD⟩ := ih pos2 buff2 inds2 hI1b hI2b hI3b hI4b
        hsum2
      have heq : mergeGo csl off pos buff inds (c + 1) =
          (mergeStep csl off pos buff inds).2 ::
          mergeGo csl off pos2 buff2 inds2 c := by
        rw [mergeGo]
        rw [hstep1, hstep2, hstep3]
      rw [heq, hstep4]
      refine ⟨by simp [rA], ?_, ?_, ?_⟩
      · rw [List.pairwise_cons]
        refine ⟨?_, rB⟩
        intro e he
        exact rC (buff k0) hb2ge e he
      · intro x hx e he
        rcases List.mem_cons.mp he with hrf | he2
        · rw [hrf]
          exact hx k0 hk0n
        · refine rC x ?_ e he2
          intro k hk
          by_cases hkk0 : k = k0
          · rw [hkk0]
            exact le_trans (hx k0 hk0n) (hb2ge k0 hk0n)
          · rw [hb2d, Function.update_noteq hkk0]
            exact hx k hk
      · have hflat := flatten_update_cons k0
          (fun k => ((Cs.getD k []).drop (pos k)).map SEntry.d)
          (fun k => ((Cs.getD k []).drop (pos2 k)).map SEntry.d)
          (((Cs.getD k0 []).getD (pos k0) EZero).d)
          (by
            intro k hk
            show ((Cs.getD k []).drop (pos k)).map SEntry.d =
              ((Cs.getD k []).drop (pos2 k)).map SEntry.d
            rw [hp2d, Function.update_noteq hk])
          (by
            show ((Cs.getD k0 []).drop (pos k0)).map SEntry.d =
              ((Cs.getD k0 []).getD (pos k0) EZero).d ::
              ((Cs.getD k0 []).drop (pos2 k0)).map SEntry.d
            have hdrop : (Cs.getD k0 []).drop (pos k0) =
                (Cs.getD k0 []).getD (pos k0) EZero ::
                (Cs.getD k0 []).drop (pos k0 + 1) := by
              rw [List.getD_eq_getElem _ _ hk0rem]
              exact List.drop_eq_getElem_cons hk0rem
            rw [hdrop, hp2k0, List.map_cons])
          csl.length hk0n
        rw [List.map_cons]
        have hhd : (⟨buff k0,
            ((csl.getD k0 []).getD (pos k0) EZero).i + off k0⟩ : SEntry).d =
            ((Cs.getD k0 []).getD (pos k0) EZero).d := hed
        rw [hhd]
        exact (List.Perm.cons _ rD).trans hflat.symm

/-- Building one merged sort-array slice for a split cell
(runner.c:380-430): offsets and finger positions start at zero, empty or
absent children carry `FLT_MAX` buffers (runner.c:388-396), the fingers
are sorted, `count` entries are merged out and the sentinel appended
(runner.c:428-430). -/
def mergeSlice (M : ℚ) (csl : List (List SEntry)) (cnts : List Nat)
    (total : Nat) (off : Nat → Nat) : List SEntry :=
  mergeGo csl off (fun _ => 0)
    (fun k => if 0 < cnts.getD k 0 then ((csl.getD k []).getD 0 EZero).d
      else M)
    (exchSort
      (fun k => if 0 < cnts.getD k 0 then ((csl.getD k []).getD 0 EZero).d
        else M)
      (List.range csl.length) 0 (csl.length - 1))
    total ++ [⟨M, 0⟩]

/-- The per-direction sort invariant of the spec: the array holds the
`count` projected distances in non-decreasing order, then the sentinel
entry `{FLT_MAX, 0}`. -/
def dirOK (M : ℚ) (projs : List ℚ) (sl : List SEntry) : Prop :=
  sl.length = projs.length + 1 ∧
  List.Pairwise (fun a b : ℚ => a ≤ b)
    ((sl.take projs.length).map SEntry.d) ∧
  List.Perm ((sl.take projs.length).map SEntry.d) projs ∧
  sl.getD projs.length EZero = ⟨M, 0⟩

instance (M : ℚ) (projs : List ℚ) (sl : List SEntry) :
    Decidable (dirOK M projs sl) := by
  unfold dirOK
  infer_instance

theorem mergeSlice_spec (M : ℚ) (csl : List (List SEntry))
    (Cs : List (List SEntry)) (cnts : List Nat) (total : Nat)
    (off : Nat → Nat)
    (hcs : ∀ k, k < csl.length →
      csl.getD k [] = Cs.getD k [] ++ [(⟨M, 0⟩ : SEntry)])
    (hsorted : ∀ k, k < csl.length → ∀ a b : Nat, a ≤ b →
      b < (Cs.getD k []).length →
      ((Cs.getD k []).getD a EZero).d ≤ ((Cs.getD k []).getD b EZero).d)
    (hlt : ∀ k, k < csl.length → ∀ e ∈ Cs.getD k [], e.d < M)
    (hcnts : ∀ k, k < csl.length → cnts.getD k 0 = (Cs.getD k []).length)
    (htotal : total = ((List.range csl.length).map
      (fun k => (Cs.getD k []).length)).sum) :
    dirOK M
      (((List.range csl.length).map
        (fun k => (Cs.getD k []).map SEntry.d)).flatten)
      (mergeSlice M csl cnts total off) := by
  set key := (fun k => if 0 < cnts.getD k 0 then
    ((csl.getD k []).getD 0 EZero).d else M) with hkey
  obtain ⟨xA, xB, xC⟩ := exchSort_spec key (csl.length - 1)
    (List.range csl.length) 0 (by simp; omega)
    (by
      intro a ha
      exact absurd ha (Nat.not_lt_zero a))
  set inds0 := exchSort key (List.range csl.length) 0 (csl.length - 1)
    with hi0
  have hI3a : ∀ k, k < csl.length →
      key k = ((csl.getD k []).getD ((fun _ => 0) k) EZero).d := by
    intro k hk
    show (if 0 < cnts.getD k 0 then ((csl.getD k []).getD 0 EZero).d
      else M) = ((csl.getD k []).getD 0 EZero).d
    by_cases hc : 0 < cnts.getD k 0
    · rw [if_pos hc]
    · rw [if_neg hc]
      have hlen0 : (Cs.getD k []).length = 0 := by
        have := hcnts k hk
        omega
      rw [hcs k hk]
      have := sentinel_read (Cs.getD k []) ⟨M, 0⟩
      rw [hlen0] at this
      rw [this]
  obtain ⟨oA, oB, oC, oD⟩ := mergeGo_spec M csl Cs off hcs hsorted hlt
    total (fun _ => 0) key inds0
    (xB.trans (List.Perm.refl _))
    (fun k hk => Nat.zero_le _)
    hI3a
    (by
      intro a b hab hb
      exact xC a b hab (by rw [← xA]; exact hb))
    (by
      rw [htotal]
      apply congrArg
      apply List.map_congr_left
      intro k hk
      show (Cs.getD k []).length = (Cs.getD k []).length - 0
      omega)
  set out := mergeGo csl off (fun _ => 0) key inds0 total with hout
  have hdrop0 : (((List.range csl.length).map
      (fun k => ((Cs.getD k []).drop ((fun _ => 0) k)).map SEntry.d))) =
      ((List.range csl.length).map
      (fun k => (Cs.getD k []).map SEntry.d)) := by
    apply List.map_congr_left
    intro k hk
    rw [List.drop_zero]
  rw [hdrop0] at oD
  have hflatlen : (((List.range csl.length).map
      (fun k => (Cs.getD k []).map SEntry.d)).flatten).length = total := by
    rw [List.length_flatten]
    rw [htotal, List.map_map]
    apply congrArg
    apply List.map_congr_left
    intro k hk
    simp
  have htake : (mergeSlice M csl cnts total off).take total = out := by
    unfold mergeSlice
    rw [← hi0, ← hkey, ← hout]
    rw [show total = out.length from oA.symm]
    exact List.take_left _ _
  constructor
  · unfold mergeSlice
    rw [← hi0, ← hkey, ← hout]
    rw [List.length_append, oA, hflatlen]
    rfl
  refine ⟨?_, ?_, ?_⟩
  · rw [hflatlen, htake]
    exact (List.pairwise_map).mpr oB
  · rw [hflatlen, htake]
    exact oD
  · rw [hflatlen]
    unfold mergeSlice
    rw [← hi0, ← hkey, ← hout]
    rw [show total = out.length from oA.symm]
    exact sentinel_read out ⟨M, 0⟩

theorem getE_natCast (l : List SEntry) (n : Nat) :
    getE l (n : Int) = l.getD n EZero := by
  unfold getE
  rw [if_pos (by positivity), Int.toNat_natCast]

theorem takeD_decomp (l : List SEntry) (n : Nat) (h : l.length = n + 1) :
    l = l.take n ++ [l.getD n EZero] := by
  have h1 : l = l.take n ++ l.drop n := (List.take_append_drop n l).symm
  have h2 : l.drop n = [l.getD n EZero] := by
    have hlt : n < l.length := by omega
    rw [List.getD_eq_getElem l EZero hlt]
    rw [List.drop_eq_getElem_cons hlt]
    rw [List.drop_eq_nil_of_le (by omega)]
  rw [← h2]
  exact h1

theorem map_range_getD {α β : Type} (l : List α) (f : α → β) (d : α) :
    (List.range l.length).map (fun k => f (l.getD k d)) = l.map f := by
  apply List.ext_getElem
  · simp
  · intro i h1 h2
    simp only [List.getElem_map, List.getElem_range]
    rw [List.getD_eq_getElem l d (by simpa using h2)]

theorem getD_map_lt {α β : Type} (l : List α) (f : α → β) (k : Nat)
    (h : k < l.length) (d0 : α) (d : β) :
    (l.map f).getD k d = f (l.getD k d0) := by
  rw [List.getD_eq_getElem _ d (by simpa using h),
    List.getD_eq_getElem _ d0 h]
  simp

theorem attach_map_fn {α β : Type} (l : List α) (g : α → β) :
    l.attach.map (fun c => g c.1) = l.map g := by
  rw [show (fun c : {x // x ∈ l} => g c.1) =
    (g ∘ fun c : {x // x ∈ l} => c.1) from rfl]
  rw [← List.map_map, List.attach_map_subtype_val]

/-- A cell of the sort tree: the particle positions (leaves), the
`sorted` mask, the 13 sort arrays, and the progeny.  A split cell's
particles are its children's, concatenated (they share the parts array
in C); a `NULL` progeny slot is modelled as an absent child — for this
routine a NULL child and an empty non-NULL one are observationally
identical (no particles, no offset contribution, a FLT_MAX buffer). -/
inductive MCell where
  | mk (parts : List (ℚ × ℚ × ℚ)) (sorted : Nat)
      (sarr : Nat → List SEntry) (children : List MCell)

def MCell.sortedOf : MCell → Nat
  | .mk _ s _ _ => s

def MCell.sarrOf : MCell → Nat → List SEntry
  | .mk _ _ a _ => a

def MCell.childrenOf : MCell → List MCell
  | .mk _ _ _ ch => ch

/-- The particles covered by a cell (`c->parts`, `c->count` entries). -/
def cellParts : MCell → List (ℚ × ℚ × ℚ)
  | .mk parts _ _ ch =>
      if ch.isEmpty then parts
      else (ch.attach.map (fun c => cellParts c.1)).flatten
decreasing_by
  simp only [MCell.mk.sizeOf_spec]
  have := List.sizeOf_lt_of_mem c.2
  omega

/-- `c->count`. -/
def cellCount (c : MCell) : Nat := (cellParts c).length

/-- The projected distance `px[0]*runner_shift[j][0] + px[1]*...` of the
fill loop (runner.c:450-452); the `runner_shift` table is the parameter
`shift`. -/
def proj (shift : Nat → ℚ × ℚ × ℚ) (p : ℚ × ℚ × ℚ) (j : Nat) : ℚ :=
  p.1 * (shift j).1 + p.2.1 * (shift j).2.1 + p.2.2 * (shift j).2.2

/-- The leaf fill loop (runner.c:443-454) for one direction `j`:
`sort[j*(count+1)+k] = { .i = k, .d = px · runner_shift[j] }`. -/
def leafFill (shift : Nat → ℚ × ℚ × ℚ) (parts : List (ℚ × ℚ × ℚ))
    (j : Nat) : List SEntry :=
  (List.range parts.length).map
    (fun k => ⟨proj shift (parts.getD k (0, 0, 0)) j, k⟩)

/-- runner_do_sort (src/runner.c:337-480).  `flags &= ~c->sorted; if
(flags == 0) return;`; split cells first sort the progeny's missing
directions recursively, then 8-way merge each flagged direction
(runner.c:365-437); leaves fill and quicksort each flagged direction
(runner.c:440-464); each done direction's bit enters `c->sorted`
(j loops over 0..12). -/
def runner_do_sort (M : ℚ) (shift : Nat → ℚ × ℚ × ℚ) :
    MCell → Nat → MCell
  | .mk parts sorted sarr children, flags =>
      if Nat.ldiff flags sorted = 0 then .mk parts sorted sarr children
      else if children.isEmpty then
        .mk parts (sorted ||| (Nat.ldiff flags sorted &&& 8191))
          (fun j => if j < 13 ∧ (Nat.ldiff flags sorted).testBit j then
              runner_do_sort_ascending
                (leafFill shift parts j ++ [⟨M, 0⟩]) parts.length
            else sarr j)
          children
      else
        let children2 := children.attach.map (fun c =>
          if Nat.ldiff (Nat.ldiff flags sorted) c.1.sortedOf ≠ 0 then
            runner_do_sort M shift c.1
              (Nat.ldiff (Nat.ldiff flags sorted) c.1.sortedOf)
          else c.1)
        .mk parts (sorted ||| (Nat.ldiff flags sorted &&& 8191))
          (fun j => if j < 13 ∧ (Nat.ldiff flags sorted).testBit j then
              mergeSlice M (children2.map (fun ck => ck.sarrOf j))
                (children2.map cellCount)
                (children2.map cellCount).sum
                (fun k => ((children2.map cellCount).take k).sum)
            else sarr j)
          children2
decreasing_by
  simp only [MCell.mk.sizeOf_spec]
  have := List.sizeOf_lt_of_mem c.2
  omega

/-- The sorted-arrays invariant over the whole tree: every direction bit
set in a cell's `sorted` mask has a valid sort array. -/
def SortInv (M : ℚ) (shift : Nat → ℚ × ℚ × ℚ) : MCell → Prop
  | .mk parts sorted sarr children =>
      (∀ j, j < 13 → sorted.testBit j = true →
        dirOK M
          ((cellParts (.mk parts sorted sarr children)).map
            (fun p => proj shift p j))
          (sarr j)) ∧
      ∀ c ∈ children.attach, SortInv M shift c.1
decreasing_by
  simp only [MCell.mk.sizeOf_spec]
  have := List.sizeOf_lt_of_mem c.2
  omega

theorem dirOK_perm (M : ℚ) (A B : List ℚ) (sl : List SEntry)
    (h : dirOK M A sl) (hAB : List.Perm A B) : dirOK M B sl := by
  obtain ⟨h1, h2, h3, h4⟩ := h
  have hlen : A.length = B.length := hAB.length_eq
  exact ⟨by rw [← hlen]; exact h1, by rw [← hlen]; exact h2,
    by rw [← hlen]; exact h3.trans hAB, by rw [← hlen]; exact h4⟩

/-- A freshly filled and quicksorted leaf slice satisfies the
per-direction invariant. -/
theorem leaf_dirOK (M : ℚ) (shift : Nat → ℚ × ℚ × ℚ)
    (parts : List (ℚ × ℚ × ℚ)) (j : Nat) :
    dirOK M (parts.map (fun p => proj shift p j))
      (runner_do_sort_ascending (leafFill shift parts j ++ [⟨M, 0⟩])
        parts.length) := by
  set N := parts.length with hN
  set Fl := leafFill shift parts j with hFl
  have hFlen : Fl.length = N := by
    rw [hFl]
    unfold leafFill
    simp [hN]
  set L := Fl ++ [(⟨M, 0⟩ : SEntry)] with hL
  have hLlen : L.length = N + 1 := by
    rw [hL]
    simp [hFlen]
  obtain ⟨rA, rB, rC, rD⟩ := runner_do_sort_ascending_spec L N (by omega)
  set q := runner_do_sort_ascending L N with hq
  have hqlen : q.length = N + 1 := by
    rw [rA, hLlen]
  have hsent : q.getD N EZero = ⟨M, 0⟩ := by
    have h1 : getE q (N : Int) = getE L (N : Int) := by
      refine rC (N : Int) (Or.inr ?_)
      omega
    rw [getE_natCast, getE_natCast] at h1
    rw [h1, hL]
    have h2 := sentinel_read Fl ⟨M, 0⟩
    rw [hFlen] at h2
    exact h2
  have hprojlen : (parts.map (fun p => proj shift p j)).length = N := by
    simp [hN]
  have hFld : Fl.map SEntry.d = parts.map (fun p => proj shift p j) := by
    rw [hFl]
    unfold leafFill
    rw [List.map_map]
    exact map_range_getD parts (fun p => proj shift p j) (0, 0, 0)
  have hdecomp : q = q.take N ++ [(⟨M, 0⟩ : SEntry)] := by
    have h3 := takeD_decomp q N hqlen
    rw [hsent] at h3
    exact h3
  have htakeperm : List.Perm (q.take N) Fl := by
    have h1 : List.Perm q L := rB
    rw [hdecomp, hL] at h1
    have h2 := ((List.perm_append_singleton (⟨M, 0⟩ : SEntry)
      (q.take N)).symm.trans h1).trans
      (List.perm_append_singleton (⟨M, 0⟩ : SEntry) Fl)
    exact h2.cons_inv
  have htl : (q.take N).length = N := by
    rw [List.length_take]
    omega
  constructor
  · rw [hqlen, hprojlen]
  refine ⟨?_, ?_, ?_⟩
  · rw [hprojlen, List.pairwise_map, List.pairwise_iff_getElem]
    intro a b ha hb hab
    simp only [List.getElem_take]
    rw [htl] at ha hb
    have hab2 : (a : Int) ≤ (b : Int) := by exact_mod_cast Nat.le_of_lt hab
    have hbN : (b : Int) ≤ (N : Int) - 1 := by omega
    have h5 := rD (a : Int) (b : Int) (by positivity) hab2 hbN
    rw [getE_natCast, getE_natCast] at h5
    rw [List.getD_eq_getElem _ _ (by omega : a < q.length),
      List.getD_eq_getElem _ _ (by omega : b < q.length)] at h5
    exact h5
  · rw [hprojlen, ← hFld]
    exact htakeperm.map SEntry.d
  · rw [hprojlen]
    exact hsent

theorem cellParts_eq (parts : List (ℚ × ℚ × ℚ)) (s : Nat)
    (a : Nat → List SEntry) (ch : List MCell) :
    cellParts (.mk parts s a ch) =
      if ch.isEmpty then parts
      else (ch.attach.map (fun c => cellParts c.1)).flatten := by
  rw [cellParts]

theorem cellParts_node (parts : List (ℚ × ℚ × ℚ)) (s : Nat)
    (a : Nat → List SEntry) (ch : List MCell) (h : ¬ch.isEmpty) :
    cellParts (.mk parts s a ch) = (ch.map cellParts).flatten := by
  rw [cellParts_eq, if_neg h, attach_map_fn]

theorem SortInv_eq (M : ℚ) (shift : Nat → ℚ × ℚ × ℚ)
    (parts : List (ℚ × ℚ × ℚ)) (s : Nat) (a : Nat → List SEntry)
    (ch : List MCell) :
    SortInv M shift (.mk parts s a ch) =
      ((∀ j, j < 13 → s.testBit j = true →
        dirOK M
          ((cellParts (.mk parts s a ch)).map (fun p => proj shift p j))
          (a j)) ∧
      ∀ c ∈ ch.attach, SortInv M shift c.1) := by
  rw [SortInv]

theorem dirOK_decomp (M : ℚ) (projs : List ℚ) (sl : List SEntry)
    (h : dirOK M projs sl) :
    sl = sl.take projs.length ++ [(⟨M, 0⟩ : SEntry)] := by
  have h1 := takeD_decomp sl projs.length h.1
  rw [h.2.2.2] at h1
  exact h1

theorem dirOK_sorted_getD (M : ℚ) (projs : List ℚ) (sl : List SEntry)
    (h : dirOK M projs sl) :
    ∀ a b : Nat, a ≤ b → b < (sl.take projs.length).length →
      ((sl.take projs.length).getD a EZero).d ≤
        ((sl.take projs.length).getD b EZero).d := by
  intro a b hab hb
  rcases eq_or_lt_of_le hab with rfl | hab2
  · exact le_refl _
  · have hp := h.2.1
    rw [List.pairwise_map, List.pairwise_iff_getElem] at hp
    have := hp a b (by omega) hb hab2
    rw [List.getD_eq_getElem _ _ (by omega), List.getD_eq_getElem _ _ hb]
    exact this

theorem dirOK_mem_d (M : ℚ) (projs : List ℚ) (sl : List SEntry)
    (h : dirOK M projs sl) (e : SEntry) (he : e ∈ sl.take projs.length) :
    e.d ∈ projs := by
  have h1 : e.d ∈ (sl.take projs.length).map SEntry.d :=
    List.mem_map_of_mem _ he
  exact (h.2.2.1.mem_iff).mp h1

theorem forall₂_map_same {α β γ : Type} (l : List α) (f : α → β)
    (g : α → γ) (R : β → γ → Prop) (h : ∀ x ∈ l, R (f x) (g x)) :
    List.Forall₂ R (l.map f) (l.map g) := by
  induction l with
  | nil => exact List.Forall₂.nil
  | cons a t ih =>
      exact List.Forall₂.cons (h a (List.mem_cons_self _ _))
        (ih (fun x hx => h x (List.mem_cons_of_mem _ hx)))

theorem testBit_8191 (j : Nat) :
    (8191 : Nat).testBit j = decide (j < 13) := by
  rw [show (8191 : Nat) = 2 ^ 13 - 1 from by norm_num]
  exact Nat.testBit_two_pow_sub_one 13 j

theorem ldiff_zero_bit (a b : Nat) (h : Nat.ldiff a b = 0) (j : Nat)
    (hj : a.testBit j = true) : b.testBit j = true := by
  have h1 : (Nat.ldiff a b).testBit j = false := by
    rw [h]
    exact Nat.zero_testBit j
  rw [Nat.testBit_ldiff, hj] at h1
  simp at h1
  exact h1

theorem cellParts_leaf (parts : List (ℚ × ℚ × ℚ)) (s : Nat)
    (a : Nat → List SEntry) : cellParts (.mk parts s a []) = parts := by
  rw [cellParts_eq]
  rfl

theorem runner_do_sort_eq0 (M : ℚ) (shift : Nat → ℚ × ℚ × ℚ)
    (parts : List (ℚ × ℚ × ℚ)) (sorted : Nat) (sarr : Nat → List SEntry)
    (children : List MCell) (flags : Nat)
    (h : Nat.ldiff flags sorted = 0) :
    runner_do_sort M shift (.mk parts sorted sarr children) flags =
      .mk parts sorted sarr children := by
  rw [runner_do_sort]
  rw [if_pos h]

theorem runner_do_sort_eq_leaf (M : ℚ) (shift : Nat → ℚ × ℚ × ℚ)
    (parts : List (ℚ × ℚ × ℚ)) (sorted : Nat) (sarr : Nat → List SEntry)
    (flags : Nat) (h : Nat.ldiff flags sorted ≠ 0) :
    runner_do_sort M shift (.mk parts sorted sarr []) flags =
      .mk parts (sorted ||| (Nat.ldiff flags sorted &&& 8191))
        (fun j => if j < 13 ∧ (Nat.ldiff flags sorted).testBit j then
            runner_do_sort_ascending
              (leafFill shift parts j ++ [⟨M, 0⟩]) parts.length
          else sarr j)
        [] := by
  rw [runner_do_sort]
  rw [if_neg h]
  rfl

theorem runner_do_sort_eq_node (M : ℚ) (shift : Nat → ℚ × ℚ × ℚ)
    (parts : List (ℚ × ℚ × ℚ)) (sorted : Nat) (sarr : Nat → List SEntry)
    (children : List MCell) (flags : Nat)
    (h : Nat.ldiff flags sorted ≠ 0) (hch : ¬children.isEmpty) :
    runner_do_sort M shift (.mk parts sorted sarr children) flags =
      .mk parts (sorted ||| (Nat.ldiff flags sorted &&& 8191))
        (fun j => if j < 13 ∧ (Nat.ldiff flags sorted).testBit j then
            mergeSlice M
              ((children.attach.map (fun c =>
                if Nat.ldiff (Nat.ldiff flags sorted) c.1.sortedOf ≠ 0 then
                  runner_do_sort M shift c.1
                    (Nat.ldiff (Nat.ldiff flags sorted) c.1.sortedOf)
                else c.1)).map (fun ck => ck.sarrOf j))
              ((children.attach.map (fun c =>
                if Nat.ldiff (Nat.ldiff flags sorted) c.1.sortedOf ≠ 0 then
                  runner_do_sort M shift c.1
                    (Nat.ldiff (Nat.ldiff flags sorted) c.1.sortedOf)
                else c.1)).map cellCount)
              ((children.attach.map (fun c =>
                if Nat.ldiff (Nat.ldiff flags sorted) c.1.sortedOf ≠ 0 then
                  runner_do_sort M shift c.1
                    (Nat.ldiff (Nat.ldiff flags sorted) c.1.sortedOf)
                else c.1)).map cellCount).sum
              (fun k => (((children.attach.map (fun c =>
                if Nat.ldiff (Nat.ldiff flags sorted) c.1.sortedOf ≠ 0 then
                  runner_do_sort M shift c.1
                    (Nat.ldiff (Nat.ldiff flags sorted) c.1.sortedOf)
                else c.1)).map cellCount).take k).sum)
          else sarr j)
        (children.attach.map (fun c =>
          if Nat.ldiff (Nat.ldiff flags sorted) c.1.sortedOf ≠ 0 then
            runner_do_sort M shift c.1
              (Nat.ldiff (Nat.ldiff flags sorted) c.1.sortedOf)
          else c.1)) := by
  rw [runner_do_sort]
  rw [if_neg h, if_neg hch]

theorem runner_do_sort_strong (M : ℚ) (shift : Nat → ℚ × ℚ × ℚ) :
    ∀ (n : Nat) (c : MCell) (flags : Nat), sizeOf c ≤ n →
      SortInv M shift c →
      (∀ p ∈ cellParts c, ∀ j, j < 13 → proj shift p j < M) →
      SortInv M shift (runner_do_sort M shift c flags) ∧
      cellParts (runner_do_sort M shift c flags) = cellParts c ∧
      (runner_do_sort M shift c flags).sortedOf =
        c.sortedOf ||| (Nat.ldiff flags c.sortedOf &&& 8191) := by
  intro n
  induction n with
  | zero =>
      intro c flags hsz hinv hb
      exfalso
      cases c with
      | mk parts s a ch =>
          simp only [MCell.mk.sizeOf_spec] at hsz
          omega
  | succ n0 ih =>
      intro c flags hsz hinv hb
      cases c with
      | mk parts sorted sarr children =>
      by_cases hfl0 : Nat.ldiff flags sorted = 0
      · rw [runner_do_sort_eq0 M shift parts sorted sarr children flags hfl0]
        refine ⟨hinv, rfl, ?_⟩
        show sorted = sorted ||| (Nat.ldiff flags sorted &&& 8191)
        rw [hfl0]
        simp
      · by_cases hleaf : children.isEmpty
        · have hchnil : children = [] := by
            cases children with
            | nil => rfl
            | cons a t => simp at hleaf
          subst hchnil
          rw [runner_do_sort_eq_leaf M shift parts sorted sarr flags hfl0]
          rw [SortInv_eq] at hinv
          refine ⟨?_, by rw [cellParts_leaf, cellParts_leaf], rfl⟩
          rw [SortInv_eq]
          constructor
          · intro j hj hbit
            rw [cellParts_leaf]
            rw [Nat.testBit_lor, Nat.testBit_land, testBit_8191] at hbit
            beta_reduce
            by_cases hflj : (Nat.ldiff flags sorted).testBit j = true
            · rw [if_pos ⟨hj, by rw [hflj]⟩]
              exact leaf_dirOK M shift parts j
            · rw [if_neg (by
                intro hc
                exact hflj hc.2)]
              have hsb : sorted.testBit j = true := by
                cases hcase : (Nat.ldiff flags sorted).testBit j with
                | true => exact absurd hcase hflj
                | false =>
                    rw [hcase] at hbit
                    simpa using hbit
              have := hinv.1 j hj hsb
              rw [cellParts_leaf] at this
              exact this
          · intro cc hcc
            simp at hcc
        · have hchne : children ≠ [] := by
            intro hc
            rw [hc] at hleaf
            exact hleaf rfl
          rw [runner_do_sort_eq_node M shift parts sorted sarr children
            flags hfl0 hleaf]
          set fl := Nat.ldiff flags sorted with hfldef
          set FF := (fun c : {x // x ∈ children} =>
            if Nat.ldiff fl c.1.sortedOf ≠ 0 then
              runner_do_sort M shift c.1 (Nat.ldiff fl c.1.sortedOf)
            else c.1) with hFF
          set children2 := children.attach.map FF with hch2
          rw [SortInv_eq] at hinv
          have hchfact : ∀ cc : {x // x ∈ children},
              SortInv M shift (FF cc) ∧
              cellParts (FF cc) = cellParts cc.1 ∧
              (∀ j, j < 13 → fl.testBit j = true →
                (FF cc).sortedOf.testBit j = true) := by
            intro cc
            have hsz2 : sizeOf cc.1 ≤ n0 := by
              have h1 := List.sizeOf_lt_of_mem cc.2
              simp only [MCell.mk.sizeOf_spec] at hsz
              omega
            have hinv2 := hinv.2 cc (List.mem_attach _ _)
            have hb2 : ∀ p ∈ cellParts cc.1, ∀ j, j < 13 →
                proj shift p j < M := by
              intro p hp j hj
              refine hb p ?_ j hj
              rw [cellParts_node parts sorted sarr children hleaf]
              exact List.mem_flatten.mpr ⟨cellParts cc.1,
                List.mem_map_of_mem _ cc.2, hp⟩
            have hFFcc : FF cc = (if Nat.ldiff fl cc.1.sortedOf ≠ 0 then
                runner_do_sort M shift cc.1 (Nat.ldiff fl cc.1.sortedOf)
              else cc.1) := rfl
            rw [hFFcc]
            by_cases hmiss : Nat.ldiff fl cc.1.sortedOf ≠ 0
            · rw [if_pos hmiss]
              obtain ⟨q1, q2, q3⟩ := ih cc.1 (Nat.ldiff fl cc.1.sortedOf)
                hsz2 hinv2 hb2
              refine ⟨q1, q2, ?_⟩
              intro j hj hflj
              rw [q3, Nat.testBit_lor, Nat.testBit_land, testBit_8191]
              by_cases hcs2 : cc.1.sortedOf.testBit j = true
              · rw [hcs2]
                rfl
              · have hbit2 : (Nat.ldiff (Nat.ldiff fl cc.1.sortedOf)
                    cc.1.sortedOf).testBit j = true := by
                  rw [Nat.testBit_ldiff, Nat.testBit_ldiff, hflj]
                  cases hcase : cc.1.sortedOf.testBit j with
                  | true => exact absurd hcase hcs2
                  | false => rfl
                rw [hbit2]
                simp [hj]
            · rw [if_neg hmiss]
              push_neg at hmiss
              refine ⟨hinv2, rfl, ?_⟩
              intro j hj hflj
              exact ldiff_zero_bit fl cc.1.sortedOf hmiss j hflj
          have hpartsmap : children2.map cellParts =
              children.map cellParts := by
            rw [hch2, List.map_map]
            have hcong : children.attach.map (cellParts ∘ FF) =
                children.attach.map (fun cc => cellParts cc.1) := by
              apply List.map_congr_left
              intro cc hcc
              exact (hchfact cc).2.1
            rw [hcong, attach_map_fn]
          have hlen2 : children2.length = children.length := by
            rw [hch2]
            simp
          have hch2ne : ¬children2.isEmpty := by
            intro hcon
            rw [List.isEmpty_iff] at hcon
            rw [hcon] at hlen2
            simp at hlen2
            exact hchne (List.eq_nil_of_length_eq_zero hlen2.symm)
          refine ⟨?_, ?_, rfl⟩
          rotate_left
          · rw [cellParts_node _ _ _ _ hch2ne,
              cellParts_node _ _ _ _ hleaf, hpartsmap]
          rw [SortInv_eq]
          constructor
          · intro j hj hbit
            rw [cellParts_node _ _ _ _ hch2ne, hpartsmap,
              ← cellParts_node parts sorted sarr children hleaf]
            rw [Nat.testBit_lor, Nat.testBit_land, testBit_8191] at hbit
            beta_reduce
            by_cases hflj : fl.testBit j = true
            · rw [if_pos ⟨hj, by rw [hflj]⟩]
              have hckmem : ∀ ck ∈ children2, SortInv M shift ck ∧
                  (∀ p ∈ cellParts ck, ∀ j2, j2 < 13 →
                    proj shift p j2 < M) ∧
                  ck.sortedOf.testBit j = true := by
                intro ck hck
                rw [hch2] at hck
                obtain ⟨cc, hcc, hrf⟩ := List.mem_map.mp hck
                rw [← hrf]
                refine ⟨(hchfact cc).1, ?_, (hchfact cc).2.2 j hj hflj⟩
                intro p hp j2 hj2
                rw [(hchfact cc).2.1] at hp
                refine hb p ?_ j2 hj2
                rw [cellParts_node parts sorted sarr children hleaf]
                exact List.mem_flatten.mpr ⟨cellParts cc.1,
                  List.mem_map_of_mem _ cc.2, hp⟩
              have hckdir : ∀ ck ∈ children2,
                  dirOK M ((cellParts ck).map (fun p => proj shift p j))
                    (ck.sarrOf j) := by
                intro ck hck
                obtain ⟨hckinv, -, hckbit⟩ := hckmem ck hck
                cases ck with
                | mk cp cs2 ca cch =>
                    rw [SortInv_eq] at hckinv
                    exact hckinv.1 j hj hckbit
              set csl := children2.map (fun ck => ck.sarrOf j) with hcsl
              set Cs := children2.map
                (fun ck => (ck.sarrOf j).take (cellCount ck)) with hCsd
              set cnts := children2.map cellCount with hcnts2
              have hcsllen : csl.length = children2.length := by
                rw [hcsl]
                simp
              have hCslen : Cs.length = children2.length := by
                rw [hCsd]
                simp
              have hcntslen : cnts.length = children2.length := by
                rw [hcnts2]
                simp
              have hgetfacts : ∀ k, k < csl.length →
                  csl.getD k [] = ((children2.getD k
                      (MCell.mk [] 0 (fun _ => []) [])).sarrOf j) ∧
                  Cs.getD k [] = ((children2.getD k
                      (MCell.mk [] 0 (fun _ => []) [])).sarrOf j).take
                    (cellCount (children2.getD k
                      (MCell.mk [] 0 (fun _ => []) []))) ∧
                  cnts.getD k 0 = cellCount (children2.getD k
                    (MCell.mk [] 0 (fun _ => []) [])) ∧
                  (children2.getD k (MCell.mk [] 0 (fun _ => []) [])) ∈
                    children2 := by
                intro k hk
                rw [hcsllen] at hk
                refine ⟨?_, ?_, ?_, getD_mem _ _ _ hk⟩
                · rw [hcsl]
                  exact getD_map_lt children2 _ k hk _ _
                · rw [hCsd]
                  exact getD_map_lt children2 _ k hk _ _
                · rw [hcnts2]
                  exact getD_map_lt children2 _ k hk _ _
              have hprojlen : ∀ ck : MCell,
                  ((cellParts ck).map (fun p => proj shift p j)).length =
                    cellCount ck := by
                intro ck
                rw [List.length_map]
                rfl
              refine dirOK_perm M _ _ _
                (mergeSlice_spec M csl Cs cnts cnts.sum
                  (fun k => ((cnts.take k).sum))
                  ?_ ?_ ?_ ?_ ?_) ?_
              · intro k hk
                obtain ⟨hg1, hg2, hg3, hg4⟩ := hgetfacts k hk
                have hdir := hckdir _ hg4
                have hdec := dirOK_decomp M _ _ hdir
                rw [hprojlen] at hdec
                rw [hg1, hg2]
                exact hdec
              · intro k hk a b hab hb2
                obtain ⟨hg1, hg2, hg3, hg4⟩ := hgetfacts k hk
                have hdir := hckdir _ hg4
                have hsg := dirOK_sorted_getD M _ _ hdir a b hab
                rw [hprojlen] at hsg
                rw [hg2] at hb2
                rw [hg2]
                exact hsg hb2
              · intro k hk e he
                obtain ⟨hg1, hg2, hg3, hg4⟩ := hgetfacts k hk
                have hdir := hckdir _ hg4
                rw [hg2] at he
                have hmem := dirOK_mem_d M _ _ hdir e (by
                  rw [hprojlen]
                  exact he)
                obtain ⟨p, hp, hpe⟩ := List.mem_map.mp hmem
                rw [← hpe]
                exact (hckmem _ hg4).2.1 p hp j hj
              · intro k hk
                obtain ⟨hg1, hg2, hg3, hg4⟩ := hgetfacts k hk
                have hdir := hckdir _ hg4
                rw [hg2, hg3]
                rw [List.length_take]
                have hlen3 := hdir.1
                rw [hprojlen] at hlen3
                rw [hlen3]
                omega
              · rw [show csl.length = Cs.length from by
                  rw [hcsllen, hCslen]]
                rw [map_range_getD Cs List.length []]
                apply congrArg
                have h1 : Cs.map List.length =
                    children2.map
                      (fun ck => ((ck.sarrOf j).take (cellCount ck)).length)
                    := by
                  rw [hCsd]
                  simp [List.map_map]
                rw [h1, hcnts2]
                apply List.map_congr_left
                intro ck hck
                show cellCount ck = ((ck.sarrOf j).take (cellCount ck)).length
                have hdir := hckdir ck hck
                have hlen3 := hdir.1
                rw [hprojlen] at hlen3
                rw [List.length_take, hlen3]
                omega
              · rw [show csl.length = Cs.length from by
                  rw [hcsllen, hCslen]]
                rw [map_range_getD Cs (List.map SEntry.d) []]
                have h1 : Cs.map (List.map SEntry.d) =
                    children2.map (fun ck =>
                      (((ck.sarrOf j).take (cellCount ck)).map SEntry.d))
                    := by
                  rw [hCsd]
                  simp [List.map_map]
                rw [h1]
                rw [cellParts_node parts sorted sarr children hleaf,
                  ← hpartsmap, List.map_flatten]
                have h2 : (children2.map cellParts).map
                      (List.map (fun p => proj shift p j)) =
                    children2.map (fun ck =>
                      (cellParts ck).map (fun p => proj shift p j)) := by
                  simp [List.map_map]
                rw [h2]
                apply List.Perm.flatten_congr
                apply forall₂_map_same
                intro ck hck
                show List.Perm
                  (((ck.sarrOf j).take (cellCount ck)).map SEntry.d)
                  ((cellParts ck).map (fun p => proj shift p j))
                have hdir := hckdir ck hck
                have hperm := hdir.2.2.1
                rw [hprojlen] at hperm
                exact hperm
            · rw [if_neg (by
                intro hc
                exact hflj hc.2)]
              have hsb : sorted.testBit j = true := by
                cases hcase : fl.testBit j with
                | true => exact absurd hcase hflj
                | false =>
                    rw [hcase] at hbit
                    simpa using hbit
              exact hinv.1 j hj hsb
          · intro cc2 hcc2
            have hmem2 : cc2.1 ∈ List.map FF children.attach := cc2.2
            obtain ⟨cc, hcc, hrf⟩ := List.mem_map.mp hmem2
            rw [← hrf]
            exact (hchfact cc).1

/-- C5: After `runner_do_sort` returns, every direction `j` (0 ≤ j < 13)
whose bit is set in the cell's `sorted` mask has a sort array satisfying
`dirOK`: it holds exactly `count + 1` entries, the projected distances of
the cell's `count` particles in monotonically non-decreasing order,
followed by the sentinel `⟨M, 0⟩` (FLT_MAX) as the `(count+1)`-th entry —
both for leaves (in-place `runner_do_sort_ascending` quicksort) and for
split cells (8-way `mergeSlice`).  The hypotheses are the corresponding
entry invariant: every bit already set in `sorted` on entry has a valid
sort array (`SortInv`, recursively down the tree), and every projected
distance is below the sentinel value `M`. -/
theorem runner_do_sort_spec (M : ℚ) (shift : Nat → ℚ × ℚ × ℚ)
    (c : MCell) (flags : Nat)
    (hinv : SortInv M shift c)
    (hb : ∀ p ∈ cellParts c, ∀ j, j < 13 → proj shift p j < M) :
    ∀ j, j < 13 →
      (runner_do_sort M shift c flags).sortedOf.testBit j = true →
      dirOK M ((cellParts c).map (fun p => proj shift p j))
        ((runner_do_sort M shift c flags).sarrOf j) := by
  intro j hj hbit
  obtain ⟨hinv2, hparts, -⟩ :=
    runner_do_sort_strong M shift (sizeOf c) c flags le_rfl hinv hb
  cases hres : runner_do_sort M shift c flags with
  | mk parts2 s2 a2 ch2 =>
      rw [hres] at hinv2 hparts hbit
      rw [SortInv_eq] at hinv2
      have hd := hinv2.1 j hj (by simpa [MCell.sortedOf] using hbit)
      rw [hparts] at hd
      simpa [MCell.sarrOf] using hd

theorem runner_do_sort_spec_witness :
    dirOK 100
      ((cellParts (MCell.mk [((3:ℚ), (0:ℚ), (0:ℚ)), ((1:ℚ), (0:ℚ), (0:ℚ))]
          0 (fun _ => []) [])).map
        (fun p => proj (fun _ => ((1:ℚ), (0:ℚ), (0:ℚ))) p 0))
      ((runner_do_sort 100 (fun _ => ((1:ℚ), (0:ℚ), (0:ℚ)))
          (MCell.mk [((3:ℚ), (0:ℚ), (0:ℚ)), ((1:ℚ), (0:ℚ), (0:ℚ))]
            0 (fun _ => []) []) 1).sarrOf 0) := by
  have hinv : SortInv 100 (fun _ => ((1:ℚ), (0:ℚ), (0:ℚ)))
      (MCell.mk [((3:ℚ), (0:ℚ), (0:ℚ)), ((1:ℚ), (0:ℚ), (0:ℚ))]
        0 (fun _ => []) []) := by
    rw [SortInv_eq]
    constructor
    · intro j hj hb0
      simp at hb0
    · intro c hc
      simp at hc
  have hb : ∀ p ∈ cellParts (MCell.mk [((3:ℚ), (0:ℚ), (0:ℚ)),
      ((1:ℚ), (0:ℚ), (0:ℚ))] 0 (fun _ => []) []),
      ∀ j, j < 13 → proj (fun _ => ((1:ℚ), (0:ℚ), (0:ℚ))) p j < 100 := by
    intro p hp j hj
    rw [cellParts_leaf] at hp
    simp only [List.mem_cons, List.not_mem_nil, or_false] at hp
    rcases hp with rfl | rfl
    all_goals norm_num [proj]
  have hfl : Nat.ldiff 1 0 ≠ 0 := by
    intro h
    have h1 : (Nat.ldiff 1 0).testBit 0 = false := by
      rw [h]
      exact Nat.zero_testBit 0
    rw [Nat.testBit_ldiff] at h1
    simp [Nat.zero_testBit, Nat.testBit_zero] at h1
  have hbit : (runner_do_sort 100 (fun _ => ((1:ℚ), (0:ℚ), (0:ℚ)))
      (MCell.mk [((3:ℚ), (0:ℚ), (0:ℚ)), ((1:ℚ), (0:ℚ), (0:ℚ))]
        0 (fun _ => []) []) 1).sortedOf.testBit 0 = true := by
    rw [runner_do_sort_eq_leaf _ _ _ _ _ _ hfl]
    rw [MCell.sortedOf]
    rw [Nat.testBit_lor, Nat.testBit_land, Nat.testBit_ldiff, testBit_8191]
    simp [Nat.zero_testBit, Nat.testBit_zero]
  exact runner_do_sort_spec 100 (fun _ => ((1:ℚ), (0:ℚ), (0:ℚ)))
    (MCell.mk [((3:ℚ), (0:ℚ), (0:ℚ)), ((1:ℚ), (0:ℚ), (0:ℚ))]
      0 (fun _ => []) []) 1 hinv hb 0 (by norm_num) hbit
